import Mathlib

/-!
# slabcc core (`slabcc_core.cpp`): a shallow embedding and its verified properties

The numeric type of the program (`double`) is embedded as an arbitrary linearly
ordered field `α` (exact arithmetic); the executable instances used for concrete
evaluation are taken at `ℚ`, the limit statements at `ℝ`. The complex numbers of the
program (`cx_double`) are a field `K` that is an algebra over `α`, taken at `ℂ` over `ℝ`.

Armadillo containers:
* `rowvec`  (dynamic row vector)  is a `List α`;
* `rowvec2`, `rowvec3` (fixed size) are `Fin 2 → α`, `Fin 3 → α`;
* `mat` is the list of its rows;
* `cube`, `cx_cube` and the complex matrices of the Poisson solver are given by their entries;
* `std::vector<double>` is a `List α`.

Checked element access (`x.at(i)`, `v(i)`, `M(i,j)`) is fallible and is embedded in
`Option`: `none` stands for the exception thrown on an index out of range.
-/

namespace Slabcc

/-! ## Containers -/

/-- Armadillo `rowvec`: a dynamically sized row vector. -/
abbrev rowvec (α : Type) := List α

/-- Armadillo `rowvec2`: a row vector of exactly two entries. -/
abbrev rowvec2 (α : Type) := Fin 2 → α

/-- Armadillo `rowvec3`: a row vector of exactly three entries. -/
abbrev rowvec3 (α : Type) := Fin 3 → α

/-- Armadillo `urowvec3`: three unsigned integers. -/
abbrev urowvec3 := Fin 3 → ℕ

/-- Armadillo `mat`, stored as the list of its rows. -/
abbrev mat (α : Type) := List (List α)

/-- Number of rows, `M.n_rows`. -/
def mat_n_rows {α : Type} (M : mat α) : ℕ := M.length

/-- Armadillo `M.is_rowvec()`: the matrix has exactly one row. -/
def mat_is_rowvec {α : Type} (M : mat α) : Bool := mat_n_rows M == 1

/-- Checked read `M(i, j)`. -/
def mat_elem {α : Type} (M : mat α) (i j : ℕ) : Option α :=
  (M[i]?).bind (fun r => r[j]?)

/-- Checked in-place write `v(i) = x` (also `v.at(i) = x`). -/
def vec_set {α : Type} (v : List α) (i : ℕ) (x : α) : Option (List α) :=
  if i < v.length then some (v.set i x) else none

/-- Checked in-place write `M(i, j) = x`. -/
def mat_set {α : Type} (M : mat α) (i j : ℕ) (x : α) : Option (mat α) :=
  match M[i]? with
  | none => none
  | some r => if j < r.length then some (M.set i (r.set j x)) else none

/-- Armadillo `accu`: the sum of all entries. -/
def accu {α : Type} [Zero α] [Add α] (v : List α) : α := v.sum

/-- The shape `N × 3` of a matrix stored by rows. -/
def mat_shape {α : Type} (M : mat α) (n c : ℕ) : Prop :=
  M.length = n ∧ ∀ r ∈ M, r.length = c

/-! ## Optimisation variables: packing and unpacking -/

/-- The variables the optimiser works on (`struct opt_vars`). -/
structure opt_vars (α : Type) where
  interfaces : rowvec2 α
  sigma : rowvec α
  Qd : rowvec α
  charge_position : mat α

/-- An `opt_vars` with `N` charges: `sigma` and `Qd` of length `N`,
`charge_position` of shape `N × 3`. -/
def opt_vars.charges {α : Type} (v : opt_vars α) (N : ℕ) : Prop :=
  v.sigma.length = N ∧ v.Qd.length = N ∧ mat_shape v.charge_position N 3

variable {α : Type} [LinearOrderedField α]

/-- One iteration `i` of the loop over the charges in `optimizer_packer`
(lines 266-288), acting on `(opt_param, low_b, upp_b)`. -/
def optimizer_packer_charge (v : opt_vars α) (optimize_charge : Bool)
    (st : List α × List α × List α) (i : ℕ) : Option (List α × List α × List α) := do
  let (opt_param, low_b, upp_b) := st
  let sigma_i ← v.sigma[i]?
  let Qd_i ← v.Qd[i]?
  let opt_param := opt_param ++ [sigma_i, Qd_i]
  let min_charge := min 0 (accu v.Qd)
  let max_charge := max 0 (accu v.Qd)
  let (low_b, upp_b) :=
    if optimize_charge then
      (low_b ++ [1 / 10, min_charge, 0, 0, 0], upp_b ++ [7, max_charge, 1, 1, 1])
    else
      (low_b ++ [sigma_i, Qd_i], upp_b ++ [sigma_i, Qd_i])
  (List.range 3).foldlM
    (fun (acc : List α × List α × List α) (j : ℕ) => do
      let c ← mat_elem v.charge_position i j
      pure (acc.1 ++ [c],
            if !optimize_charge then acc.2.1 ++ [c] else acc.2.1,
            if !optimize_charge then acc.2.2 ++ [c] else acc.2.2))
    (opt_param, low_b, upp_b)

/-- The function `optimizer_packer`: the parameter vector and its lower and upper bounds. -/
def optimizer_packer (v : opt_vars α) (optimize_charge optimize_interface : Bool) :
    Option (List α × List α × List α) := do
  let opt_param : List α := [v.interfaces 0, v.interfaces 1]
  let low_b : List α := if !optimize_interface then opt_param else [0, 0]
  let upp_b : List α := if !optimize_interface then opt_param else [1, 1]
  let (opt_param, low_b, upp_b) ←
    (List.range (mat_n_rows v.charge_position)).foldlM
      (optimizer_packer_charge v optimize_charge) (opt_param, low_b, upp_b)
  -- if we have only one charge, there is no need to optimize the Qd
  if mat_is_rowvec v.charge_position then
    let Qd_0 ← v.Qd[0]?
    let low_b ← vec_set low_b 3 Qd_0
    let upp_b ← vec_set upp_b 3 Qd_0
    pure (opt_param, low_b, upp_b)
  else
    pure (opt_param, low_b, upp_b)

/-- One iteration `i` of the loop over the charges in `optimizer_unpacker`
(lines 309-315). -/
def optimizer_unpacker_charge (optimized_vars : List α) (v : opt_vars α) (i : ℕ) :
    Option (opt_vars α) := do
  let s ← optimized_vars[2 + 5 * i]?
  let sigma ← vec_set v.sigma i s
  let q ← optimized_vars[3 + 5 * i]?
  let Qd ← vec_set v.Qd i q
  let charge_position ← (List.range 3).foldlM
    (fun (M : mat α) (j : ℕ) => do
      let c ← optimized_vars[4 + i * 5 + j]?
      mat_set M i j c)
    v.charge_position
  pure { v with sigma := sigma, Qd := Qd, charge_position := charge_position }

/-- The function `optimizer_unpacker`: write the parameter vector back into `opt_vars`. -/
def optimizer_unpacker (optimized_vars : List α) (v : opt_vars α) : Option (opt_vars α) := do
  let n_charges := optimized_vars.length / 5
  let x0 ← optimized_vars[0]?
  let x1 ← optimized_vars[1]?
  (List.range n_charges).foldlM (optimizer_unpacker_charge optimized_vars)
    { v with interfaces := ![x0, x1] }

/-! ## The optimisation driver: constraint and optimiser set-up -/

/-- The function `opt_charge_constraint`: the equality constraint handed to the optimiser;
`Q0` is the field `d->Q0` of the callback data. -/
def opt_charge_constraint (x : List α) (Q0 : α) : Option α := do
  let n_charges := x.length / 5
  let Qd ← (List.range n_charges).mapM (fun i => x[3 + 5 * i]?)
  let constraint := accu Qd - Q0
  pure constraint

/-- The two NLopt algorithms `do_optimize` selects between. -/
inductive nlopt_algorithm where
  | LN_COBYLA
  | LN_BOBYQA
  deriving DecidableEq, Repr

/-- The state of the `nlopt::opt` object as `do_optimize` configures it (lines 193-222):
algorithm, dimension, bounds, stopping criteria, and the tolerance of the registered
equality constraint `opt_charge_constraint` when there is one. -/
structure nlopt_opt (α : Type) where
  algorithm : nlopt_algorithm
  n : ℕ
  lower_bounds : List α
  upper_bounds : List α
  xtol_rel : α
  maxeval : Option ℤ
  maxtime : Option α
  equality_constraint : Option α

/-- Lines 192-222 of `do_optimize`: the configured optimiser object together with the start
vector `opt_param`. -/
def do_optimize_opt (opt_algo : String) (opt_tol : α) (max_eval max_time : ℤ)
    (v : opt_vars α) (optimize_charge optimize_interface : Bool) :
    Option (nlopt_opt α × List α) := do
  let opt_algorithm :=
    if opt_algo = "BOBYQA" then
      (if v.Qd.length = 1 then nlopt_algorithm.LN_BOBYQA else nlopt_algorithm.LN_COBYLA)
    else nlopt_algorithm.LN_COBYLA
  let (opt_param, low_b, upp_b) ← optimizer_packer v optimize_charge optimize_interface
  pure ({ algorithm := opt_algorithm
          n := opt_param.length
          lower_bounds := low_b
          upper_bounds := upp_b
          xtol_rel := opt_tol
          maxeval := if max_eval > 0 then some max_eval else none
          maxtime := if max_time > 0 then some (60 * (max_time : α)) else none
          equality_constraint := if v.Qd.length > 1 then some (1 / 10 ^ 8) else none },
        opt_param)

/-- The function `do_optimize`, as far as `opt_vars` is concerned. The NLopt call is external:
`optimize opt x` is the content of `opt_param` after the `try`/`catch` block of lines 231-243,
whether `opt.optimize` returned or threw. -/
def do_optimize (optimize : nlopt_opt α → List α → List α)
    (opt_algo : String) (opt_tol : α) (max_eval max_time : ℤ)
    (v : opt_vars α) (optimize_charge optimize_interface : Bool) : Option (opt_vars α) := do
  let (opt, opt_param) ←
    do_optimize_opt opt_algo opt_tol max_eval max_time v optimize_charge optimize_interface
  let opt_param := optimize opt opt_param
  optimizer_unpacker opt_param v

/-! ## Cell context and dielectric profile -/

/-- The process-wide cell `slabcc_cell` (`struct slabcc_cell_type`). -/
structure slabcc_cell_type (α : Type) where
  lengths : rowvec3 α
  grid : urowvec3
  voxel_vol : α
  normal_direction : Fin 3

/-- The function `UpdateCell`: store lengths and grid, recompute the voxel volume
`prod(lengths / divi)`; `normal_direction` is not touched. -/
def UpdateCell (cell : slabcc_cell_type α) (lengths : rowvec3 α) (divi : urowvec3) :
    slabcc_cell_type α :=
  { cell with
    lengths := lengths
    grid := divi
    voxel_vol := lengths 0 / (divi 0 : α) * (lengths 1 / (divi 1 : α)) * (lengths 2 / (divi 2 : α)) }

/-- Modelled from the spec: `fmod_p`, the positive modulo ("mod_positive") of
`slabcc_math.hpp`, which is not part of the sources at hand: `x - floor(x / y) * y`. -/
def fmod_p [FloorRing α] (x y : α) : α := x - (⌊x / y⌋ : α) * y

/-- Armadillo `linspace<rowvec>(start, stop, N)`: `N` equally spaced points, the last one
being `stop`. -/
def linspace (start stop : α) (N : ℕ) : rowvec α :=
  (List.range N).map (fun i =>
    if i + 1 = N then stop else start + (i : α) * ((stop - start) / ((N : α) - 1)))

/-- Armadillo `sort` on a `rowvec2`: returns an ascending copy, the argument is untouched. -/
def sort (x : rowvec2 α) : rowvec2 α := if x 1 < x 0 then ![x 1, x 0] else x

/-- The body of the loop over the slices in `dielectric_profiles` (lines 20-34): the row `k`
of the profile. -/
def dielectric_profiles_row [FloorRing α] (erf : α → α) (length : α) (positions : rowvec α)
    (interfaces_cartesian : rowvec2 α) (diel_sum diel_diff : rowvec3 α) (diel_erf_beta : α)
    (k : ℕ) : rowvec3 α :=
  -- min distance of the point positions(k) to the interfaces in PBC [-length/2  length/2]
  let distances : rowvec2 α := fun i =>
    fmod_p (positions.getD k 0 - interfaces_cartesian i + length / 2) length - length / 2
  let sel : α × α :=
    if |distances 0| < |distances 1| then (distances 0, -1) else (distances 1, 1)
  let min_distance := sel.1
  let diel_side := sel.2
  let diel_edge := erf (min_distance / diel_erf_beta)
  fun c => (diel_diff c * diel_side * diel_edge + diel_sum c) / 2

/-- The function `dielectric_profiles`. `erf` is the error function of the C library, `cell`
the process-wide `slabcc_cell`. The result of `sort(interfaces_cartesian)` is discarded by
the source (line 13), so `interfaces_cartesian` is used in the order given. -/
def dielectric_profiles [FloorRing α] (erf : α → α) (cell : slabcc_cell_type α)
    (interfaces : rowvec2 α) (diel_in diel_out : rowvec3 α) (diel_erf_beta : α) : mat α :=
  let length := cell.lengths cell.normal_direction
  let n_points := cell.grid cell.normal_direction
  let interfaces_cartesian : rowvec2 α := fun i => interfaces i * length
  let _sorted := sort interfaces_cartesian
  let positions := linspace 0 length (n_points + 1)
  let diel_sum : rowvec3 α := fun c => diel_in c + diel_out c
  let diel_diff : rowvec3 α := fun c => diel_out c - diel_in c
  (List.range n_points).map (fun k =>
    let row := dielectric_profiles_row erf length positions interfaces_cartesian
      diel_sum diel_diff diel_erf_beta k
    [row 0, row 1, row 2])

/-! ## Extrapolation -/

/-- Armadillo `sort_index` on a `rowvec2`: the indices that sort the two entries ascending. -/
def sort_index (x : rowvec2 α) : Fin 2 → Fin 2 := if x 1 < x 0 then ![1, 0] else ![0, 1]

/-- The scaling factor of step `n` (line 456): `1 + extrapol_steps_size * (1.0 + n)`. -/
def extrapol_factor (extrapol_steps_size : α) (n : ℕ) : α :=
  1 + extrapol_steps_size * (1 + (n : α))

/-- Lines 461-464 of `extrapolate_3D`: the extrapolated interfaces. -/
def extrapolate_3D_interfaces (interfaces : rowvec2 α) (extrapol_factor : α) : rowvec2 α :=
  let interfaces_ext : rowvec2 α := interfaces
  let interface_sorted_i := sort_index interfaces
  let interfaces_ext : rowvec2 α :=
    Function.update interfaces_ext (interface_sorted_i 1)
      (interfaces_ext (interface_sorted_i 1)
        + |interfaces 0 - interfaces 1| * (extrapol_factor - 1))
  fun i => interfaces_ext i / extrapol_factor

/-- Lines 467-477 of `extrapolate_3D`: the charges, each moved along the normal direction by
the displacement of the interface it is nearest to. -/
def extrapolate_3D_charges (normal_direction : Fin 3) (interfaces interfaces_ext : rowvec2 α)
    (extrapol_factor : α) (charge_position : mat α) : Option (mat α) :=
  let charge_position_shifted : mat α :=
    charge_position.map (fun r => r.map (fun x => x / extrapol_factor))
  (List.range (mat_n_rows charge_position)).foldlM
    (fun (shifted : mat α) (charge : ℕ) => do
      let z ← mat_elem charge_position charge normal_direction.val
      let distance_to_interfaces : rowvec2 α := fun i => |z - interfaces i|
      let old ← mat_elem shifted charge normal_direction.val
      if distance_to_interfaces 0 < distance_to_interfaces 1 then
        mat_set shifted charge normal_direction.val
          (old + (interfaces_ext 0 - interfaces 0 / extrapol_factor))
      else
        mat_set shifted charge normal_direction.val
          (old + (interfaces_ext 1 - interfaces 1 / extrapol_factor)))
    charge_position_shifted

/-- The function `extrapolate_3D`, with the process-wide cell passed in and returned next to
`(Es, sizes)`. `energy cell interfaces_ext charge_position_shifted` stands for `EperModel` of
lines 479-489 (`dielectric_profiles`, `gaussian_charge`, `poisson_solver_3D`, which read the
cell and never write it). The cast `(uword)` of a non-negative `double` is the floor. -/
def extrapolate_3D [FloorRing α] (energy : slabcc_cell_type α → rowvec2 α → mat α → α)
    (cell : slabcc_cell_type α) (extrapol_steps_num : ℤ) (extrapol_steps_size : α)
    (interfaces : rowvec2 α) (charge_position : mat α) (grid_multiplier : α) :
    Option (slabcc_cell_type α × rowvec α × rowvec α) :=
  let normal_direction := cell.normal_direction
  let cell0 : rowvec3 α := cell.lengths
  let grid0 : urowvec3 := cell.grid
  let grid_ext : rowvec3 α := fun i => grid_multiplier * (grid0 i : α)
  let grid_ext_u : urowvec3 := fun i => ⌊grid_ext i⌋₊
  (List.range (extrapol_steps_num - 1).toNat).foldlM
    (fun (st : slabcc_cell_type α × rowvec α × rowvec α) (n : ℕ) => do
      let factor := extrapol_factor extrapol_steps_size n
      let cell := UpdateCell st.1 (fun i => cell0 i * factor) grid_ext_u
      let interfaces_ext := extrapolate_3D_interfaces interfaces factor
      let charge_position_shifted ←
        extrapolate_3D_charges normal_direction interfaces interfaces_ext factor charge_position
      let EperModel := energy cell interfaces_ext charge_position_shifted
      pure (cell, st.2.1 ++ [EperModel], st.2.2 ++ [1 / factor]))
    (cell, [], [])

/-- The function `extrapolate_2D`, with the process-wide cell passed in and returned next to
`(Es, sizes)`; `energy` as in `extrapolate_3D`. -/
def extrapolate_2D [FloorRing α] (energy : slabcc_cell_type α → rowvec2 α → mat α → α)
    (cell : slabcc_cell_type α) (extrapol_steps_num : ℤ) (extrapol_steps_size : α)
    (interfaces : rowvec2 α) (charge_position : mat α) (grid_multiplier : α) :
    slabcc_cell_type α × rowvec α × rowvec α :=
  let cell0 : rowvec3 α := cell.lengths
  let grid0 : urowvec3 := cell.grid
  let grid_ext : rowvec3 α := fun i => grid_multiplier * (grid0 i : α)
  let grid_ext_u : urowvec3 := fun i => ⌊grid_ext i⌋₊
  let cell := UpdateCell cell cell0 grid_ext_u
  (List.range (extrapol_steps_num - 1).toNat).foldl
    (fun (st : slabcc_cell_type α × rowvec α × rowvec α) (n : ℕ) =>
      let factor := extrapol_factor extrapol_steps_size n
      let cell := UpdateCell st.1 (fun i => cell0 i * factor) grid_ext_u
      let interfaces_ext : rowvec2 α := fun i => interfaces i / factor
      let charge_position_ext : mat α := charge_position.map (fun r => r.map (fun x => x / factor))
      let EperModel := energy cell interfaces_ext charge_position_ext
      (cell, st.2.1 ++ [EperModel], st.2.2 ++ [1 / factor]))
    (cell, [], [])

/-! ## Input validation -/

/-- Number of columns, `M.n_cols`: the common length of the rows (`0` for the empty matrix). -/
def mat_n_cols {β : Type} (M : mat β) : ℕ :=
  match M with
  | [] => 0
  | r :: _ => r.length

/-- The parameter bundle `input_data`, with the fields `parse_input_params` fills. Its members
are references in the program, so what `check_inputs` assigns is seen by the caller. -/
structure input_data (α : Type) where
  CHGCAR_NEU : String
  LOCPOT_NEU : String
  LOCPOT_CHG : String
  CHGCAR_CHG : String
  charge_position : mat α
  Qd : rowvec α
  sigma : rowvec α
  slabcenter : rowvec α
  normal_direction : ℕ
  interfaces : rowvec2 α
  diel_in : rowvec α
  diel_out : rowvec α
  diel_erf_beta : α
  optimize_charge : Bool
  optimize_interface : Bool
  opt_algo : String
  opt_tol : α
  max_eval : ℤ
  max_time : ℤ
  opt_grid_x : α
  extrapol_grid_x : α
  extrapol_steps_num : ℤ
  extrapol_steps_size : α

/-- Armadillo `max(v < 0)` on a row vector: `1` when some entry is negative, `0` otherwise; on
a vector without elements `max` raises an error, which is `none`. -/
def max_lt_zero (v : rowvec α) : Option Bool :=
  if v.isEmpty then none else some (v.any (fun x => decide (x < 0)))

/-- The function `check_inputs`. The result is the bundle as the function leaves it; `none`
stands for leaving through `exit(1)` (or through the error of `max` on an empty tensor).
`file_exists` is the file-system test of the host. Each local name is the field of
`input_set` of the same name. -/
def check_inputs [FloorRing α] (file_exists : String → Bool) (input_set : input_data α) :
    Option (input_data α) := do
  -- all of these must be positive
  let sigma : rowvec α := input_set.sigma.map (fun x => |x|)
  let max_eval : ℤ := |input_set.max_eval|
  let max_time : ℤ := |input_set.max_time|
  let interfaces : rowvec2 α := fun i => fmod_p (input_set.interfaces i) 1
  let extrapol_grid_x : α := |input_set.extrapol_grid_x|
  let opt_grid_x : α := |input_set.opt_grid_x|
  let opt_tol : α := |input_set.opt_tol|
  let diel_in : rowvec α ←
    if input_set.diel_in.length = 1 then do
      let d ← input_set.diel_in[0]?
      pure [d, d, d]
    else pure input_set.diel_in
  let diel_out : rowvec α ←
    if input_set.diel_out.length = 1 then do
      let d ← input_set.diel_out[0]?
      pure [d, d, d]
    else pure input_set.diel_out
  let opt_tol : α := if opt_tol > 1 then 1 / 1000 else opt_tol
  let sigma : rowvec α :=
    if sigma.length ≠ mat_n_rows input_set.charge_position then
      List.replicate (mat_n_rows input_set.charge_position) 1
    else sigma
  let Qd : rowvec α :=
    if input_set.Qd.length ≠ sigma.length then
      List.replicate (mat_n_rows input_set.charge_position) 1
    else input_set.Qd
  if mat_n_cols input_set.charge_position ≠ 3 then none
  else do
    let neg_in ← max_lt_zero diel_in
    let neg_out ← max_lt_zero diel_out
    if neg_in || neg_out then none
    else if !file_exists input_set.CHGCAR_NEU || !file_exists input_set.CHGCAR_CHG
        || !file_exists input_set.LOCPOT_NEU || !file_exists input_set.LOCPOT_CHG then none
    else
      let opt_algo : String :=
        if input_set.opt_algo ≠ "BOBYQA" ∧ input_set.opt_algo ≠ "COBYLA" then "COBYLA"
        else input_set.opt_algo
      let extrapol_steps_num : ℤ :=
        if input_set.extrapol_steps_num < 3 then 3 else input_set.extrapol_steps_num
      pure { input_set with
        sigma := sigma
        max_eval := max_eval
        max_time := max_time
        interfaces := interfaces
        extrapol_grid_x := extrapol_grid_x
        opt_grid_x := opt_grid_x
        opt_tol := opt_tol
        diel_in := diel_in
        diel_out := diel_out
        Qd := Qd
        opt_algo := opt_algo
        extrapol_steps_num := extrapol_steps_num }

/-! ## Reciprocal-space index vectors and Fourier transforms

The transforms of `slabcc_math.hpp` are not among the sources at hand; they are the discrete
Fourier transforms, written over a field `K` of complex numbers with the root of unity
`root N` for the length `N`. A `cube` is given by its entries, its shape is the grid of the
cell. -/

/-- Armadillo `regspace<rowvec>(start, stop)`: the entries `start, start + delta, ...` up to
`stop`, with `delta = +1` when `start ≤ stop` and `delta = -1` otherwise. -/
def regspace [FloorRing α] (start stop : α) : rowvec α :=
  if start ≤ stop then
    (List.range (⌊stop - start⌋₊ + 1)).map (fun (i : ℕ) => start + (i : α))
  else
    (List.range (⌊start - stop⌋₊ + 1)).map (fun (i : ℕ) => start - (i : α))

/-- Armadillo `ceil` on a vector, entry by entry. -/
def vec_ceil [FloorRing α] (v : rowvec α) : rowvec α := v.map (fun x => ((⌈x⌉ : ℤ) : α))

/-- Modelled from the spec: `ifftshift` on a vector (`slabcc_math.hpp`, not part of the
sources at hand), the inverse of `fftshift`: a circular shift that moves the entry at
position `floor(N / 2)`, the zero frequency, to index `0`. -/
def ifftshift_vec {β : Type} (v : List β) : List β := v.rotate (v.length / 2)

/-- The reciprocal-index vector of `poisson_solver_3D` (lines 82-84), before the scaling by
`Gs` and the shift: `ceil(regspace(-0.5 * N, 0.5 * N - 1))`. -/
def poisson_solver_3D_index [FloorRing α] (N : ℕ) : rowvec α :=
  vec_ceil (regspace (-(1 / 2) * (N : α)) (1 / 2 * (N : α) - 1))

/-- The reciprocal-index vector of `gaussian_charge` (lines 49-51), before the scaling by
`Gs`: `regspace(ceil(-0.5 * N), ceil(0.5 * N - 1))`. -/
def gaussian_charge_index [FloorRing α] (N : ℕ) : rowvec α :=
  regspace ((⌈-(1 / 2) * (N : α)⌉ : ℤ) : α) ((⌈1 / 2 * (N : α) - 1⌉ : ℤ) : α)

/-- Armadillo `cube` / `cx_cube`: the entries by index `(row, column, slice)`; the shape is
the grid of the cell. -/
abbrev cube (K : Type) := ℕ → ℕ → ℕ → K

/-- Armadillo `cx_mat` inside the Poisson solver: the entries by index `(row, column)`; the
size is kept alongside. -/
abbrev cx_mat (K : Type) := ℕ → ℕ → K

/-- Armadillo `accu` on a cube of shape `n`: the sum of all entries. -/
def cube_accu {K : Type} [AddCommMonoid K] (n : urowvec3) (X : cube K) : K :=
  ∑ i in Finset.range (n 0), ∑ j in Finset.range (n 1), ∑ k in Finset.range (n 2), X i j k

/-- The discrete Fourier sum of length `n` with the root of unity `w`:
`r ↦ Σ_{k < n} f(k) w^(k r)`. -/
def dft_sum {K : Type} [Field K] (w : K) (n : ℕ) (f : ℕ → K) (r : ℕ) : K :=
  ∑ k in Finset.range n, f k * w ^ (k * r)

/-- Modelled from the spec: `fft` on a cube (`slabcc_math.hpp`, not part of the sources at
hand), the forward discrete Fourier transform along the three axes, unnormalised;
`root N` is the primitive `N`-th root of unity `exp(2 π i / N)`. -/
def fft {K : Type} [Field K] (root : ℕ → K) (n : urowvec3) (X : cube K) : cube K :=
  fun k0 k1 k2 =>
    dft_sum (root (n 0))⁻¹ (n 0) (fun r0 =>
      dft_sum (root (n 1))⁻¹ (n 1) (fun r1 =>
        dft_sum (root (n 2))⁻¹ (n 2) (fun r2 => X r0 r1 r2) k2) k1) k0

/-- Modelled from the spec: `ifft` on a cube (`slabcc_math.hpp`, not part of the sources at
hand), the inverse discrete Fourier transform along the three axes, each normalised by the
length of the axis. -/
def ifft {K : Type} [Field K] (root : ℕ → K) (n : urowvec3) (X : cube K) : cube K :=
  fun r0 r1 r2 =>
    dft_sum (root (n 0)) (n 0) (fun k0 =>
      dft_sum (root (n 1)) (n 1) (fun k1 =>
        dft_sum (root (n 2)) (n 2) (fun k2 => X k0 k1 k2) r2 / (n 2 : K)) r1 / (n 1 : K)) r0
      / (n 0 : K)

/-- Modelled from the spec: `ifftshift` on a cube (`slabcc_math.hpp`, not part of the sources
at hand): along each axis the entry at position `floor(N / 2)` moves to index `0`. -/
def ifftshift_cube {K : Type} (n : urowvec3) (X : cube K) : cube K :=
  fun i j k => X ((i + n 0 / 2) % n 0) ((j + n 1 / 2) % n 1) ((k + n 2 / 2) % n 2)

/-- Modelled from the spec: `fft` on a real matrix (`slabcc_math.hpp`, not part of the sources
at hand): the forward discrete Fourier transform of each column, unnormalised. -/
def fft_mat {K : Type} [Field K] [Algebra α K] (root : ℕ → K) (M : mat α) : cx_mat K :=
  fun r c =>
    dft_sum (root (mat_n_rows M))⁻¹ (mat_n_rows M)
      (fun s => algebraMap α K ((mat_elem M s c).getD 0)) r

/-! ## Gaussian charge -/

/-- Armadillo `cx_cube(re, im)`, one entry: the complex number with the given real and
imaginary part; `I` is the imaginary unit of the complex type `K`. -/
def cx {K : Type} [Field K] [Algebra α K] (I : K) (re im : α) : K :=
  algebraMap α K re + algebraMap α K im * I

/-- Modelled from the spec: `ndgrid` (`slabcc_math.hpp`, not part of the sources at hand):
the three cubes that repeat `v1` along the rows, `v2` along the columns and `v3` along the
slices. A cube is given by its entries at the indices inside the grid (a vector read outside
its range gives `0`). -/
def ndgrid (v1 v2 v3 : rowvec α) : cube α × cube α × cube α :=
  (fun i _ _ => v1.getD i 0, fun _ j _ => v2.getD j 0, fun _ _ k => v3.getD k 0)

/-- The reciprocal-space array `rhok` of `gaussian_charge` (lines 48-65), before the shift
and the inverse transform. `pi` is the constant `PI`, `exp` and `cexp` are the real and the
complex exponential of the C++ library, `cell` is the process-wide `slabcc_cell`. -/
def gaussian_charge_rhok [FloorRing α] {K : Type} [Field K] [Algebra α K] (pi : α)
    (exp : α → α) (cexp : K → K) (I : K) (cell : slabcc_cell_type α) (Q : α)
    (pos : rowvec3 α) (sigma : α) : cube K :=
  let Gs : rowvec3 α := fun a => 2 * pi / cell.lengths a
  let Gx0 : rowvec α := (gaussian_charge_index (cell.grid 0)).map (fun g => g * Gs 0)
  let Gy0 : rowvec α := (gaussian_charge_index (cell.grid 1)).map (fun g => g * Gs 1)
  let Gz0 : rowvec α := (gaussian_charge_index (cell.grid 2)).map (fun g => g * Gs 2)
  let G := ndgrid Gx0 Gy0 Gz0
  let Gx : cube α := G.1
  let Gy : cube α := G.2.1
  let Gz : cube α := G.2.2
  let Gr : cube α := fun i j k => Gx i j k ^ 2 + Gy i j k ^ 2 + Gz i j k ^ 2
  -- real part of the complex charge
  let rhok_real : cube α := fun i j k => Q * exp (-sigma ^ 2 / 2 * Gr i j k)
  let rhok : cube K := fun i j k => cx I (rhok_real i j k) 0
  -- fourier shift theorem
  fun i j k =>
    rhok i j k * cexp (cx I 0 ((Gx i j k * pos 0 + Gy i j k * pos 1 + Gz i j k * pos 2) * -1))

/-- The function `gaussian_charge`: `ifft(ifftshift(rhok)) / slabcc_cell.voxel_vol`, with
`root N` the root of unity `ifft` uses on an axis of `N` points. -/
def gaussian_charge [FloorRing α] {K : Type} [Field K] [Algebra α K] (pi : α) (exp : α → α)
    (cexp : K → K) (I : K) (root : ℕ → K) (cell : slabcc_cell_type α) (Q : α)
    (pos : rowvec3 α) (sigma : α) : cube K :=
  let rhok : cube K := gaussian_charge_rhok pi exp cexp I cell Q pos sigma
  fun i j k =>
    ifft root cell.grid (ifftshift_cube cell.grid rhok) i j k / algebraMap α K cell.voxel_vol

/-! ## Poisson solver -/

/-- Armadillo `v.swap_cols(a, 2)` on a three-entry row vector. -/
def swap_cols3 {β : Type} (v : Fin 3 → β) (a : Fin 3) : Fin 3 → β :=
  fun c => if c = a then v 2 else if c = 2 then v a else v c

/-- Armadillo `M.swap_cols(a, b)` on a matrix; an index beyond the columns is an error. -/
def mat_swap_cols {β : Type} (M : mat β) (a b : ℕ) : Option (mat β) :=
  if a < mat_n_cols M ∧ b < mat_n_cols M then
    some (M.map (fun r =>
      match r[a]?, r[b]? with
      | some x, some y => (r.set a y).set b x
      | _, _ => r))
  else none

/-- Armadillo `circ_toeplitz` on a column vector `c` of `n` entries: the circulant matrix
whose column `j` is `c` shifted down by `j`, that is `(i, j) ↦ c((i - j) mod n)`. -/
def circ_toeplitz {K : Type} (n : ℕ) (c : ℕ → K) : cx_mat K :=
  fun i j => c ((i + n - j) % n)

/-- The index in the grid of entry `j` of the line of the mode `(k, m)`: the spans
`{k, m, all}` with the entries `normal_direction` and `2` swapped (lines 104-105). -/
def line_index (normal_direction : Fin 3) (k m j : ℕ) : Fin 3 → ℕ :=
  swap_cols3 ![k, m, j] normal_direction

/-- The write `Vk(spans) = x` of a whole line of the mode `(k, m)` (line 111). -/
def cube_set_line {K : Type} (normal_direction : Fin 3) (Vk : cube K) (k m : ℕ)
    (x : ℕ → K) : cube K :=
  fun a b c =>
    let t := swap_cols3 ![a, b, c] normal_direction
    if t 0 = k ∧ t 1 = m then x (t 2) else Vk a b c

/-- Checked write `X(i, j, k) = x` on a cube of shape `n`. -/
def cube_set {K : Type} (n : urowvec3) (X : cube K) (i j k : ℕ) (x : K) : Option (cube K) :=
  if i < n 0 ∧ j < n 1 ∧ k < n 2 then
    some (fun a b c => if a = i ∧ b = j ∧ c = k then x else X a b c)
  else none

/-- What `poisson_solver_3D` has computed when it enters the loop over the modes
(lines 71-100). `size` is the number of rows and columns of `eps11`, `eps22` and `Az`. -/
structure poisson_modes (α K : Type) where
  Gx0 : rowvec α
  Gy0 : rowvec α
  Gz0 : rowvec α
  rhok : cube K
  eps11 : cx_mat K
  eps22 : cx_mat K
  Az : cx_mat K
  size : ℕ

/-- Lines 71-100 of `poisson_solver_3D`: the reciprocal vectors, the transformed charge and
the dielectric matrices. `pi` is the constant `PI`, `root N` the root of unity of the
transforms of length `N`, `cell` the process-wide `slabcc_cell`; `rho` has the shape of the
grid. `none` is the error of Armadillo on a column index out of range or on an element-wise
product of matrices of different sizes. -/
def poisson_solver_3D_setup [FloorRing α] {K : Type} [Field K] [Algebra α K] (pi : α)
    (root : ℕ → K) (cell : slabcc_cell_type α) (rho : cube K) (diel : mat α) :
    Option (poisson_modes α K) :=
  let length := cell.lengths
  let n_points := cell.grid
  let n_points :=
    if cell.normal_direction ≠ 2 then swap_cols3 n_points cell.normal_direction else n_points
  let length :=
    if cell.normal_direction ≠ 2 then swap_cols3 length cell.normal_direction else length
  let diel_swapped :=
    if cell.normal_direction ≠ 2 then mat_swap_cols diel cell.normal_direction 2 else some diel
  match diel_swapped with
  | none => none
  | some diel =>
    let Gs : rowvec3 α := fun a => 2 * pi / length a
    let Gx0 : rowvec α := (poisson_solver_3D_index (n_points 0)).map (fun g => g * Gs 0)
    let Gy0 : rowvec α := (poisson_solver_3D_index (n_points 1)).map (fun g => g * Gs 1)
    let Gz0 : rowvec α := (poisson_solver_3D_index (n_points 2)).map (fun g => g * Gs 2)
    let Gx0 := ifftshift_vec Gx0
    let Gy0 := ifftshift_vec Gy0
    let Gz0 := ifftshift_vec Gz0
    -- 4PI is for the atomic units
    let rhok : cube K := fft root cell.grid (fun i j k => algebraMap α K (4 * pi) * rho i j k)
    let dielsG : cx_mat K := fft_mat root diel
    let n_rows := mat_n_rows diel
    -- dielsG.col(0), dielsG.col(1), dielsG.col(2)
    if mat_n_cols diel < 3 then none
    else
      let eps11 : cx_mat K := fun i j =>
        circ_toeplitz n_rows (fun r => dielsG r 0) i j / (Gz0.length : K)
      let eps22 : cx_mat K := fun i j =>
        circ_toeplitz n_rows (fun r => dielsG r 1) i j / (Gz0.length : K)
      let eps33 : cx_mat K := fun i j =>
        circ_toeplitz n_rows (fun r => dielsG r 2) i j / (Gz0.length : K)
      let GzGzp : ℕ → ℕ → α := fun i j => Gz0.getD i 0 * Gz0.getD j 0
      -- eps33 % GzGzp
      if n_rows ≠ Gz0.length then none
      else
        let Az : cx_mat K := fun i j => eps33 i j * algebraMap α K (GzGzp i j)
        some { Gx0 := Gx0, Gy0 := Gy0, Gz0 := Gz0, rhok := rhok, eps11 := eps11,
               eps22 := eps22, Az := Az, size := n_rows }

/-- The matrix `AG` of the mode `(k, m)` (lines 106-110). -/
def poisson_solver_3D_AG {K : Type} [Field K] [Algebra α K] (s : poisson_modes α K)
    (k m : ℕ) : cx_mat K :=
  fun i j =>
    if k = 0 ∧ m = 0 ∧ i = 0 ∧ j = 0 then 1
    else s.Az i j + s.eps11 i j * algebraMap α K (s.Gx0.getD k 0 ^ 2)
      + s.eps22 i j * algebraMap α K (s.Gy0.getD m 0 ^ 2)

/-- The right-hand side of the mode `(k, m)`: `vectorise(rhok(spans))` (line 111). -/
def poisson_solver_3D_rhs {K : Type} (normal_direction : Fin 3) (s : poisson_modes α K)
    (k m : ℕ) : ℕ → K :=
  fun j =>
    let t := line_index normal_direction k m j
    s.rhok (t 0) (t 1) (t 2)

/-- The loop over the modes (lines 102-113). `solve n A b` is Armadillo `solve` on an
`n × n` system, `none` when it finds no solution (the exception it raises). -/
def poisson_solver_3D_loop {K : Type} [Field K] [Algebra α K]
    (solve : ℕ → cx_mat K → (ℕ → K) → Option (ℕ → K)) (normal_direction : Fin 3)
    (s : poisson_modes α K) : Option (cube K) :=
  (List.range s.Gx0.length).foldlM (fun Vk k =>
    (List.range s.Gy0.length).foldlM (fun Vk m => do
      let x ← solve s.size (poisson_solver_3D_AG s k m)
        (poisson_solver_3D_rhs normal_direction s k m)
      pure (cube_set_line normal_direction Vk k m x)) Vk) (fun _ _ _ => 0)

/-- The function `poisson_solver_3D`. `none` stands for leaving through an exception. -/
def poisson_solver_3D [FloorRing α] {K : Type} [Field K] [Algebra α K] (pi : α)
    (root : ℕ → K) (solve : ℕ → cx_mat K → (ℕ → K) → Option (ℕ → K))
    (cell : slabcc_cell_type α) (rho : cube K) (diel : mat α) : Option (cube K) := do
  let s ← poisson_solver_3D_setup pi root cell rho diel
  let Vk ← poisson_solver_3D_loop solve cell.normal_direction s
  -- 0,0,0 in k-space corresponds to a constant in the real space
  let Vk ← cube_set cell.grid Vk 0 0 0 0
  let V := ifft root cell.grid Vk
  pure V

/-! ## Closed forms used in the proofs

These definitions are not part of the program: they name the values the loops above are
shown to compute. -/

/-- The five parameters of charge `i`: `[sigma, Q, x, y, z]`. -/
def param_block (v : opt_vars α) (i : ℕ) : List α :=
  [v.sigma.getD i 0, v.Qd.getD i 0,
   (v.charge_position.getD i []).getD 0 0,
   (v.charge_position.getD i []).getD 1 0,
   (v.charge_position.getD i []).getD 2 0]

/-- The five lower bounds appended for charge `i`. -/
def low_block (v : opt_vars α) (optimize_charge : Bool) (i : ℕ) : List α :=
  if optimize_charge then [1 / 10, min 0 (accu v.Qd), 0, 0, 0] else param_block v i

/-- The five upper bounds appended for charge `i`. -/
def upp_block (v : opt_vars α) (optimize_charge : Bool) (i : ℕ) : List α :=
  if optimize_charge then [7, max 0 (accu v.Qd), 1, 1, 1] else param_block v i

/-- Closed form of the packed parameter vector. -/
def packed_param (v : opt_vars α) (N : ℕ) : List α :=
  [v.interfaces 0, v.interfaces 1] ++ (List.range N).flatMap (param_block v)

/-- Closed form of the lower bounds before the single-charge pinning. -/
def packed_low (v : opt_vars α) (oc oi : Bool) (N : ℕ) : List α :=
  (if oi then [0, 0] else [v.interfaces 0, v.interfaces 1]) ++ (List.range N).flatMap (low_block v oc)

/-- Closed form of the upper bounds before the single-charge pinning. -/
def packed_upp (v : opt_vars α) (oc oi : Bool) (N : ℕ) : List α :=
  (if oi then [1, 1] else [v.interfaces 0, v.interfaces 1]) ++ (List.range N).flatMap (upp_block v oc)

/-- The single-charge pinning of entry 3 (lines 291-294). -/
def pin_single (v : opt_vars α) (N : ℕ) (b : List α) : List α :=
  if N = 1 then b.set 3 (v.Qd.getD 0 0) else b

/-- State of `optimizer_unpacker` after the first `k` charges were written from `x`. -/
def unpacked (x : List α) (v : opt_vars α) (N k : ℕ) : opt_vars α :=
  { interfaces := ![x.getD 0 0, x.getD 1 0]
    sigma := (List.range N).map (fun i => if i < k then x.getD (2 + 5 * i) 0 else v.sigma.getD i 0)
    Qd := (List.range N).map (fun i => if i < k then x.getD (3 + 5 * i) 0 else v.Qd.getD i 0)
    charge_position := (List.range N).map (fun i =>
      if i < k then [x.getD (4 + i * 5 + 0) 0, x.getD (4 + i * 5 + 1) 0, x.getD (4 + i * 5 + 2) 0]
      else v.charge_position.getD i []) }

/-- The periodic signed distance used in `dielectric_profiles`, as a function of `t = p - c`. -/
def wrap_distance [FloorRing α] (length t : α) : α := fmod_p (t + length / 2) length - length / 2

/-- Value of the profile at slice `k`, component `c`, in closed form: the Cartesian
interfaces are `c0`, `c1`, the slice coordinate is `p`. -/
def profile_value [FloorRing α] (erf : α → α) (length c0 c1 p d_in d_out beta : α) : α :=
  let d0 := wrap_distance length (p - c0)
  let d1 := wrap_distance length (p - c1)
  ((d_out - d_in) * (if |d0| < |d1| then -1 else 1) *
      erf ((if |d0| < |d1| then d0 else d1) / beta) + (d_in + d_out)) / 2

/-- The signed distance `diel_side * min_distance` that `dielectric_profiles` feeds to `erf`:
the distance to the nearest interface, with the sign of the side. -/
def signed_distance [FloorRing α] (length c0 c1 p : α) : α :=
  let d0 := wrap_distance length (p - c0)
  let d1 := wrap_distance length (p - c1)
  if |d0| < |d1| then -d0 else d1

/-- Closed form of one row of `charge_position_shifted` in `extrapolate_3D`. -/
def extrapolate_3D_charge_row (normal_direction : Fin 3) (interfaces interfaces_ext : rowvec2 α)
    (extrapol_factor : α) (r : List α) : List α :=
  (r.map (fun x => x / extrapol_factor)).set normal_direction.val
    (r.getD normal_direction.val 0 / extrapol_factor +
      (if |r.getD normal_direction.val 0 - interfaces 0|
            < |r.getD normal_direction.val 0 - interfaces 1| then
        interfaces_ext 0 - interfaces 0 / extrapol_factor
      else interfaces_ext 1 - interfaces 1 / extrapol_factor))

/-- The cell as step `n` of an extrapolation leaves it: lengths scaled by the factor of the
step, grid scaled by the grid multiplier, voxel volume recomputed. -/
def extrapolated_cell [FloorRing α] (cell : slabcc_cell_type α) (extrapol_steps_size : α)
    (grid_multiplier : α) (n : ℕ) : slabcc_cell_type α :=
  UpdateCell cell (fun i => cell.lengths i * extrapol_factor extrapol_steps_size n)
    (fun i => ⌊grid_multiplier * (cell.grid i : α)⌋₊)

/-- The dielectric tensor as `check_inputs` leaves it: a single entry is repeated three
times, any other vector is kept. -/
def expand_diel (d : rowvec α) : rowvec α :=
  if d.length = 1 then [d.getD 0 0, d.getD 0 0, d.getD 0 0] else d

/-- The conditions under which `check_inputs` does not leave through a fatal exit. -/
def passes_fatal_checks (file_exists : String → Bool) (input_set : input_data α) : Prop :=
  mat_n_cols input_set.charge_position = 3 ∧
  (input_set.diel_in ≠ [] ∧ ∀ x ∈ input_set.diel_in, 0 ≤ x) ∧
  (input_set.diel_out ≠ [] ∧ ∀ x ∈ input_set.diel_out, 0 ≤ x) ∧
  file_exists input_set.CHGCAR_NEU = true ∧ file_exists input_set.CHGCAR_CHG = true ∧
  file_exists input_set.LOCPOT_NEU = true ∧ file_exists input_set.LOCPOT_CHG = true

/-- Closed form of both index vectors: `-floor(N/2), ..., -floor(N/2) + N - 1`. -/
def centred_index (α : Type) [LinearOrderedField α] (N : ℕ) : rowvec α :=
  (List.range N).map (fun (i : ℕ) => -((N / 2 : ℕ) : α) + (i : α))

/-! ## Concrete inputs

Inputs on which the definitions are evaluated (over `ℚ`, exactly). -/

/-- A stand-in for `erf` on which the code can be evaluated exactly: `x / (1 + |x|)` is odd,
strictly increasing, bounded by `1` and tends to `1` at infinity. -/
def erf_model (x : α) : α := x / (1 + |x|)

/-- A cubic cell of edge `1` sampled on `8 × 8 × 8` points, slab normal along `z`. -/
def unit_cell (α : Type) [LinearOrderedField α] : slabcc_cell_type α :=
  { lengths := fun _ => 1
    grid := fun _ => 8
    voxel_vol := 1 / 512
    normal_direction := 2 }

/-- The dipole of Scenario 3: charges `+1` and `-1`, `sigma = 1.5` each, at
`(0.5, 0.5, 0.45)` and `(0.5, 0.5, 0.55)`, interfaces `(0.25, 0.75)`. -/
def dipole : opt_vars ℚ :=
  { interfaces := ![1 / 4, 3 / 4]
    sigma := [3 / 2, 3 / 2]
    Qd := [1, -1]
    charge_position := [[1 / 2, 1 / 2, 9 / 20], [1 / 2, 1 / 2, 11 / 20]] }

/-- One charge at the centre of the cell, used to evaluate the single-charge case. -/
def single_charge : opt_vars ℚ :=
  { interfaces := ![1 / 4, 3 / 4]
    sigma := [2]
    Qd := [1]
    charge_position := [[1 / 2, 1 / 2, 1 / 2]] }

/-- Two equal charge fractions `1/2, 1/2` with `sigma = 1.5`, inside every box the packer uses. -/
def split_charge : opt_vars ℚ :=
  { interfaces := ![1 / 4, 3 / 4]
    sigma := [3 / 2, 3 / 2]
    Qd := [1 / 2, 1 / 2]
    charge_position := [[1 / 2, 1 / 2, 9 / 20], [1 / 2, 1 / 2, 11 / 20]] }

/-- A single charge at the centre of the cell, as a position matrix. -/
def centre_charge : mat ℚ := [[1 / 2, 1 / 2, 1 / 2]]

/-- The bundle of Scenario 6: `sigma = [-2]`, `opt_tol = 5`, `opt_algo = FOO`, one charge. -/
def scenario6 : input_data ℚ :=
  { CHGCAR_NEU := "CHGCAR.N"
    LOCPOT_NEU := "LOCPOT.N"
    LOCPOT_CHG := "LOCPOT.C"
    CHGCAR_CHG := "CHGCAR.C"
    charge_position := [[1 / 2, 1 / 2, 1 / 2]]
    Qd := [1]
    sigma := [-2]
    slabcenter := [1 / 2, 1 / 2, 1 / 2]
    normal_direction := 2
    interfaces := ![1 / 4, 3 / 4]
    diel_in := [1]
    diel_out := [1]
    diel_erf_beta := 1
    optimize_charge := true
    optimize_interface := true
    opt_algo := "FOO"
    opt_tol := 5
    max_eval := 0
    max_time := 0
    opt_grid_x := 4 / 5
    extrapol_grid_x := 1
    extrapol_steps_num := 4
    extrapol_steps_size := 1 / 2 }

/-- The bundle of Scenario 6 with a dielectric tensor `diel_in` of two entries. -/
def two_entry_diel : input_data ℚ := { scenario6 with diel_in := [1, 2] }

/-- A cubic cell of edge `1` sampled on `2 × 2 × 2` points, slab normal along `x`. -/
def two_point_cell : slabcc_cell_type ℚ :=
  { lengths := fun _ => 1
    grid := fun _ => 2
    voxel_vol := 1 / 8
    normal_direction := 0 }

/-- A dielectric profile on two slices, `1` in the first and `3` in the second. -/
def two_slice_diel : mat ℚ := [[1, 1, 1], [3, 3, 3]]

/-- A unit charge on the first point of the grid. -/
def point_charge : cube ℚ := fun i j k => if i = 0 ∧ j = 0 ∧ k = 0 then 1 else 0

/-- Cramer's rule: an exact solver for `2 × 2` systems, failing on a singular matrix (and on
any other size). -/
def solve_cramer (n : ℕ) (A : cx_mat ℚ) (b : ℕ → ℚ) : Option (ℕ → ℚ) :=
  if n = 2 then
    if A 0 0 * A 1 1 - A 0 1 * A 1 0 = 0 then none
    else some (fun i =>
      if i = 0 then (b 0 * A 1 1 - A 0 1 * b 1) / (A 0 0 * A 1 1 - A 0 1 * A 1 0)
      else (A 0 0 * b 1 - b 0 * A 1 0) / (A 0 0 * A 1 1 - A 0 1 * A 1 0))
  else none

/-! # Lemmas and theorems -/

/-! ## Packing and unpacking (C1 - C4) -/

theorem getElem?_eq_some_getD {β : Type} (l : List β) (i : ℕ) (d : β) (h : i < l.length) :
    l[i]? = some (l.getD i d) := by
  simp [List.getD, List.getElem?_eq_getElem h]

theorem mat_elem_eq_some {M : mat α} {n : ℕ} (hM : mat_shape M n 3) {i j : ℕ}
    (hi : i < n) (hj : j < 3) : mat_elem M i j = some ((M.getD i []).getD j 0) := by
  obtain ⟨hlen, hrow⟩ := hM
  have hi2 : i < M.length := by omega
  have h1 : M[i]? = some (M.getD i []) := getElem?_eq_some_getD M i [] hi2
  have h2 : (M.getD i []).length = 3 := by
    apply hrow
    have : M.getD i [] = M[i] := by simp [List.getD, List.getElem?_eq_getElem hi2]
    rw [this]
    exact List.getElem_mem _
  unfold mat_elem
  rw [h1]
  simp only [Option.some_bind]
  exact getElem?_eq_some_getD _ j 0 (by omega)

theorem optimizer_packer_charge_eq (v : opt_vars α) (oc : Bool) {N : ℕ} (hv : v.charges N)
    (st : List α × List α × List α) {i : ℕ} (hi : i < N) :
    optimizer_packer_charge v oc st i
      = some (st.1 ++ param_block v i, st.2.1 ++ low_block v oc i, st.2.2 ++ upp_block v oc i) := by
  obtain ⟨hs, hq, hM⟩ := hv
  obtain ⟨p, l, u⟩ := st
  have e0 := mat_elem_eq_some hM hi (by norm_num : 0 < 3)
  have e1 := mat_elem_eq_some hM hi (by norm_num : 1 < 3)
  have e2 := mat_elem_eq_some hM hi (by norm_num : 2 < 3)
  have r3 : List.range 3 = [0, 1, 2] := rfl
  unfold optimizer_packer_charge
  rw [getElem?_eq_some_getD v.sigma i 0 (by omega), getElem?_eq_some_getD v.Qd i 0 (by omega)]
  cases oc <;>
    simp [r3, e0, e1, e2, param_block, low_block, upp_block]

theorem optimizer_packer_fold (v : opt_vars α) (oc : Bool) {N : ℕ} (hv : v.charges N) :
    ∀ n, n ≤ N → ∀ st : List α × List α × List α,
      (List.range n).foldlM (optimizer_packer_charge v oc) st
        = some (st.1 ++ (List.range n).flatMap (param_block v),
                st.2.1 ++ (List.range n).flatMap (low_block v oc),
                st.2.2 ++ (List.range n).flatMap (upp_block v oc)) := by
  intro n
  induction n with
  | zero => intro _ st; simp
  | succ n ih =>
    intro hn st
    rw [List.range_succ, List.foldlM_append, ih (by omega) st]
    simp [optimizer_packer_charge_eq v oc hv _ (show n < N by omega), List.flatMap_append]

theorem length_flatMap_range {β : Type} (f : ℕ → List β) (c : ℕ) (hf : ∀ i, (f i).length = c) (n : ℕ) :
    ((List.range n).flatMap f).length = c * n := by
  induction n with
  | zero => simp
  | succ n ih => rw [List.range_succ, List.flatMap_append]; simp [ih, hf]; ring

theorem getElem?_flatMap_range {β : Type} (f : ℕ → List β) (c : ℕ) (hf : ∀ i, (f i).length = c)
    (n i j : ℕ) (hi : i < n) (hj : j < c) :
    ((List.range n).flatMap f)[c * i + j]? = (f i)[j]? := by
  induction n with
  | zero => omega
  | succ n ih =>
    rw [List.range_succ, List.flatMap_append]
    have hlen := length_flatMap_range f c hf n
    by_cases h : i < n
    · rw [List.getElem?_append_left, ih h]
      rw [hlen]
      calc c * i + j < c * i + c := by omega
        _ = c * (i + 1) := by ring
        _ ≤ c * n := Nat.mul_le_mul_left c h
    · have : i = n := by omega
      subst this
      rw [List.getElem?_append_right (by rw [hlen]; omega), hlen]
      simp

theorem param_block_length (v : opt_vars α) (i : ℕ) : (param_block v i).length = 5 := rfl

theorem low_block_length (v : opt_vars α) (oc : Bool) (i : ℕ) : (low_block v oc i).length = 5 := by
  cases oc <;> rfl

theorem upp_block_length (v : opt_vars α) (oc : Bool) (i : ℕ) : (upp_block v oc i).length = 5 := by
  cases oc <;> rfl

theorem packed_param_length (v : opt_vars α) (N : ℕ) : (packed_param v N).length = 2 + 5 * N := by
  simp [packed_param, length_flatMap_range _ 5 (param_block_length v)]; omega

theorem packed_low_length (v : opt_vars α) (oc oi : Bool) (N : ℕ) :
    (packed_low v oc oi N).length = 2 + 5 * N := by
  cases oi <;> simp [packed_low, length_flatMap_range _ 5 (low_block_length v oc)] <;> omega

theorem packed_upp_length (v : opt_vars α) (oc oi : Bool) (N : ℕ) :
    (packed_upp v oc oi N).length = 2 + 5 * N := by
  cases oi <;> simp [packed_upp, length_flatMap_range _ 5 (upp_block_length v oc)] <;> omega

theorem pin_single_length (v : opt_vars α) (N : ℕ) (b : List α) :
    (pin_single v N b).length = b.length := by
  unfold pin_single; split <;> simp

theorem optimizer_packer_eq (v : opt_vars α) (oc oi : Bool) {N : ℕ} (hv : v.charges N) :
    optimizer_packer v oc oi
      = some (packed_param v N, pin_single v N (packed_low v oc oi N),
              pin_single v N (packed_upp v oc oi N)) := by
  have hrows : mat_n_rows v.charge_position = N := hv.2.2.1
  have hfold : (List.range N).foldlM (optimizer_packer_charge v oc)
      ([v.interfaces 0, v.interfaces 1],
       (if !oi then [v.interfaces 0, v.interfaces 1] else [0, 0]),
       (if !oi then [v.interfaces 0, v.interfaces 1] else [1, 1]))
      = some (packed_param v N, packed_low v oc oi N, packed_upp v oc oi N) := by
    rw [optimizer_packer_fold v oc hv N le_rfl]
    cases oi <;> rfl
  unfold optimizer_packer
  dsimp only
  rw [hrows, hfold]
  have hl := packed_low_length v oc oi N
  have hu := packed_upp_length v oc oi N
  by_cases h1 : N = 1
  · have hq : v.Qd[0]? = some (v.Qd.getD 0 0) :=
      getElem?_eq_some_getD v.Qd 0 0 (by rw [hv.2.1]; omega)
    have hr : mat_is_rowvec v.charge_position = true := by simp [mat_is_rowvec, hrows, h1]
    have h3l : 3 < (packed_low v oc oi N).length := by rw [hl]; omega
    have h3u : 3 < (packed_upp v oc oi N).length := by rw [hu]; omega
    simp only [hr, hq, vec_set, pin_single, if_pos h1, if_pos h3l, if_pos h3u, if_true,
      Option.bind_eq_bind, Option.some_bind, Option.pure_def]
  · have hr : mat_is_rowvec v.charge_position = false := by simp [mat_is_rowvec, hrows, h1]
    simp [hr, pin_single, h1]

theorem packed_param_get (v : opt_vars α) (N i j : ℕ) (hi : i < N) (hj : j < 5) :
    (packed_param v N)[2 + 5 * i + j]? = (param_block v i)[j]? := by
  unfold packed_param
  rw [List.getElem?_append_right (by simp; omega)]
  have : 2 + 5 * i + j - [v.interfaces 0, v.interfaces 1].length = 5 * i + j := by simp; omega
  rw [this]
  exact getElem?_flatMap_range _ 5 (param_block_length v) N i j hi hj

theorem packed_low_get (v : opt_vars α) (oc oi : Bool) (N i j : ℕ) (hi : i < N) (hj : j < 5) :
    (packed_low v oc oi N)[2 + 5 * i + j]? = (low_block v oc i)[j]? := by
  unfold packed_low
  have hlen : (if oi then [(0 : α), 0] else [v.interfaces 0, v.interfaces 1]).length = 2 := by
    cases oi <;> rfl
  rw [List.getElem?_append_right (by rw [hlen]; omega), hlen]
  have : 2 + 5 * i + j - 2 = 5 * i + j := by omega
  rw [this]
  exact getElem?_flatMap_range _ 5 (low_block_length v oc) N i j hi hj

theorem packed_upp_get (v : opt_vars α) (oc oi : Bool) (N i j : ℕ) (hi : i < N) (hj : j < 5) :
    (packed_upp v oc oi N)[2 + 5 * i + j]? = (upp_block v oc i)[j]? := by
  unfold packed_upp
  have hlen : (if oi then [(1 : α), 1] else [v.interfaces 0, v.interfaces 1]).length = 2 := by
    cases oi <;> rfl
  rw [List.getElem?_append_right (by rw [hlen]; omega), hlen]
  have : 2 + 5 * i + j - 2 = 5 * i + j := by omega
  rw [this]
  exact getElem?_flatMap_range _ 5 (upp_block_length v oc) N i j hi hj

theorem vec_set_getD_self {β : Type} (l : List β) (i : ℕ) (d : β) (h : i < l.length) :
    vec_set l i (l.getD i d) = some l := by
  unfold vec_set
  rw [if_pos h]
  congr 1
  apply List.ext_getElem?
  intro n
  rw [List.getElem?_set, if_pos h]
  split
  · rename_i hin
    subst hin
    exact (getElem?_eq_some_getD l i d h).symm
  · rfl

theorem mat_set_getD_self {M : mat α} {n : ℕ} (hM : mat_shape M n 3) {i j : ℕ}
    (hi : i < n) (hj : j < 3) : mat_set M i j ((M.getD i []).getD j 0) = some M := by
  obtain ⟨hlen, hrow⟩ := hM
  have hi2 : i < M.length := by omega
  have h1 : M[i]? = some (M.getD i []) := getElem?_eq_some_getD M i [] hi2
  have h2 : (M.getD i []).length = 3 := by
    apply hrow
    have : M.getD i [] = M[i] := by simp [List.getD, List.getElem?_eq_getElem hi2]
    rw [this]
    exact List.getElem_mem _
  have h3 : j < (M.getD i []).length := by omega
  have e1 := vec_set_getD_self (M.getD i []) j 0 h3
  have e2 := vec_set_getD_self M i [] hi2
  unfold vec_set at e1 e2
  rw [if_pos h3] at e1
  rw [if_pos hi2] at e2
  unfold mat_set
  rw [h1]
  simp only [if_pos h3]
  rw [Option.some.inj e1]
  exact e2

theorem foldlM_fixed {β γ : Type} (f : β → γ → Option β) (b : β) (l : List γ)
    (h : ∀ i ∈ l, f b i = some b) : l.foldlM f b = some b := by
  induction l with
  | nil => rfl
  | cons a t ih =>
    rw [List.foldlM_cons, h a (List.mem_cons_self a t)]
    exact ih (fun i hi => h i (List.mem_cons_of_mem a hi))

theorem optimizer_unpacker_charge_self (v : opt_vars α) {N : ℕ} (hv : v.charges N)
    {i : ℕ} (hi : i < N) :
    optimizer_unpacker_charge (packed_param v N) v i = some v := by
  obtain ⟨hs, hq, hM⟩ := hv
  have g0 : (packed_param v N)[2 + 5 * i]? = some (v.sigma.getD i 0) :=
    packed_param_get v N i 0 hi (by norm_num)
  have g1 : (packed_param v N)[3 + 5 * i]? = some (v.Qd.getD i 0) := by
    have := packed_param_get v N i 1 hi (by norm_num)
    rw [show 2 + 5 * i + 1 = 3 + 5 * i by omega] at this
    exact this
  have g2 : (packed_param v N)[4 + i * 5 + 0]? = some ((v.charge_position.getD i []).getD 0 0) := by
    have := packed_param_get v N i 2 hi (by norm_num)
    rw [show 2 + 5 * i + 2 = 4 + i * 5 + 0 by omega] at this
    exact this
  have g3 : (packed_param v N)[4 + i * 5 + 1]? = some ((v.charge_position.getD i []).getD 1 0) := by
    have := packed_param_get v N i 3 hi (by norm_num)
    rw [show 2 + 5 * i + 3 = 4 + i * 5 + 1 by omega] at this
    exact this
  have g4 : (packed_param v N)[4 + i * 5 + 2]? = some ((v.charge_position.getD i []).getD 2 0) := by
    have := packed_param_get v N i 4 hi (by norm_num)
    rw [show 2 + 5 * i + 4 = 4 + i * 5 + 2 by omega] at this
    exact this
  have r3 : List.range 3 = [0, 1, 2] := rfl
  have m0 := mat_set_getD_self hM hi (by norm_num : 0 < 3)
  have m1 := mat_set_getD_self hM hi (by norm_num : 1 < 3)
  have m2 := mat_set_getD_self hM hi (by norm_num : 2 < 3)
  have s1 := vec_set_getD_self v.sigma i 0 (by omega)
  have s2 := vec_set_getD_self v.Qd i 0 (by omega)
  unfold optimizer_unpacker_charge
  simp only [r3, g0, g1, g2, g3, g4, m0, m1, m2, s1, s2, List.foldlM_cons, List.foldlM_nil,
    Option.bind_eq_bind, Option.some_bind, Option.pure_def]

theorem interfaces_eta {β : Type} (f : rowvec2 β) : ![f 0, f 1] = f := by
  ext i; fin_cases i <;> rfl

theorem optimizer_unpacker_packed (v : opt_vars α) {N : ℕ} (hv : v.charges N) :
    optimizer_unpacker (packed_param v N) v = some v := by
  have hlen := packed_param_length v N
  have hn : (packed_param v N).length / 5 = N := by rw [hlen]; omega
  have h0 : (packed_param v N)[0]? = some (v.interfaces 0) := rfl
  have h1 : (packed_param v N)[1]? = some (v.interfaces 1) := by simp [packed_param]
  unfold optimizer_unpacker
  dsimp only
  rw [hn, h0, h1]
  simp only [Option.bind_eq_bind, Option.some_bind, interfaces_eta]
  apply foldlM_fixed
  intro i hi
  exact optimizer_unpacker_charge_self v hv (List.mem_range.mp hi)

theorem map_range_getD {β : Type} (l : List β) (d : β) :
    (List.range l.length).map (fun i => l.getD i d) = l := by
  apply List.ext_getElem?
  intro n
  by_cases h : n < l.length
  · rw [List.getElem?_map, List.getElem?_range h, getElem?_eq_some_getD l n d h]; rfl
  · rw [List.getElem?_eq_none (by simpa using h), List.getElem?_eq_none (by simpa using h)]

theorem set_map_range {β : Type} (f g : ℕ → β) (N k : ℕ) (hk : k < N) (s : β)
    (hg : ∀ i, i ≠ k → g i = f i) (hgk : g k = s) :
    ((List.range N).map f).set k s = (List.range N).map g := by
  apply List.ext_getElem?
  intro n
  rw [List.getElem?_set]
  by_cases hn : n < N
  · simp only [List.getElem?_map, List.getElem?_range hn, List.length_map, List.length_range,
      Option.map_some', if_pos hk]
    by_cases hkn : k = n
    · subst hkn; rw [if_pos rfl, hgk]
    · rw [if_neg hkn, hg n (Ne.symm hkn)]
  · have h1 : ((List.range N).map f)[n]? = none := List.getElem?_eq_none (by simpa using hn)
    have h2 : ((List.range N).map g)[n]? = none := List.getElem?_eq_none (by simpa using hn)
    rw [h1, h2]
    have : k ≠ n := by omega
    rw [if_neg this]

theorem mat_set_map_range {β : Type} (F : ℕ → List β) (N k j : ℕ) (hk : k < N)
    (hj : j < (F k).length) (c : β) :
    mat_set ((List.range N).map F) k j c
      = some ((List.range N).map (Function.update F k ((F k).set j c))) := by
  have h1 : ((List.range N).map F)[k]? = some (F k) := by
    rw [List.getElem?_map, List.getElem?_range hk]; rfl
  unfold mat_set
  rw [h1]
  simp only [if_pos hj]
  congr 1
  exact set_map_range F _ N k hk _ (fun i hi => Function.update_noteq hi _ _)
    (Function.update_same _ _ _)

theorem set3_eq {β : Type} (r : List β) (h : r.length = 3) (a b c : β) :
    ((r.set 0 a).set 1 b).set 2 c = [a, b, c] := by
  match r, h with
  | [_, _, _], _ => rfl

theorem unpacked_zero (x : List α) (v : opt_vars α) {N : ℕ} (hv : v.charges N) :
    unpacked x v N 0 = { v with interfaces := ![x.getD 0 0, x.getD 1 0] } := by
  obtain ⟨hs, hq, hM, _⟩ := hv
  unfold unpacked
  simp only [Nat.not_lt_zero, if_false]
  congr 1
  · rw [← hs]; exact map_range_getD _ _
  · rw [← hq]; exact map_range_getD _ _
  · rw [← hM]; exact map_range_getD _ _

theorem optimizer_unpacker_charge_step (x : List α) (v : opt_vars α) {N : ℕ} (hv : v.charges N)
    (hx : x.length = 2 + 5 * N) {k : ℕ} (hk : k < N) :
    optimizer_unpacker_charge x (unpacked x v N k) k = some (unpacked x v N (k + 1)) := by
  obtain ⟨hs, hq, hM, hrow⟩ := hv
  have g0 : x[2 + 5 * k]? = some (x.getD (2 + 5 * k) 0) := getElem?_eq_some_getD _ _ _ (by omega)
  have g1 : x[3 + 5 * k]? = some (x.getD (3 + 5 * k) 0) := getElem?_eq_some_getD _ _ _ (by omega)
  have g2 : x[4 + k * 5 + 0]? = some (x.getD (4 + k * 5 + 0) 0) :=
    getElem?_eq_some_getD _ _ _ (by omega)
  have g3 : x[4 + k * 5 + 1]? = some (x.getD (4 + k * 5 + 1) 0) :=
    getElem?_eq_some_getD _ _ _ (by omega)
  have g4 : x[4 + k * 5 + 2]? = some (x.getD (4 + k * 5 + 2) 0) :=
    getElem?_eq_some_getD _ _ _ (by omega)
  have r3 : List.range 3 = [0, 1, 2] := rfl
  have hrk : (v.charge_position.getD k []).length = 3 := by
    apply hrow
    have hk2 : k < v.charge_position.length := by omega
    have : v.charge_position.getD k [] = v.charge_position[k] := by
      simp [List.getD, List.getElem?_eq_getElem hk2]
    rw [this]
    exact List.getElem_mem _
  unfold optimizer_unpacker_charge unpacked
  simp only [g0, g1, g2, g3, g4, r3, List.foldlM_cons, List.foldlM_nil,
    Option.bind_eq_bind, Option.some_bind, Option.pure_def, vec_set, List.length_map,
    List.length_range, if_pos hk]
  rw [mat_set_map_range _ N k 0 hk (by simp only [lt_irrefl, if_false, hrk]; norm_num)]
  simp only [Option.some_bind]
  rw [mat_set_map_range _ N k 1 hk
    (by simp only [Function.update_same, List.length_set, lt_irrefl, if_false, hrk]; norm_num)]
  simp only [Option.some_bind]
  rw [mat_set_map_range _ N k 2 hk
    (by simp only [Function.update_same, List.length_set, lt_irrefl, if_false, hrk]; norm_num)]
  simp only [Option.some_bind, Function.update_same, lt_irrefl, if_false]
  rw [set3_eq _ hrk]
  congr 2
  · apply set_map_range _ _ N k hk
    · intro i hi
      have : (i < k + 1) = (i < k) := by apply propext; omega
      simp only [this]
    · simp
  · apply set_map_range _ _ N k hk
    · intro i hi
      have : (i < k + 1) = (i < k) := by apply propext; omega
      simp only [this]
    · simp
  · apply List.map_congr_left
    intro i _
    by_cases hik : i = k
    · subst hik; simp
    · have : (i < k + 1) = (i < k) := by apply propext; omega
      simp only [this, Function.update_noteq hik]

theorem optimizer_unpacker_fold (x : List α) (v : opt_vars α) {N : ℕ} (hv : v.charges N)
    (hx : x.length = 2 + 5 * N) :
    ∀ n, n ≤ N → (List.range n).foldlM (optimizer_unpacker_charge x) (unpacked x v N 0)
      = some (unpacked x v N n) := by
  intro n
  induction n with
  | zero => intro _; rfl
  | succ n ih =>
    intro hn
    rw [List.range_succ, List.foldlM_append, ih (by omega)]
    simp [optimizer_unpacker_charge_step x v hv hx (show n < N by omega)]

theorem optimizer_unpacker_eq (x : List α) (v : opt_vars α) {N : ℕ} (hv : v.charges N)
    (hx : x.length = 2 + 5 * N) :
    optimizer_unpacker x v = some (unpacked x v N N) := by
  have hn : x.length / 5 = N := by rw [hx]; omega
  have h0 : x[0]? = some (x.getD 0 0) := getElem?_eq_some_getD _ _ _ (by omega)
  have h1 : x[1]? = some (x.getD 1 0) := getElem?_eq_some_getD _ _ _ (by omega)
  unfold optimizer_unpacker
  dsimp only
  rw [hn, h0, h1]
  simp only [Option.bind_eq_bind, Option.some_bind]
  rw [← unpacked_zero x v hv]
  exact optimizer_unpacker_fold x v hv hx N le_rfl

theorem unpacked_charges (x : List α) (v : opt_vars α) (N : ℕ) :
    (unpacked x v N N).charges N := by
  refine ⟨by simp [unpacked], by simp [unpacked], by simp [unpacked], ?_⟩
  intro r hr
  simp only [unpacked, List.mem_map, List.mem_range] at hr
  obtain ⟨i, hi, rfl⟩ := hr
  simp [hi]

theorem packed_param_unpacked (x : List α) (v : opt_vars α) {N : ℕ}
    (hx : x.length = 2 + 5 * N) : packed_param (unpacked x v N N) N = x := by
  apply List.ext_getElem?
  intro m
  by_cases hm : m < 2 + 5 * N
  · by_cases hm2 : m < 2
    · have hxm : x[m]? = some (x.getD m 0) := getElem?_eq_some_getD _ _ _ (by omega)
      rw [hxm]
      interval_cases m <;> simp [packed_param, unpacked]
    · obtain ⟨i, j, hi, hj, rfl⟩ : ∃ i j, i < N ∧ j < 5 ∧ m = 2 + 5 * i + j :=
        ⟨(m - 2) / 5, (m - 2) % 5, by omega, by omega, by omega⟩
      rw [packed_param_get _ N i j hi hj]
      have hxm : x[2 + 5 * i + j]? = some (x.getD (2 + 5 * i + j) 0) :=
        getElem?_eq_some_getD _ _ _ (by omega)
      rw [hxm]
      have e1 : 3 + 5 * i = 2 + 5 * i + 1 := by omega
      have e2 : 4 + i * 5 = 2 + 5 * i + 2 := by omega
      have e3 : 4 + (i * 5 + 1) = 2 + (5 * i + 3) := by omega
      have e4 : 4 + (i * 5 + 2) = 2 + (5 * i + 4) := by omega
      interval_cases j <;>
        simp [param_block, unpacked, hi, List.getD, List.getElem?_range hi, e1, e2, e3, e4,
          add_assoc]
  · rw [List.getElem?_eq_none (by rw [packed_param_length]; omega),
      List.getElem?_eq_none (by omega)]

theorem dipole_charges : dipole.charges 2 := by
  refine ⟨rfl, rfl, rfl, ?_⟩
  intro r hr
  simp only [dipole, List.mem_cons, List.mem_singleton, List.not_mem_nil, or_false] at hr
  rcases hr with rfl | rfl <;> rfl

/-- Layout of the packed vector: interfaces first, then `sigma, Q, x, y, z` per charge. -/
theorem packed_param_layout (v : opt_vars α) {N : ℕ} (hv : v.charges N) :
    (packed_param v N)[0]? = some (v.interfaces 0) ∧
    (packed_param v N)[1]? = some (v.interfaces 1) ∧
    ∀ i, i < N →
      (packed_param v N)[2 + 5 * i]? = v.sigma[i]? ∧
      (packed_param v N)[3 + 5 * i]? = v.Qd[i]? ∧
      ∀ j, j < 3 → (packed_param v N)[4 + 5 * i + j]? = mat_elem v.charge_position i j := by
  refine ⟨rfl, by simp [packed_param], ?_⟩
  intro i hi
  obtain ⟨hs, hq, hM⟩ := hv
  refine ⟨?_, ?_, ?_⟩
  · rw [getElem?_eq_some_getD v.sigma i 0 (by omega)]
    exact packed_param_get v N i 0 hi (by norm_num)
  · rw [getElem?_eq_some_getD v.Qd i 0 (by omega), show 3 + 5 * i = 2 + 5 * i + 1 by omega]
    exact packed_param_get v N i 1 hi (by norm_num)
  · intro j hj
    rw [mat_elem_eq_some hM hi hj, show 4 + 5 * i + j = 2 + 5 * i + (j + 2) by omega,
      packed_param_get v N i (j + 2) hi (by omega)]
    interval_cases j <;> rfl

/-- C1. `optimizer_packer` and `optimizer_unpacker` are mutually inverse on the parameter
vector. For an `opt_vars` `v` with `N` charges and any flags: (1) the packer succeeds with a
vector `p` of length `2 + 5 N`, unpacking `p` into `v` returns `v` itself (interfaces, sigma,
Qd, charge_position unchanged), and `p` has the stated layout; (2) for every `x` of length
`2 + 5 N`, unpacking `x` into `v` succeeds with some `w` that again has `N` charges, packing
`w` returns exactly `x` as its parameter vector, and `x[0], x[1]` are the interfaces of `w`,
`x[2+5i], x[3+5i], x[4+5i+j]` its `i`-th sigma, charge and `j`-th coordinate. -/
theorem optimizer_packer_unpacker_inverse (v : opt_vars α) (N : ℕ)
    (optimize_charge optimize_interface : Bool) (hv : v.charges N) :
    (∃ p l u, optimizer_packer v optimize_charge optimize_interface = some (p, l, u) ∧
        p.length = 2 + 5 * N ∧
        optimizer_unpacker p v = some v ∧
        p[0]? = some (v.interfaces 0) ∧ p[1]? = some (v.interfaces 1) ∧
        ∀ i, i < N → p[2 + 5 * i]? = v.sigma[i]? ∧ p[3 + 5 * i]? = v.Qd[i]? ∧
          ∀ j, j < 3 → p[4 + 5 * i + j]? = mat_elem v.charge_position i j) ∧
    (∀ x : List α, x.length = 2 + 5 * N →
      ∃ w, optimizer_unpacker x v = some w ∧ w.charges N ∧
        (∃ l u, optimizer_packer w optimize_charge optimize_interface = some (x, l, u)) ∧
        x[0]? = some (w.interfaces 0) ∧ x[1]? = some (w.interfaces 1) ∧
        ∀ i, i < N → x[2 + 5 * i]? = w.sigma[i]? ∧ x[3 + 5 * i]? = w.Qd[i]? ∧
          ∀ j, j < 3 → x[4 + 5 * i + j]? = mat_elem w.charge_position i j) := by
  constructor
  · exact ⟨_, _, _, optimizer_packer_eq v _ _ hv, packed_param_length v N,
      optimizer_unpacker_packed v hv, packed_param_layout v hv⟩
  · intro x hx
    have hw := unpacked_charges x v N
    have hpx := packed_param_unpacked x v hx
    have hlay := packed_param_layout (unpacked x v N N) hw
    rw [hpx] at hlay
    have hpk := optimizer_packer_eq (unpacked x v N N) optimize_charge optimize_interface hw
    rw [hpx] at hpk
    exact ⟨unpacked x v N N, optimizer_unpacker_eq x v hv hx, hw, ⟨_, _, hpk⟩, hlay⟩

/-- C1, at the dipole of Scenario 3: the hypothesis holds and packing then unpacking
returns the dipole. -/
theorem optimizer_packer_unpacker_inverse_witness :
    dipole.charges 2 ∧
    ∃ p l u, optimizer_packer dipole true true = some (p, l, u) ∧
      optimizer_unpacker p dipole = some dipole :=
  ⟨dipole_charges,
    match (optimizer_packer_unpacker_inverse dipole 2 true true dipole_charges).1 with
    | ⟨p, l, u, h1, _, h2, _⟩ => ⟨p, l, u, h1, h2⟩⟩

theorem pin_single_get_ne (v : opt_vars α) (N : ℕ) (b : List α) (m : ℕ)
    (h : N ≠ 1 ∨ m ≠ 3) : (pin_single v N b)[m]? = b[m]? := by
  unfold pin_single
  split
  · rename_i h1
    rcases h with h | h
    · exact absurd h1 h
    · exact List.getElem?_set_ne (Ne.symm h)
  · rfl

theorem pin_single_get_three (v : opt_vars α) {N : ℕ} (hv : v.charges N) (b : List α)
    (h1 : N = 1) (hb : 3 < b.length) : (pin_single v N b)[3]? = v.Qd[0]? := by
  unfold pin_single
  rw [if_pos h1, List.getElem?_set_self hb, getElem?_eq_some_getD v.Qd 0 0 (by rw [hv.2.1]; omega)]

/-- C2. The bounds returned by `optimizer_packer` are the table of the specification.
For an `opt_vars` with `N` charges the packer succeeds and both bound vectors have length
`2 + 5 N`; the interface entries are `[0, 1]` under `optimize_interface` and pinned to the
current interfaces otherwise; for each charge `i`, under `optimize_charge` the entries are
`sigma ∈ [0.1, 7]`, `Q ∈ [min(0, ΣQd), max(0, ΣQd)]` (for `N ≠ 1`), `x, y, z ∈ [0, 1]`, and
otherwise lower = upper = the current value; and for `N = 1` entry `3` has
lower = upper = `Qd(0)` whatever the flags. -/
theorem optimizer_packer_bounds (v : opt_vars α) (N : ℕ)
    (optimize_charge optimize_interface : Bool) (hv : v.charges N) :
    ∃ p l u, optimizer_packer v optimize_charge optimize_interface = some (p, l, u) ∧
      l.length = 2 + 5 * N ∧ u.length = 2 + 5 * N ∧
      (∀ m : Fin 2,
        l[m.val]? = some (if optimize_interface then 0 else v.interfaces m) ∧
        u[m.val]? = some (if optimize_interface then 1 else v.interfaces m)) ∧
      (∀ i, i < N →
        (optimize_charge = true →
          l[2 + 5 * i]? = some (1 / 10) ∧ u[2 + 5 * i]? = some 7 ∧
          (N ≠ 1 → l[3 + 5 * i]? = some (min 0 (accu v.Qd)) ∧
                    u[3 + 5 * i]? = some (max 0 (accu v.Qd))) ∧
          ∀ j, j < 3 → l[4 + 5 * i + j]? = some 0 ∧ u[4 + 5 * i + j]? = some 1) ∧
        (optimize_charge = false →
          l[2 + 5 * i]? = v.sigma[i]? ∧ u[2 + 5 * i]? = v.sigma[i]? ∧
          l[3 + 5 * i]? = v.Qd[i]? ∧ u[3 + 5 * i]? = v.Qd[i]? ∧
          ∀ j, j < 3 → l[4 + 5 * i + j]? = mat_elem v.charge_position i j ∧
                        u[4 + 5 * i + j]? = mat_elem v.charge_position i j)) ∧
      (N = 1 → l[3]? = v.Qd[0]? ∧ u[3]? = v.Qd[0]?) := by
  refine ⟨_, _, _, optimizer_packer_eq v optimize_charge optimize_interface hv, ?_, ?_, ?_, ?_, ?_⟩
  · rw [pin_single_length, packed_low_length]
  · rw [pin_single_length, packed_upp_length]
  · intro m
    rw [pin_single_get_ne v N _ m.val (Or.inr (by omega)),
      pin_single_get_ne v N _ m.val (Or.inr (by omega))]
    fin_cases m <;> cases optimize_interface <;> simp [packed_low, packed_upp]
  · intro i hi
    obtain ⟨hs, hq, hM⟩ := hv
    have hsi := getElem?_eq_some_getD v.sigma i 0 (by omega)
    have hqi := getElem?_eq_some_getD v.Qd i 0 (by omega)
    have l0 := packed_low_get v optimize_charge optimize_interface N i 0 hi (by norm_num)
    have u0 := packed_upp_get v optimize_charge optimize_interface N i 0 hi (by norm_num)
    have l1 := packed_low_get v optimize_charge optimize_interface N i 1 hi (by norm_num)
    have u1 := packed_upp_get v optimize_charge optimize_interface N i 1 hi (by norm_num)
    rw [show 2 + 5 * i + 0 = 2 + 5 * i by rfl] at l0 u0
    rw [show 2 + 5 * i + 1 = 3 + 5 * i by omega] at l1 u1
    have lj : ∀ j, j < 3 → (packed_low v optimize_charge optimize_interface N)[4 + 5 * i + j]?
        = (low_block v optimize_charge i)[j + 2]? := by
      intro j hj
      rw [show 4 + 5 * i + j = 2 + 5 * i + (j + 2) by omega]
      exact packed_low_get v optimize_charge optimize_interface N i (j + 2) hi (by omega)
    have uj : ∀ j, j < 3 → (packed_upp v optimize_charge optimize_interface N)[4 + 5 * i + j]?
        = (upp_block v optimize_charge i)[j + 2]? := by
      intro j hj
      rw [show 4 + 5 * i + j = 2 + 5 * i + (j + 2) by omega]
      exact packed_upp_get v optimize_charge optimize_interface N i (j + 2) hi (by omega)
    rw [pin_single_get_ne v N _ _ (Or.inr (by omega)), pin_single_get_ne v N _ _ (Or.inr (by omega))]
    constructor
    · intro hoc
      subst hoc
      refine ⟨l0, u0, ?_, ?_⟩
      · intro hN
        rw [pin_single_get_ne v N _ _ (Or.inl hN), pin_single_get_ne v N _ _ (Or.inl hN)]
        exact ⟨l1, u1⟩
      · intro j hj
        rw [pin_single_get_ne v N _ _ (Or.inr (by omega)),
          pin_single_get_ne v N _ _ (Or.inr (by omega)), lj j hj, uj j hj]
        interval_cases j <;> exact ⟨rfl, rfl⟩
    · intro hoc
      subst hoc
      refine ⟨by rw [hsi]; exact l0, by rw [hsi]; exact u0, ?_, ?_, ?_⟩
      · by_cases h3 : N = 1
        · have hi0 : i = 0 := by omega
          subst hi0
          exact pin_single_get_three v ⟨hs, hq, hM⟩ _ h3 (by rw [packed_low_length]; omega)
        · rw [pin_single_get_ne v N _ _ (Or.inl h3), hqi]; exact l1
      · by_cases h3 : N = 1
        · have hi0 : i = 0 := by omega
          subst hi0
          exact pin_single_get_three v ⟨hs, hq, hM⟩ _ h3 (by rw [packed_upp_length]; omega)
        · rw [pin_single_get_ne v N _ _ (Or.inl h3), hqi]; exact u1
      · intro j hj
        rw [pin_single_get_ne v N _ _ (Or.inr (by omega)),
          pin_single_get_ne v N _ _ (Or.inr (by omega)), lj j hj, uj j hj,
          mat_elem_eq_some hM hi hj]
        interval_cases j <;> exact ⟨rfl, rfl⟩
  · intro h1
    exact ⟨pin_single_get_three v hv _ h1 (by rw [packed_low_length]; omega),
      pin_single_get_three v hv _ h1 (by rw [packed_upp_length]; omega)⟩

theorem single_charge_charges : single_charge.charges 1 := by
  refine ⟨rfl, rfl, rfl, ?_⟩
  intro r hr
  simp only [single_charge, List.mem_singleton] at hr
  subst hr
  rfl

/-- C2, at one charge with both flags set: the hypothesis holds and the charge entry of both
bounds is pinned to `Qd(0)`. -/
theorem optimizer_packer_bounds_witness :
    single_charge.charges 1 ∧
    ∃ p l u, optimizer_packer single_charge true true = some (p, l, u) ∧
      l[3]? = single_charge.Qd[0]? ∧ u[3]? = single_charge.Qd[0]? :=
  ⟨single_charge_charges,
    match optimizer_packer_bounds single_charge 1 true true single_charge_charges with
    | ⟨p, l, u, h1, _, _, _, _, h2⟩ => ⟨p, l, u, h1, h2 rfl⟩⟩

theorem getD_mem {β : Type} (l : List β) (i : ℕ) (d : β) (h : i < l.length) : l.getD i d ∈ l := by
  have : l.getD i d = l[i] := by simp [List.getD, List.getElem?_eq_getElem h]
  rw [this]
  exact List.getElem_mem _

theorem block_within (v : opt_vars α) (oc : Bool) {N : ℕ} (hv : v.charges N) {i : ℕ} (hi : i < N)
    (hpos : ∀ r ∈ v.charge_position, ∀ c ∈ r, 0 ≤ c ∧ c ≤ 1)
    (hsig : oc = true → ∀ s ∈ v.sigma, 1 / 10 ≤ s ∧ s ≤ 7)
    (j : ℕ) (hj : j < 5)
    (hQ : j = 1 → oc = true → ∀ q ∈ v.Qd, min 0 (accu v.Qd) ≤ q ∧ q ≤ max 0 (accu v.Qd)) :
    ∃ a b c, (low_block v oc i)[j]? = some a ∧ (param_block v i)[j]? = some b ∧
      (upp_block v oc i)[j]? = some c ∧ a ≤ b ∧ b ≤ c := by
  obtain ⟨hs, hq, hM, hrow⟩ := hv
  have hsm := getD_mem v.sigma i 0 (by omega)
  have hqm := getD_mem v.Qd i 0 (by omega)
  have hrm := getD_mem v.charge_position i [] (by omega)
  have hr3 := hrow _ hrm
  have hc : ∀ j, j < 3 → 0 ≤ (v.charge_position.getD i []).getD j 0 ∧
      (v.charge_position.getD i []).getD j 0 ≤ 1 :=
    fun j hj => hpos _ hrm _ (getD_mem _ j 0 (by omega))
  cases oc with
  | false =>
    exact ⟨_, _, _, getElem?_eq_some_getD _ j 0 (by rw [low_block_length]; exact hj),
      getElem?_eq_some_getD _ j 0 (by rw [param_block_length]; exact hj),
      getElem?_eq_some_getD _ j 0 (by rw [upp_block_length]; exact hj), le_rfl, le_rfl⟩
  | true =>
    have h1 := hsig rfl _ hsm
    interval_cases j
    · exact ⟨_, _, _, rfl, rfl, rfl, h1.1, h1.2⟩
    · have h2 := hQ rfl rfl _ hqm
      exact ⟨_, _, _, rfl, rfl, rfl, h2.1, h2.2⟩
    · exact ⟨_, _, _, rfl, rfl, rfl, (hc 0 (by norm_num)).1, (hc 0 (by norm_num)).2⟩
    · exact ⟨_, _, _, rfl, rfl, rfl, (hc 1 (by norm_num)).1, (hc 1 (by norm_num)).2⟩
    · exact ⟨_, _, _, rfl, rfl, rfl, (hc 2 (by norm_num)).1, (hc 2 (by norm_num)).2⟩

/-- C3 (amended). The start vector `do_optimize` hands to the optimiser lies within the bounds
provided its entries already lie in the boxes the packer uses: interfaces and positions in
`[0, 1]` and, when `optimize_charge` is set, every `sigma` in `[0.1, 7]` and (for more than one
charge) every `Qd(i)` between `min(0, ΣQd)` and `max(0, ΣQd)`. Then the optimiser object is
built with `low_b[m] ≤ x[m] ≤ upp_b[m]` at every index `m < 2 + 5 N`. -/
theorem do_optimize_start_within_bounds (v : opt_vars α) (N : ℕ)
    (optimize_charge optimize_interface : Bool)
    (opt_algo : String) (opt_tol : α) (max_eval max_time : ℤ)
    (hv : v.charges N)
    (hint : ∀ m, 0 ≤ v.interfaces m ∧ v.interfaces m ≤ 1)
    (hpos : ∀ r ∈ v.charge_position, ∀ c ∈ r, 0 ≤ c ∧ c ≤ 1)
    (hsig : optimize_charge = true → ∀ s ∈ v.sigma, 1 / 10 ≤ s ∧ s ≤ 7)
    (hQ : optimize_charge = true → N ≠ 1 →
      ∀ q ∈ v.Qd, min 0 (accu v.Qd) ≤ q ∧ q ≤ max 0 (accu v.Qd)) :
    ∃ opt x, do_optimize_opt opt_algo opt_tol max_eval max_time v optimize_charge
        optimize_interface = some (opt, x) ∧
      optimizer_packer v optimize_charge optimize_interface
        = some (x, opt.lower_bounds, opt.upper_bounds) ∧
      x.length = 2 + 5 * N ∧
      ∀ m, m < 2 + 5 * N → ∃ a b c, opt.lower_bounds[m]? = some a ∧ x[m]? = some b ∧
        opt.upper_bounds[m]? = some c ∧ a ≤ b ∧ b ≤ c := by
  have hpk := optimizer_packer_eq v optimize_charge optimize_interface hv
  refine ⟨_, _, by unfold do_optimize_opt; rw [hpk]; rfl, hpk, packed_param_length v N, ?_⟩
  intro m hm
  dsimp only
  by_cases hpin : N = 1 ∧ m = 3
  · obtain ⟨h1, h3⟩ := hpin
    subst h3
    refine ⟨v.Qd.getD 0 0, v.Qd.getD 0 0, v.Qd.getD 0 0, ?_, ?_, ?_, le_rfl, le_rfl⟩
    · rw [pin_single_get_three v hv _ h1 (by rw [packed_low_length]; omega)]
      exact getElem?_eq_some_getD v.Qd 0 0 (by rw [hv.2.1]; omega)
    · exact packed_param_get v N 0 1 (by omega) (by norm_num)
    · rw [pin_single_get_three v hv _ h1 (by rw [packed_upp_length]; omega)]
      exact getElem?_eq_some_getD v.Qd 0 0 (by rw [hv.2.1]; omega)
  · have hne : N ≠ 1 ∨ m ≠ 3 := by
      by_cases h : N = 1
      · exact Or.inr (fun h3 => hpin ⟨h, h3⟩)
      · exact Or.inl h
    rw [pin_single_get_ne v N _ m hne, pin_single_get_ne v N _ m hne]
    by_cases hm2 : m < 2
    · have h0 := hint 0
      have h1 := hint 1
      interval_cases m <;> cases optimize_interface <;>
        simp [packed_low, packed_upp, packed_param, h0.1, h0.2, h1.1, h1.2]
    · obtain ⟨i, j, hi, hj, rfl⟩ : ∃ i j, i < N ∧ j < 5 ∧ m = 2 + 5 * i + j :=
        ⟨(m - 2) / 5, (m - 2) % 5, by omega, by omega, by omega⟩
      rw [packed_low_get _ _ _ N i j hi hj, packed_param_get _ N i j hi hj,
        packed_upp_get _ _ _ N i j hi hj]
      apply block_within v optimize_charge hv hi hpos hsig j hj
      intro hj1 hoc
      apply hQ hoc
      rcases hne with h | h
      · exact h
      · omega

theorem split_charge_charges : split_charge.charges 2 := by
  refine ⟨rfl, rfl, rfl, ?_⟩
  intro r hr
  simp only [split_charge, List.mem_cons, List.mem_singleton, List.not_mem_nil, or_false] at hr
  rcases hr with rfl | rfl <;> rfl

theorem optimizer_packer_dipole :
    optimizer_packer dipole true true = some
      ([1 / 4, 3 / 4, 3 / 2, 1, 1 / 2, 1 / 2, 9 / 20, 3 / 2, -1, 1 / 2, 1 / 2, 11 / 20],
       [0, 0, 1 / 10, 0, 0, 0, 0, 1 / 10, 0, 0, 0, 0],
       [1, 1, 7, 0, 1, 1, 1, 7, 0, 1, 1, 1]) := by
  rw [optimizer_packer_eq dipole true true dipole_charges]
  norm_num [packed_param, packed_low, packed_upp, pin_single, param_block, low_block, upp_block,
    dipole, accu, List.range_succ, List.flatMap]

/-- C3, as stated, fails at the dipole of Scenario 3 with `optimize_charge` set: it has two
charges, `sigma = 1.5 > 0`, positions and interfaces in `[0, 1)`, yet the packed start vector
has `x[3] = Q₁ = 1` above the upper bound `upp_b[3] = max(0, ΣQd) = 0`. -/
theorem do_optimize_start_within_bounds_counterexample :
    ¬ (∀ (v : opt_vars ℚ) (N : ℕ) (optimize_charge optimize_interface : Bool),
        1 ≤ N → v.charges N →
        (∀ s ∈ v.sigma, 0 < s) →
        (∀ r ∈ v.charge_position, ∀ c ∈ r, 0 ≤ c ∧ c < 1) →
        (∀ m, 0 ≤ v.interfaces m ∧ v.interfaces m < 1) →
        ∃ p l u, optimizer_packer v optimize_charge optimize_interface = some (p, l, u) ∧
          ∀ m, m < 2 + 5 * N → ∃ a b c, l[m]? = some a ∧ p[m]? = some b ∧ u[m]? = some c ∧
            a ≤ b ∧ b ≤ c) := by
  intro h
  have hsig : ∀ s ∈ dipole.sigma, (0 : ℚ) < s := by
    intro s hs
    simp only [dipole, List.mem_cons, List.mem_singleton, List.not_mem_nil, or_false] at hs
    rcases hs with rfl | rfl <;> norm_num
  have hpos : ∀ r ∈ dipole.charge_position, ∀ c ∈ r, (0 : ℚ) ≤ c ∧ c < 1 := by
    intro r hr c hc
    simp only [dipole, List.mem_cons, List.mem_singleton, List.not_mem_nil, or_false] at hr
    rcases hr with rfl | rfl <;>
      simp only [List.mem_cons, List.mem_singleton, List.not_mem_nil, or_false] at hc <;>
      rcases hc with rfl | rfl | rfl <;> norm_num
  have hint : ∀ m, (0 : ℚ) ≤ dipole.interfaces m ∧ dipole.interfaces m < 1 := by
    intro m
    fin_cases m <;> norm_num [dipole]
  obtain ⟨p, l, u, hp, hb⟩ := h dipole 2 true true (by norm_num) dipole_charges hsig hpos hint
  rw [optimizer_packer_dipole] at hp
  simp only [Option.some.injEq, Prod.mk.injEq] at hp
  obtain ⟨rfl, rfl, rfl⟩ := hp
  obtain ⟨a, b, c, _, hb2, hc2, _, hbc⟩ := hb 3 (by norm_num)
  simp at hb2 hc2
  subst hb2 hc2
  norm_num at hbc

/-- C3 (amended), at two equal charge fractions with both flags set: every hypothesis holds
and the start vector lies within the bounds at all twelve indices. -/
theorem do_optimize_start_within_bounds_witness :
    split_charge.charges 2 ∧
    ∃ opt x, do_optimize_opt ("COBYLA") (1 / 1000) 0 0 split_charge true true = some (opt, x) ∧
      ∀ m, m < 2 + 5 * 2 → ∃ a b c, opt.lower_bounds[m]? = some a ∧ x[m]? = some b ∧
        opt.upper_bounds[m]? = some c ∧ a ≤ b ∧ b ≤ c :=
  ⟨split_charge_charges,
    match do_optimize_start_within_bounds split_charge 2 true true ("COBYLA") (1 / 1000) 0 0
      split_charge_charges
      (by intro m; fin_cases m <;> norm_num [split_charge])
      (by
        intro r hr c hc
        simp only [split_charge, List.mem_cons, List.mem_singleton, List.not_mem_nil,
          or_false] at hr
        rcases hr with rfl | rfl <;>
          simp only [List.mem_cons, List.mem_singleton, List.not_mem_nil, or_false] at hc <;>
          rcases hc with rfl | rfl | rfl <;> norm_num)
      (by
        intro _ s hs
        simp only [split_charge, List.mem_cons, List.mem_singleton, List.not_mem_nil,
          or_false] at hs
        rcases hs with rfl | rfl <;> norm_num)
      (by
        intro _ _ q hq
        simp only [split_charge, List.mem_cons, List.mem_singleton, List.not_mem_nil,
          or_false] at hq
        rcases hq with rfl | rfl <;> norm_num [split_charge, accu]) with
    | ⟨opt, x, h1, _, _, h2⟩ => ⟨opt, x, h1, h2⟩⟩

theorem mapM_option_eq_some {β γ : Type} (f : β → Option γ) (g : β → γ) (l : List β)
    (h : ∀ i ∈ l, f i = some (g i)) : l.mapM f = some (l.map g) := by
  induction l with
  | nil => rfl
  | cons a t ih =>
    rw [List.mapM_cons, h a (List.mem_cons_self a t),
      ih (fun i hi => h i (List.mem_cons_of_mem a hi))]
    rfl

theorem opt_charge_constraint_eq (x : List α) (Q0 : α) (N : ℕ) (q : List α)
    (hx : x.length = 2 + 5 * N) (hq : q.length = N)
    (h : ∀ i, i < N → x[3 + 5 * i]? = q[i]?) :
    opt_charge_constraint x Q0 = some (accu q - Q0) := by
  have hn : x.length / 5 = N := by rw [hx]; omega
  have hm : (List.range N).mapM (fun i => x[3 + 5 * i]?) = some ((List.range N).map (fun i => q.getD i 0)) := by
    apply mapM_option_eq_some
    intro i hi
    have hi2 := List.mem_range.mp hi
    rw [h i hi2]
    exact getElem?_eq_some_getD q i 0 (by omega)
  unfold opt_charge_constraint
  dsimp only
  rw [hn, hm, ← hq, map_range_getD]
  rfl

/-- C4. The equality constraint is the total-charge error. For an `opt_vars` with `N` charges
and any target `Q0`, `opt_charge_constraint` on the packed vector returns `ΣQd - Q0`; it reads
only the entries `x[3 + 5 i]`, `i < N` (any vector of the same length agreeing there gives the
same value); so it vanishes exactly when the charges sum to `Q0`. The optimiser object built
by `do_optimize` carries the constraint exactly when `N > 1`. -/
theorem opt_charge_constraint_total_charge (v : opt_vars α) (N : ℕ)
    (optimize_charge optimize_interface : Bool) (Q0 : α)
    (opt_algo : String) (opt_tol : α) (max_eval max_time : ℤ)
    (hv : v.charges N) :
    ∃ p l u, optimizer_packer v optimize_charge optimize_interface = some (p, l, u) ∧
      opt_charge_constraint p Q0 = some (accu v.Qd - Q0) ∧
      (∀ y : List α, y.length = p.length → (∀ i, i < N → y[3 + 5 * i]? = p[3 + 5 * i]?) →
        opt_charge_constraint y Q0 = some (accu v.Qd - Q0)) ∧
      (opt_charge_constraint p Q0 = some 0 ↔ accu v.Qd = Q0) ∧
      ∃ opt, do_optimize_opt opt_algo opt_tol max_eval max_time v optimize_charge
          optimize_interface = some (opt, p) ∧
        (opt.equality_constraint.isSome = true ↔ 1 < N) := by
  have hpk := optimizer_packer_eq v optimize_charge optimize_interface hv
  have hlay := (packed_param_layout v hv).2.2
  have hlen := packed_param_length v N
  have hc : opt_charge_constraint (packed_param v N) Q0 = some (accu v.Qd - Q0) :=
    opt_charge_constraint_eq _ Q0 N v.Qd hlen hv.2.1 (fun i hi => (hlay i hi).2.1)
  refine ⟨_, _, _, hpk, hc, ?_, ?_, ?_⟩
  · intro y hy hagree
    exact opt_charge_constraint_eq y Q0 N v.Qd (by rw [hy, hlen]) hv.2.1
      (fun i hi => by rw [hagree i hi]; exact (hlay i hi).2.1)
  · rw [hc, Option.some.injEq, sub_eq_zero]
  · refine ⟨_, by unfold do_optimize_opt; rw [hpk]; rfl, ?_⟩
    dsimp only
    rw [hv.2.1]
    by_cases h : N > 1
    · simp [h]
    · simp [h]

/-- C4, at the dipole of Scenario 3 with target total charge `0`: the hypothesis holds, the
constraint evaluates to `0` and is registered. -/
theorem opt_charge_constraint_total_charge_witness :
    dipole.charges 2 ∧
    ∃ p l u, optimizer_packer dipole true true = some (p, l, u) ∧
      opt_charge_constraint p 0 = some (accu dipole.Qd - 0) ∧
      ∃ opt, do_optimize_opt ("COBYLA") (1 / 1000) 0 0 dipole true true = some (opt, p) ∧
        (opt.equality_constraint.isSome = true ↔ 1 < 2) :=
  ⟨dipole_charges,
    match opt_charge_constraint_total_charge dipole 2 true true 0 ("COBYLA") (1 / 1000) 0 0
      dipole_charges with
    | ⟨p, l, u, h1, h2, _, _, h3⟩ => ⟨p, l, u, h1, h2, h3⟩⟩

/-! ## Dielectric profile (C5 - C7) -/

theorem linspace_getD (start stop : α) (N k : ℕ) (hk : k + 1 < N) :
    (linspace start stop N).getD k 0 = start + (k : α) * ((stop - start) / ((N : α) - 1)) := by
  unfold linspace
  have hk2 : k < N := by omega
  rw [List.getD_eq_getElem?_getD]
  simp only [List.getElem?_map, List.getElem?_range hk2, Option.map_some', Option.getD_some]
  rw [if_neg (by omega)]

theorem dielectric_profiles_elem [FloorRing α] (erf : α → α) (cell : slabcc_cell_type α)
    (interfaces : rowvec2 α) (diel_in diel_out : rowvec3 α) (beta : α) (k : ℕ) (c : Fin 3)
    (hk : k < cell.grid cell.normal_direction) :
    mat_elem (dielectric_profiles erf cell interfaces diel_in diel_out beta) k c.val
      = some (profile_value erf (cell.lengths cell.normal_direction)
          (interfaces 0 * cell.lengths cell.normal_direction)
          (interfaces 1 * cell.lengths cell.normal_direction)
          ((k : α) * (cell.lengths cell.normal_direction / (cell.grid cell.normal_direction : α)))
          (diel_in c) (diel_out c) beta) := by
  have hp := linspace_getD 0 (cell.lengths cell.normal_direction)
    (cell.grid cell.normal_direction + 1) k (by omega)
  simp only [Nat.cast_add, Nat.cast_one, add_sub_cancel_right, sub_zero, zero_add] at hp
  unfold dielectric_profiles mat_elem
  simp only [List.getElem?_map, List.getElem?_range hk, Option.map_some', Option.some_bind]
  unfold dielectric_profiles_row profile_value wrap_distance
  simp only [hp]
  fin_cases c <;> split <;> simp_all

theorem wrap_distance_mid [FloorRing α] {L t : α} (hL : 0 < L) (h1 : -(L / 2) ≤ t)
    (h2 : t < L / 2) : wrap_distance L t = t := by
  have hf : ⌊(t + L / 2) / L⌋ = 0 := by
    rw [Int.floor_eq_iff]
    constructor
    · rw [Int.cast_zero]; apply div_nonneg <;> linarith
    · rw [Int.cast_zero, zero_add, div_lt_one hL]; linarith
  unfold wrap_distance fmod_p
  rw [hf, Int.cast_zero]
  ring

theorem wrap_distance_high [FloorRing α] {L t : α} (hL : 0 < L) (h1 : L / 2 ≤ t)
    (h2 : t < L) : wrap_distance L t = t - L := by
  have hf : ⌊(t + L / 2) / L⌋ = 1 := by
    rw [Int.floor_eq_iff]
    constructor
    · rw [Int.cast_one, le_div_iff₀ hL]; linarith
    · rw [Int.cast_one, div_lt_iff₀ hL]; linarith
  unfold wrap_distance fmod_p
  rw [hf, Int.cast_one]
  ring

theorem wrap_distance_low [FloorRing α] {L t : α} (hL : 0 < L) (h1 : -L < t)
    (h2 : t < -(L / 2)) : wrap_distance L t = t + L := by
  have hf : ⌊(t + L / 2) / L⌋ = -1 := by
    rw [Int.floor_eq_iff]
    constructor
    · rw [Int.cast_neg, Int.cast_one, le_div_iff₀ hL]; linarith
    · rw [Int.cast_neg, Int.cast_one, div_lt_iff₀ hL]; linarith
  unfold wrap_distance fmod_p
  rw [hf, Int.cast_neg, Int.cast_one]
  ring

theorem wrap_distance_pos [FloorRing α] {L t : α} (hL : 0 < L) (h1 : 0 < t) (h2 : t < L) :
    (t < L / 2 ∧ wrap_distance L t = t ∧ |wrap_distance L t| = t) ∨
    (L / 2 ≤ t ∧ wrap_distance L t = t - L ∧ |wrap_distance L t| = L - t) := by
  rcases lt_or_le t (L / 2) with h | h
  · have e := wrap_distance_mid hL (show -(L / 2) ≤ t by linarith) h
    exact Or.inl ⟨h, e, by rw [e, abs_of_pos h1]⟩
  · have e := wrap_distance_high hL h h2
    exact Or.inr ⟨h, e, by rw [e, abs_of_neg (by linarith)]; ring⟩

theorem wrap_distance_neg [FloorRing α] {L t : α} (hL : 0 < L) (h1 : -L < t) (h2 : t < 0) :
    (t < -(L / 2) ∧ wrap_distance L t = t + L ∧ |wrap_distance L t| = t + L) ∨
    (-(L / 2) ≤ t ∧ wrap_distance L t = t ∧ |wrap_distance L t| = -t) := by
  rcases lt_or_le t (-(L / 2)) with h | h
  · have e := wrap_distance_low hL h1 h
    exact Or.inl ⟨h, e, by rw [e, abs_of_pos (by linarith)]⟩
  · have e := wrap_distance_mid hL h (show t < L / 2 by linarith)
    exact Or.inr ⟨h, e, by rw [e, abs_of_neg h2]⟩

/-- Between the interfaces the selected distance points into the slab: it is the distance to
`c0` and positive, or the distance to `c1` and negative. -/
theorem selection_between [FloorRing α] {L c0 c1 p : α} (hL : 0 < L) (h0 : c0 < p) (h1 : p < c1)
    (hw : c1 - c0 < L) :
    (|wrap_distance L (p - c0)| < |wrap_distance L (p - c1)| → 0 < wrap_distance L (p - c0)) ∧
    (¬ |wrap_distance L (p - c0)| < |wrap_distance L (p - c1)| → wrap_distance L (p - c1) < 0) := by
  rcases wrap_distance_pos hL (show 0 < p - c0 by linarith) (show p - c0 < L by linarith)
    with ⟨a, e0, f0⟩ | ⟨a, e0, f0⟩ <;>
  rcases wrap_distance_neg hL (show -L < p - c1 by linarith) (show p - c1 < 0 by linarith)
    with ⟨b, e1, f1⟩ | ⟨b, e1, f1⟩ <;>
  rw [f0, f1, e0, e1] <;>
  refine ⟨fun hh => ?_, fun hh => ?_⟩ <;>
  linarith

theorem selection_below [FloorRing α] {L c0 c1 p : α} (hL : 0 < L) (h01 : c0 < c1)
    (hout : p < c0) (hlo : c1 - L < p) :
    (|wrap_distance L (p - c0)| < |wrap_distance L (p - c1)| → wrap_distance L (p - c0) < 0) ∧
    (¬ |wrap_distance L (p - c0)| < |wrap_distance L (p - c1)| → 0 < wrap_distance L (p - c1)) := by
  rcases wrap_distance_neg hL (show -L < p - c0 by linarith) (show p - c0 < 0 by linarith)
    with ⟨a, e0, f0⟩ | ⟨a, e0, f0⟩ <;>
  rcases wrap_distance_neg hL (show -L < p - c1 by linarith) (show p - c1 < 0 by linarith)
    with ⟨b, e1, f1⟩ | ⟨b, e1, f1⟩ <;>
  rw [f0, f1, e0, e1] <;>
  refine ⟨fun hh => ?_, fun hh => ?_⟩ <;>
  linarith

theorem selection_above [FloorRing α] {L c0 c1 p : α} (hL : 0 < L) (h01 : c0 < c1)
    (hout : c1 < p) (hhi : p < c0 + L) :
    (|wrap_distance L (p - c0)| < |wrap_distance L (p - c1)| → wrap_distance L (p - c0) < 0) ∧
    (¬ |wrap_distance L (p - c0)| < |wrap_distance L (p - c1)| → 0 < wrap_distance L (p - c1)) := by
  rcases wrap_distance_pos hL (show 0 < p - c0 by linarith) (show p - c0 < L by linarith)
    with ⟨a, e0, f0⟩ | ⟨a, e0, f0⟩ <;>
  rcases wrap_distance_pos hL (show 0 < p - c1 by linarith) (show p - c1 < L by linarith)
    with ⟨b, e1, f1⟩ | ⟨b, e1, f1⟩ <;>
  rw [f0, f1, e0, e1] <;>
  refine ⟨fun hh => ?_, fun hh => ?_⟩ <;>
  linarith

/-- Outside the interfaces the selected distance points away from the slab: it is the distance
to `c0` and negative, or the distance to `c1` and positive. -/
theorem selection_outside [FloorRing α] {L c0 c1 p : α} (hL : 0 < L) (h01 : c0 < c1)
    (hout : p < c0 ∨ c1 < p) (hlo : c1 - L < p) (hhi : p < c0 + L) :
    (|wrap_distance L (p - c0)| < |wrap_distance L (p - c1)| → wrap_distance L (p - c0) < 0) ∧
    (¬ |wrap_distance L (p - c0)| < |wrap_distance L (p - c1)| → 0 < wrap_distance L (p - c1)) := by
  rcases hout with hout | hout
  · exact selection_below hL h01 hout hlo
  · exact selection_above hL h01 hout hhi

theorem odd_map_zero (erf : α → α) (hodd : ∀ x, erf (-x) = -erf x) : erf 0 = 0 := by
  have h := hodd 0
  rw [neg_zero] at h
  linarith

theorem odd_strictMono_pos (erf : α → α) (hodd : ∀ x, erf (-x) = -erf x) (hmono : StrictMono erf)
    {x : α} (hx : 0 < x) : 0 < erf x := by
  have := hmono hx
  rwa [odd_map_zero erf hodd] at this

theorem odd_strictMono_neg (erf : α → α) (hodd : ∀ x, erf (-x) = -erf x) (hmono : StrictMono erf)
    {x : α} (hx : x < 0) : erf x < 0 := by
  have := hmono hx
  rwa [odd_map_zero erf hodd] at this

/-- When the selected distance points into the slab, the profile value lies strictly on the
`diel_in` side of the midpoint. -/
theorem profile_value_in_side [FloorRing α] (erf : α → α) (hodd : ∀ x, erf (-x) = -erf x)
    (hmono : StrictMono erf) {L c0 c1 p d_in d_out beta : α} (hbeta : 0 < beta)
    (hsel : (|wrap_distance L (p - c0)| < |wrap_distance L (p - c1)| →
              0 < wrap_distance L (p - c0)) ∧
            (¬ |wrap_distance L (p - c0)| < |wrap_distance L (p - c1)| →
              wrap_distance L (p - c1) < 0)) :
    (d_in < d_out → profile_value erf L c0 c1 p d_in d_out beta < (d_in + d_out) / 2) ∧
    (d_out < d_in → (d_in + d_out) / 2 < profile_value erf L c0 c1 p d_in d_out beta) := by
  unfold profile_value
  by_cases h : |wrap_distance L (p - c0)| < |wrap_distance L (p - c1)|
  · simp only [if_pos h]
    have e := odd_strictMono_pos erf hodd hmono (div_pos (hsel.1 h) hbeta)
    constructor
    · intro hd
      have := mul_pos (sub_pos.2 hd) e
      linarith
    · intro hd
      have := mul_pos (sub_pos.2 hd) e
      linarith
  · simp only [if_neg h]
    have e := odd_strictMono_neg erf hodd hmono (div_neg_of_neg_of_pos (hsel.2 h) hbeta)
    constructor
    · intro hd
      have := mul_pos (sub_pos.2 hd) (neg_pos.2 e)
      linarith
    · intro hd
      have := mul_pos (sub_pos.2 hd) (neg_pos.2 e)
      linarith

/-- When the selected distance points away from the slab, the profile value lies strictly on
the `diel_out` side of the midpoint. -/
theorem profile_value_out_side [FloorRing α] (erf : α → α) (hodd : ∀ x, erf (-x) = -erf x)
    (hmono : StrictMono erf) {L c0 c1 p d_in d_out beta : α} (hbeta : 0 < beta)
    (hsel : (|wrap_distance L (p - c0)| < |wrap_distance L (p - c1)| →
              wrap_distance L (p - c0) < 0) ∧
            (¬ |wrap_distance L (p - c0)| < |wrap_distance L (p - c1)| →
              0 < wrap_distance L (p - c1))) :
    (d_in < d_out → (d_in + d_out) / 2 < profile_value erf L c0 c1 p d_in d_out beta) ∧
    (d_out < d_in → profile_value erf L c0 c1 p d_in d_out beta < (d_in + d_out) / 2) := by
  unfold profile_value
  by_cases h : |wrap_distance L (p - c0)| < |wrap_distance L (p - c1)|
  · simp only [if_pos h]
    have e := odd_strictMono_neg erf hodd hmono (div_neg_of_neg_of_pos (hsel.1 h) hbeta)
    constructor
    · intro hd
      have := mul_pos (sub_pos.2 hd) (neg_pos.2 e)
      linarith
    · intro hd
      have := mul_pos (sub_pos.2 hd) (neg_pos.2 e)
      linarith
  · simp only [if_neg h]
    have e := odd_strictMono_pos erf hodd hmono (div_pos (hsel.2 h) hbeta)
    constructor
    · intro hd
      have := mul_pos (sub_pos.2 hd) e
      linarith
    · intro hd
      have := mul_pos (sub_pos.2 hd) e
      linarith

theorem tendsto_erf_div_pos (erf : ℝ → ℝ) (hlim : Filter.Tendsto erf Filter.atTop (nhds 1))
    {d : ℝ} (hd : 0 < d) :
    Filter.Tendsto (fun beta : ℝ => erf (d / beta)) (nhdsWithin 0 (Set.Ioi 0)) (nhds 1) := by
  have h1 : Filter.Tendsto (fun beta : ℝ => d / beta) (nhdsWithin 0 (Set.Ioi 0)) Filter.atTop := by
    simp only [div_eq_mul_inv]
    exact Filter.Tendsto.const_mul_atTop hd tendsto_inv_zero_atTop
  exact hlim.comp h1

theorem tendsto_erf_div_neg (erf : ℝ → ℝ) (hodd : ∀ x, erf (-x) = -erf x)
    (hlim : Filter.Tendsto erf Filter.atTop (nhds 1)) {d : ℝ} (hd : d < 0) :
    Filter.Tendsto (fun beta : ℝ => erf (d / beta)) (nhdsWithin 0 (Set.Ioi 0)) (nhds (-1)) := by
  have h := (tendsto_erf_div_pos erf hlim (neg_pos.2 hd)).neg
  refine h.congr (fun beta => ?_)
  rw [neg_div, hodd, neg_neg]

/-- When the selected distance points into the slab, the profile value tends to `diel_in` as
the smoothing width tends to `0` from above. -/
theorem profile_value_tendsto_in (erf : ℝ → ℝ) (hodd : ∀ x, erf (-x) = -erf x)
    (hlim : Filter.Tendsto erf Filter.atTop (nhds 1)) {L c0 c1 p d_in d_out : ℝ}
    (hsel : (|wrap_distance L (p - c0)| < |wrap_distance L (p - c1)| →
              0 < wrap_distance L (p - c0)) ∧
            (¬ |wrap_distance L (p - c0)| < |wrap_distance L (p - c1)| →
              wrap_distance L (p - c1) < 0)) :
    Filter.Tendsto (fun beta => profile_value erf L c0 c1 p d_in d_out beta)
      (nhdsWithin 0 (Set.Ioi 0)) (nhds d_in) := by
  unfold profile_value
  by_cases h : |wrap_distance L (p - c0)| < |wrap_distance L (p - c1)|
  · simp only [if_pos h]
    have e := tendsto_erf_div_pos erf hlim (hsel.1 h)
    have := ((e.const_mul ((d_out - d_in) * -1)).add_const (d_in + d_out)).div_const 2
    convert this using 2
    ring
  · simp only [if_neg h]
    have e := tendsto_erf_div_neg erf hodd hlim (hsel.2 h)
    have := ((e.const_mul ((d_out - d_in) * 1)).add_const (d_in + d_out)).div_const 2
    convert this using 2
    ring

/-- When the selected distance points away from the slab, the profile value tends to
`diel_out` as the smoothing width tends to `0` from above. -/
theorem profile_value_tendsto_out (erf : ℝ → ℝ) (hodd : ∀ x, erf (-x) = -erf x)
    (hlim : Filter.Tendsto erf Filter.atTop (nhds 1)) {L c0 c1 p d_in d_out : ℝ}
    (hsel : (|wrap_distance L (p - c0)| < |wrap_distance L (p - c1)| →
              wrap_distance L (p - c0) < 0) ∧
            (¬ |wrap_distance L (p - c0)| < |wrap_distance L (p - c1)| →
              0 < wrap_distance L (p - c1))) :
    Filter.Tendsto (fun beta => profile_value erf L c0 c1 p d_in d_out beta)
      (nhdsWithin 0 (Set.Ioi 0)) (nhds d_out) := by
  unfold profile_value
  by_cases h : |wrap_distance L (p - c0)| < |wrap_distance L (p - c1)|
  · simp only [if_pos h]
    have e := tendsto_erf_div_neg erf hodd hlim (hsel.1 h)
    have := ((e.const_mul ((d_out - d_in) * -1)).add_const (d_in + d_out)).div_const 2
    convert this using 2
    ring
  · simp only [if_neg h]
    have e := tendsto_erf_div_pos erf hlim (hsel.2 h)
    have := ((e.const_mul ((d_out - d_in) * 1)).add_const (d_in + d_out)).div_const 2
    convert this using 2
    ring

theorem erf_model_odd (x : α) : erf_model (-x) = -erf_model x := by
  unfold erf_model
  rw [abs_neg, neg_div]

theorem erf_model_strictMono : StrictMono (erf_model : α → α) := by
  intro x y hxy
  unfold erf_model
  have hx : 0 < 1 + |x| := by positivity
  have hy : 0 < 1 + |y| := by positivity
  rw [div_lt_div_iff₀ hx hy]
  rcases abs_cases x with ⟨e1, h1⟩ | ⟨e1, h1⟩ <;>
  rcases abs_cases y with ⟨e2, h2⟩ | ⟨e2, h2⟩ <;>
  rw [e1, e2]
  · nlinarith
  · linarith
  · nlinarith [mul_nonneg (neg_nonneg.2 h1.le) h2]
  · nlinarith

theorem erf_model_abs_le_one (x : α) : |erf_model x| ≤ 1 := by
  unfold erf_model
  have hx : 0 < 1 + |x| := by positivity
  rw [abs_div, abs_of_pos hx, div_le_one hx]
  linarith

theorem erf_model_tendsto :
    Filter.Tendsto (erf_model : ℝ → ℝ) Filter.atTop (nhds 1) := by
  have h1 : Filter.Tendsto (fun x : ℝ => 1 - (1 + x)⁻¹) Filter.atTop (nhds (1 - 0)) :=
    tendsto_const_nhds.sub
      (tendsto_inv_atTop_zero.comp (Filter.tendsto_atTop_add_const_left _ 1 Filter.tendsto_id))
  rw [sub_zero] at h1
  refine h1.congr' ?_
  filter_upwards [Filter.eventually_gt_atTop (0 : ℝ)] with x hx
  unfold erf_model
  rw [abs_of_pos hx]
  have : (1 + x) ≠ 0 := by positivity
  field_simp

/-- C5. `dielectric_profiles` puts `diel_in` between the interfaces and `diel_out` outside.
For interfaces `(a, b)` with `0 ≤ a < b < 1`, a normal length `L > 0`, a slice `k < N` at
`p = k L / N` and a component `c`, the entry `D[k, c]` exists for every smoothing width and:
if `a L < p < b L` it lies strictly on the `diel_in[c]` side of the midpoint for every
`beta > 0` and tends to `diel_in[c]` as `beta → 0+`; if `p < a L` or `b L < p` it lies strictly
on the `diel_out[c]` side and tends to `diel_out[c]`. Here `erf` is any odd, strictly
increasing function with limit `1` at `+∞`. -/
theorem dielectric_profiles_regions (erf : ℝ → ℝ) (hodd : ∀ x, erf (-x) = -erf x)
    (hmono : StrictMono erf) (hlim : Filter.Tendsto erf Filter.atTop (nhds 1))
    (cell : slabcc_cell_type ℝ) (a b : ℝ) (diel_in diel_out : rowvec3 ℝ) (k : ℕ) (c : Fin 3)
    (hL : 0 < cell.lengths cell.normal_direction)
    (hk : k < cell.grid cell.normal_direction)
    (ha : 0 ≤ a) (hab : a < b) (hb : b < 1) :
    ∃ D : ℝ → ℝ,
      (∀ beta, mat_elem (dielectric_profiles erf cell ![a, b] diel_in diel_out beta) k c.val
        = some (D beta)) ∧
      (a * cell.lengths cell.normal_direction
          < (k : ℝ) * cell.lengths cell.normal_direction / (cell.grid cell.normal_direction : ℝ) ∧
        (k : ℝ) * cell.lengths cell.normal_direction / (cell.grid cell.normal_direction : ℝ)
          < b * cell.lengths cell.normal_direction →
        (∀ beta, 0 < beta →
          (diel_in c < diel_out c → D beta < (diel_in c + diel_out c) / 2) ∧
          (diel_out c < diel_in c → (diel_in c + diel_out c) / 2 < D beta)) ∧
        Filter.Tendsto D (nhdsWithin 0 (Set.Ioi 0)) (nhds (diel_in c))) ∧
      ((k : ℝ) * cell.lengths cell.normal_direction / (cell.grid cell.normal_direction : ℝ)
          < a * cell.lengths cell.normal_direction ∨
        b * cell.lengths cell.normal_direction
          < (k : ℝ) * cell.lengths cell.normal_direction / (cell.grid cell.normal_direction : ℝ) →
        (∀ beta, 0 < beta →
          (diel_in c < diel_out c → (diel_in c + diel_out c) / 2 < D beta) ∧
          (diel_out c < diel_in c → D beta < (diel_in c + diel_out c) / 2)) ∧
        Filter.Tendsto D (nhdsWithin 0 (Set.Ioi 0)) (nhds (diel_out c))) := by
  set L := cell.lengths cell.normal_direction with hLdef
  set N := cell.grid cell.normal_direction with hNdef
  have hNpos : (0 : ℝ) < (N : ℝ) := by
    have : 0 < N := by omega
    exact_mod_cast this
  have hp0 : 0 ≤ (k : ℝ) * (L / N) := by positivity
  have hpL : (k : ℝ) * (L / N) < L := by
    have hkN : (k : ℝ) < N := by exact_mod_cast hk
    have : (k : ℝ) * (L / N) < N * (L / N) := mul_lt_mul_of_pos_right hkN (div_pos hL hNpos)
    have e : (N : ℝ) * (L / N) = L := by field_simp
    linarith
  have hpe : (k : ℝ) * L / N = (k : ℝ) * (L / N) := mul_div_assoc _ _ _
  rw [hpe]
  have haL : 0 ≤ a * L := mul_nonneg ha hL.le
  have hbL : b * L < L := by nlinarith
  have habL : a * L < b * L := mul_lt_mul_of_pos_right hab hL
  refine ⟨fun beta => profile_value erf L (a * L) (b * L) ((k : ℝ) * (L / N))
    (diel_in c) (diel_out c) beta, ?_, ?_, ?_⟩
  · intro beta
    exact dielectric_profiles_elem erf cell ![a, b] diel_in diel_out beta k c hk
  · rintro ⟨h1, h2⟩
    have hsel := selection_between hL h1 h2 (show b * L - a * L < L by linarith)
    exact ⟨fun beta hbeta => profile_value_in_side erf hodd hmono hbeta hsel,
      profile_value_tendsto_in erf hodd hlim hsel⟩
  · intro hout
    have hsel := selection_outside hL habL hout (by linarith) (by linarith)
    exact ⟨fun beta hbeta => profile_value_out_side erf hodd hmono hbeta hsel,
      profile_value_tendsto_out erf hodd hlim hsel⟩

/-- C5, on the unit cell with interfaces `(1/4, 3/4)` at the central slice `k = 4`
(`p = 1/2`, between the interfaces): all hypotheses hold and `D[4, 0]` tends to `diel_in[0]`. -/
theorem dielectric_profiles_regions_witness :
    (0 : ℝ) < (unit_cell ℝ).lengths (unit_cell ℝ).normal_direction ∧
    4 < (unit_cell ℝ).grid (unit_cell ℝ).normal_direction ∧
    ∃ D : ℝ → ℝ,
      (∀ beta, mat_elem (dielectric_profiles erf_model (unit_cell ℝ) ![1 / 4, 3 / 4]
        ![5, 5, 10] ![1, 1, 1] beta) 4 0 = some (D beta)) ∧
      Filter.Tendsto D (nhdsWithin 0 (Set.Ioi 0)) (nhds 5) :=
  ⟨by norm_num [unit_cell], by norm_num [unit_cell],
    match dielectric_profiles_regions erf_model erf_model_odd erf_model_strictMono
      erf_model_tendsto (unit_cell ℝ) (1 / 4) (3 / 4) ![5, 5, 10] ![1, 1, 1] 4 0
      (by norm_num [unit_cell]) (by norm_num [unit_cell]) (by norm_num) (by norm_num)
      (by norm_num) with
    | ⟨D, h1, h2, _⟩ => ⟨D, h1, (h2 (by norm_num [unit_cell])).2⟩⟩

theorem profile_value_eq_of [FloorRing α] (erf : α → α) (L c0 c1 p d_in d_out beta d0 d1 : α)
    (h0 : wrap_distance L (p - c0) = d0) (h1 : wrap_distance L (p - c1) = d1) :
    profile_value erf L c0 c1 p d_in d_out beta
      = ((d_out - d_in) * (if |d0| < |d1| then -1 else 1) *
          erf ((if |d0| < |d1| then d0 else d1) / beta) + (d_in + d_out)) / 2 := by
  subst h0 h1
  rfl

theorem dielectric_profiles_unit_elem (interfaces : rowvec2 ℚ) (diel_in diel_out : rowvec3 ℚ)
    (beta : ℚ) (k : ℕ) (c : Fin 3) (hk : k < 8) :
    mat_elem (dielectric_profiles erf_model (unit_cell ℚ) interfaces diel_in diel_out beta) k c.val
      = some (profile_value erf_model 1 (interfaces 0) (interfaces 1) ((k : ℚ) / 8)
          (diel_in c) (diel_out c) beta) := by
  rw [dielectric_profiles_elem erf_model (unit_cell ℚ) interfaces diel_in diel_out beta k c hk]
  simp only [unit_cell, mul_one, Nat.cast_ofNat, mul_one_div]

/-- C6 fails on the code: with `diel_in = (5, 5, 10)`, `diel_out = (1, 1, 1)`, `beta = 1` on
the unit cell, slice `k = 1` (`p = 1/8`, outside the slab) gets `25/9` (the `diel_out` side of
the midpoint `3`) for interfaces `(1/4, 3/4)` but `29/9` (the `diel_in` side) for
`(3/4, 1/4)`: the profile depends on the order of the pair, because the sorted copy made at
line 13 is discarded. -/
theorem dielectric_profiles_order_dependent :
    mat_elem (dielectric_profiles erf_model (unit_cell ℚ) ![1 / 4, 3 / 4]
      ![5, 5, 10] ![1, 1, 1] 1) 1 0 = some (25 / 9) ∧
    mat_elem (dielectric_profiles erf_model (unit_cell ℚ) ![3 / 4, 1 / 4]
      ![5, 5, 10] ![1, 1, 1] 1) 1 0 = some (29 / 9) ∧
    dielectric_profiles erf_model (unit_cell ℚ) ![1 / 4, 3 / 4] ![5, 5, 10] ![1, 1, 1] 1
      ≠ dielectric_profiles erf_model (unit_cell ℚ) ![3 / 4, 1 / 4] ![5, 5, 10] ![1, 1, 1] 1 := by
  have e1 : mat_elem (dielectric_profiles erf_model (unit_cell ℚ) ![1 / 4, 3 / 4]
      ![5, 5, 10] ![1, 1, 1] 1) 1 0 = some (25 / 9) := by
    have h := dielectric_profiles_unit_elem ![1 / 4, 3 / 4] ![5, 5, 10] ![1, 1, 1] 1 1 0
      (by norm_num)
    rw [profile_value_eq_of erf_model 1 _ _ _ _ _ _ (-(1 / 8)) (3 / 8)
      (by rw [wrap_distance_mid (by norm_num) (by norm_num) (by norm_num)]; norm_num)
      (by rw [wrap_distance_low (by norm_num) (by norm_num) (by norm_num)]; norm_num)] at h
    refine h.trans ?_
    norm_num [erf_model, abs_of_pos]
  have e2 : mat_elem (dielectric_profiles erf_model (unit_cell ℚ) ![3 / 4, 1 / 4]
      ![5, 5, 10] ![1, 1, 1] 1) 1 0 = some (29 / 9) := by
    have h := dielectric_profiles_unit_elem ![3 / 4, 1 / 4] ![5, 5, 10] ![1, 1, 1] 1 1 0
      (by norm_num)
    rw [profile_value_eq_of erf_model 1 _ _ _ _ _ _ (3 / 8) (-(1 / 8))
      (by rw [wrap_distance_low (by norm_num) (by norm_num) (by norm_num)]; norm_num)
      (by rw [wrap_distance_mid (by norm_num) (by norm_num) (by norm_num)]; norm_num)] at h
    refine h.trans ?_
    norm_num [erf_model, abs_of_pos]
  refine ⟨e1, e2, fun hne => ?_⟩
  rw [hne, e2] at e1
  norm_num at e1

theorem wrap_distance_eq_sub [FloorRing α] (L t : α) :
    wrap_distance L t = t - (⌊(t + L / 2) / L⌋ : α) * L := by
  unfold wrap_distance fmod_p
  ring

theorem wrap_distance_range [FloorRing α] {L : α} (hL : 0 < L) (t : α) :
    -(L / 2) ≤ wrap_distance L t ∧ wrap_distance L t < L / 2 := by
  rw [wrap_distance_eq_sub]
  have h1 := Int.floor_le ((t + L / 2) / L)
  have h2 := Int.lt_floor_add_one ((t + L / 2) / L)
  rw [le_div_iff₀ hL] at h1
  rw [div_lt_iff₀ hL] at h2
  constructor <;> linarith

/-- The modulus of the periodic distance is the distance to the nearest periodic image. -/
theorem abs_wrap_distance_le [FloorRing α] {L : α} (hL : 0 < L) (t : α) (m : ℤ) :
    |wrap_distance L t| ≤ |t - (m : α) * L| := by
  obtain ⟨h1, h2⟩ := wrap_distance_range hL t
  have hw : |wrap_distance L t| ≤ L / 2 := abs_le.2 ⟨h1, h2.le⟩
  have e : t - (m : α) * L
      = wrap_distance L t + ((⌊(t + L / 2) / L⌋ - m : ℤ) : α) * L := by
    rw [wrap_distance_eq_sub]
    push_cast
    ring
  rw [e]
  rcases lt_trichotomy (⌊(t + L / 2) / L⌋ - m) 0 with h | h | h
  · have h' : ((⌊(t + L / 2) / L⌋ - m : ℤ) : α) ≤ -1 := by
      have : ⌊(t + L / 2) / L⌋ - m ≤ -1 := by omega
      exact_mod_cast this
    have : ((⌊(t + L / 2) / L⌋ - m : ℤ) : α) * L ≤ -1 * L :=
      mul_le_mul_of_nonneg_right h' hL.le
    exact hw.trans (le_abs.2 (Or.inr (by linarith)))
  · rw [h, Int.cast_zero, zero_mul, add_zero]
  · have h' : (1 : α) ≤ ((⌊(t + L / 2) / L⌋ - m : ℤ) : α) := by
      have : 1 ≤ ⌊(t + L / 2) / L⌋ - m := by omega
      exact_mod_cast this
    have : 1 * L ≤ ((⌊(t + L / 2) / L⌋ - m : ℤ) : α) * L :=
      mul_le_mul_of_nonneg_right h' hL.le
    exact hw.trans (le_abs.2 (Or.inl (by linarith)))

theorem abs_wrap_distance_le_abs [FloorRing α] {L : α} (hL : 0 < L) (t : α) :
    |wrap_distance L t| ≤ |t| := by
  have h := abs_wrap_distance_le hL t 0
  rwa [Int.cast_zero, zero_mul, sub_zero] at h

theorem abs_wrap_distance_step [FloorRing α] {L : α} (hL : 0 < L) (t s : α) :
    |wrap_distance L t| ≤ |wrap_distance L s| + |t - s| := by
  have h := abs_wrap_distance_le hL t ⌊(s + L / 2) / L⌋
  have e : t - (⌊(s + L / 2) / L⌋ : α) * L = wrap_distance L s + (t - s) := by
    rw [wrap_distance_eq_sub]
    ring
  rw [e] at h
  exact h.trans (abs_add _ _)

theorem wrap_distance_add_period [FloorRing α] {L : α} (hL : 0 < L) (t : α) :
    wrap_distance L (t + L) = wrap_distance L t := by
  have e : (t + L + L / 2) / L = (t + L / 2) / L + 1 := by
    field_simp
    ring
  rw [wrap_distance_eq_sub, wrap_distance_eq_sub, e, Int.floor_add_one]
  push_cast
  ring

theorem wrap_distance_zero [FloorRing α] {L : α} (hL : 0 < L) : wrap_distance L 0 = 0 :=
  wrap_distance_mid hL (by linarith) (by linarith)

theorem signed_distance_period [FloorRing α] {L : α} (hL : 0 < L) (c0 c1 p : α) :
    signed_distance L c0 c1 (p + L) = signed_distance L c0 c1 p := by
  unfold signed_distance
  have e0 : p + L - c0 = p - c0 + L := by ring
  have e1 : p + L - c1 = p - c1 + L := by ring
  rw [e0, e1, wrap_distance_add_period hL, wrap_distance_add_period hL]

theorem abs_signed_distance [FloorRing α] (L c0 c1 p : α) :
    |signed_distance L c0 c1 p|
      = min |wrap_distance L (p - c0)| |wrap_distance L (p - c1)| := by
  unfold signed_distance
  by_cases h : |wrap_distance L (p - c0)| < |wrap_distance L (p - c1)|
  · simp only [if_pos h, abs_neg, min_eq_left h.le]
  · simp only [if_neg h, min_eq_right (not_lt.1 h)]

/-- The modulus of the signed distance changes by at most the displacement. -/
theorem abs_signed_distance_step [FloorRing α] {L : α} (hL : 0 < L) (c0 c1 p q : α) :
    |signed_distance L c0 c1 q| ≤ |signed_distance L c0 c1 p| + |q - p| := by
  rw [abs_signed_distance, abs_signed_distance]
  have h0 := abs_wrap_distance_step hL (q - c0) (p - c0)
  have h1 := abs_wrap_distance_step hL (q - c1) (p - c1)
  have e0 : q - c0 - (p - c0) = q - p := by ring
  have e1 : q - c1 - (p - c1) = q - p := by ring
  rw [e0] at h0
  rw [e1] at h1
  rcases le_total |wrap_distance L (p - c0)| |wrap_distance L (p - c1)| with h | h
  · rw [min_eq_left h]
    exact (min_le_left _ _).trans h0
  · rw [min_eq_right h]
    exact (min_le_right _ _).trans h1

/-- The modulus of the signed distance is at most the distance to either interface. -/
theorem abs_signed_distance_le [FloorRing α] {L : α} (hL : 0 < L) (c0 c1 p : α) :
    |signed_distance L c0 c1 p| ≤ |p - c0| ∧ |signed_distance L c0 c1 p| ≤ |p - c1| := by
  rw [abs_signed_distance]
  exact ⟨(min_le_left _ _).trans (abs_wrap_distance_le_abs hL _),
    (min_le_right _ _).trans (abs_wrap_distance_le_abs hL _)⟩
theorem signed_distance_at_c0 [FloorRing α] {L : α} (hL : 0 < L) (c0 c1 : α) :
    signed_distance L c0 c1 c0 = 0 := by
  unfold signed_distance
  simp only [sub_self, wrap_distance_zero hL, abs_zero, neg_zero]
  split
  · rfl
  · rename_i h
    exact abs_eq_zero.1 (le_antisymm (not_lt.1 h) (abs_nonneg _))

theorem signed_distance_at_c1 [FloorRing α] {L : α} (hL : 0 < L) (c0 c1 : α) :
    signed_distance L c0 c1 c1 = 0 := by
  unfold signed_distance
  simp only [sub_self, wrap_distance_zero hL, abs_zero]
  rw [if_neg (not_lt.2 (abs_nonneg _))]

/-- Between the interfaces the signed distance is not positive. -/
theorem signed_distance_nonpos [FloorRing α] {L c0 c1 p : α} (hL : 0 < L)
    (hw : c1 - c0 < L) (h0 : c0 ≤ p) (h1 : p ≤ c1) : signed_distance L c0 c1 p ≤ 0 := by
  rcases eq_or_lt_of_le h0 with e | h0'
  · rw [← e, signed_distance_at_c0 hL]
  rcases eq_or_lt_of_le h1 with e | h1'
  · rw [e, signed_distance_at_c1 hL]
  have hsel := selection_between hL h0' h1' hw
  unfold signed_distance
  simp only []
  split
  · rename_i h
    linarith [hsel.1 h]
  · rename_i h
    exact (hsel.2 h).le

/-- Outside the interfaces, within one period, the signed distance is not negative. -/
theorem signed_distance_nonneg [FloorRing α] {L c0 c1 p : α} (hL : 0 < L) (h01 : c0 < c1)
    (hout : p ≤ c0 ∨ c1 ≤ p) (hlo : c1 - L < p) (hhi : p < c0 + L) :
    0 ≤ signed_distance L c0 c1 p := by
  have hout' : p = c0 ∨ p = c1 ∨ (p < c0 ∨ c1 < p) := by
    rcases hout with h | h
    · rcases eq_or_lt_of_le h with e | h'
      · exact Or.inl e
      · exact Or.inr (Or.inr (Or.inl h'))
    · rcases eq_or_lt_of_le h with e | h'
      · exact Or.inr (Or.inl e.symm)
      · exact Or.inr (Or.inr (Or.inr h'))
  rcases hout' with e | e | hs
  · rw [e, signed_distance_at_c0 hL]
  · rw [e, signed_distance_at_c1 hL]
  have hsel := selection_outside hL h01 hs hlo hhi
  unfold signed_distance
  simp only []
  split
  · rename_i h
    linarith [hsel.1 h]
  · rename_i h
    exact (hsel.2 h).le

/-- On the closed period `[0, L]`, outside the interfaces the signed distance is not
negative (the point `L` is the image of `0`). -/
theorem signed_distance_nonneg_period [FloorRing α] {L c0 c1 p : α} (hL : 0 < L)
    (hc0 : 0 ≤ c0) (h01 : c0 < c1) (hc1 : c1 < L) (hp0 : 0 ≤ p) (hpL : p ≤ L)
    (hout : p ≤ c0 ∨ c1 ≤ p) : 0 ≤ signed_distance L c0 c1 p := by
  rcases eq_or_lt_of_le hpL with e | hlt
  · have h := signed_distance_period hL c0 c1 0
    rw [zero_add] at h
    rw [e, h]
    exact signed_distance_nonneg hL h01 (Or.inl hc0) (by linarith) (by linarith)
  · exact signed_distance_nonneg hL h01 hout (by linarith) (by linarith)

theorem abs_sub_le_of_same_sign {a b d : α} (hab : (0 ≤ a ∧ 0 ≤ b) ∨ (a ≤ 0 ∧ b ≤ 0))
    (h1 : |b| ≤ |a| + d) (h2 : |a| ≤ |b| + d) : |b - a| ≤ d := by
  rcases hab with ⟨ha, hb⟩ | ⟨ha, hb⟩
  · rw [abs_of_nonneg ha, abs_of_nonneg hb] at h1 h2
    exact abs_le.2 ⟨by linarith, by linarith⟩
  · rw [abs_of_nonpos ha, abs_of_nonpos hb] at h1 h2
    exact abs_le.2 ⟨by linarith, by linarith⟩

/-- The signed distance changes by at most the displacement inside one period, for interfaces
in increasing order. -/
theorem signed_distance_step_sorted [FloorRing α] {L c0 c1 p q : α} (hL : 0 < L)
    (hc0 : 0 ≤ c0) (h01 : c0 < c1) (hc1 : c1 < L) (hp0 : 0 ≤ p) (hpq : p ≤ q) (hqL : q ≤ L) :
    |signed_distance L c0 c1 q - signed_distance L c0 c1 p| ≤ q - p := by
  have hstep1 := abs_signed_distance_step hL c0 c1 p q
  have hstep2 := abs_signed_distance_step hL c0 c1 q p
  rw [abs_of_nonneg (sub_nonneg.2 hpq)] at hstep1
  rw [abs_sub_comm, abs_of_nonneg (sub_nonneg.2 hpq)] at hstep2
  -- an interface between the two points: both distances are measured to it
  have hcross : ∀ c, (c = c0 ∨ c = c1) → p ≤ c → c ≤ q →
      |signed_distance L c0 c1 q - signed_distance L c0 c1 p| ≤ q - p := by
    intro c hc hpc hcq
    have hp : |signed_distance L c0 c1 p| ≤ c - p := by
      rcases hc with rfl | rfl
      · have := (abs_signed_distance_le hL c c1 p).1
        rwa [abs_sub_comm, abs_of_nonneg (sub_nonneg.2 hpc)] at this
      · have := (abs_signed_distance_le hL c0 c p).2
        rwa [abs_sub_comm, abs_of_nonneg (sub_nonneg.2 hpc)] at this
    have hq : |signed_distance L c0 c1 q| ≤ q - c := by
      rcases hc with rfl | rfl
      · have := (abs_signed_distance_le hL c c1 q).1
        rwa [abs_of_nonneg (sub_nonneg.2 hcq)] at this
      · have := (abs_signed_distance_le hL c0 c q).2
        rwa [abs_of_nonneg (sub_nonneg.2 hcq)] at this
    calc |signed_distance L c0 c1 q - signed_distance L c0 c1 p|
        ≤ |signed_distance L c0 c1 q| + |signed_distance L c0 c1 p| := abs_sub _ _
      _ ≤ (q - c) + (c - p) := add_le_add hq hp
      _ = q - p := by ring
  rcases le_or_lt p c0 with hpc0 | hpc0
  · rcases le_or_lt c0 q with hq0 | hq0
    · exact hcross c0 (Or.inl rfl) hpc0 hq0
    · -- both below the first interface
      exact abs_sub_le_of_same_sign (Or.inl
        ⟨signed_distance_nonneg_period hL hc0 h01 hc1 hp0 (by linarith) (Or.inl hpc0),
          signed_distance_nonneg_period hL hc0 h01 hc1 (by linarith) hqL (Or.inl hq0.le)⟩)
        hstep1 hstep2
  · rcases le_or_lt p c1 with hpc1 | hpc1
    · rcases le_or_lt c1 q with hq1 | hq1
      · exact hcross c1 (Or.inr rfl) hpc1 hq1
      · -- both between the interfaces
        exact abs_sub_le_of_same_sign (Or.inr
          ⟨signed_distance_nonpos hL (by linarith) hpc0.le hpc1,
            signed_distance_nonpos hL (by linarith) (by linarith) hq1.le⟩)
          hstep1 hstep2
    · -- both above the second interface
      exact abs_sub_le_of_same_sign (Or.inl
        ⟨signed_distance_nonneg_period hL hc0 h01 hc1 hp0 (by linarith) (Or.inr hpc1.le),
          signed_distance_nonneg_period hL hc0 h01 hc1 (by linarith) hqL
            (Or.inr (by linarith))⟩)
        hstep1 hstep2
/-- Two different interfaces inside one period are at different periodic distances from any
point, unless the distances are opposite. -/
theorem wrap_distance_ne [FloorRing α] {L c0 c1 : α} (hL : 0 < L) (hc0 : 0 ≤ c0)
    (hc0L : c0 < L) (hc1 : 0 ≤ c1) (hc1L : c1 < L) (hne : c0 ≠ c1) (p : α) :
    wrap_distance L (p - c0) ≠ wrap_distance L (p - c1) := by
  intro h
  rw [wrap_distance_eq_sub, wrap_distance_eq_sub] at h
  have e : c1 - c0
      = ((⌊(p - c0 + L / 2) / L⌋ - ⌊(p - c1 + L / 2) / L⌋ : ℤ) : α) * L := by
    push_cast
    linarith
  rcases lt_trichotomy (⌊(p - c0 + L / 2) / L⌋ - ⌊(p - c1 + L / 2) / L⌋) 0 with hk | hk | hk
  · have h' : ((⌊(p - c0 + L / 2) / L⌋ - ⌊(p - c1 + L / 2) / L⌋ : ℤ) : α) ≤ -1 := by
      have : ⌊(p - c0 + L / 2) / L⌋ - ⌊(p - c1 + L / 2) / L⌋ ≤ -1 := by omega
      exact_mod_cast this
    have := mul_le_mul_of_nonneg_right h' hL.le
    linarith
  · rw [hk, Int.cast_zero, zero_mul] at e
    exact hne (by linarith)
  · have h' : (1 : α) ≤ ((⌊(p - c0 + L / 2) / L⌋ - ⌊(p - c1 + L / 2) / L⌋ : ℤ) : α) := by
      have : 1 ≤ ⌊(p - c0 + L / 2) / L⌋ - ⌊(p - c1 + L / 2) / L⌋ := by omega
      exact_mod_cast this
    have := mul_le_mul_of_nonneg_right h' hL.le
    linarith

/-- Exchanging the two interfaces changes the sign of the signed distance. -/
theorem signed_distance_swap [FloorRing α] {L c0 c1 : α} (hL : 0 < L) (hc0 : 0 ≤ c0)
    (hc0L : c0 < L) (hc1 : 0 ≤ c1) (hc1L : c1 < L) (hne : c0 ≠ c1) (p : α) :
    signed_distance L c0 c1 p = -signed_distance L c1 c0 p := by
  have hd := wrap_distance_ne hL hc0 hc0L hc1 hc1L hne p
  unfold signed_distance
  simp only []
  by_cases h1 : |wrap_distance L (p - c0)| < |wrap_distance L (p - c1)|
  · rw [if_pos h1, if_neg (not_lt.2 h1.le)]
  · by_cases h2 : |wrap_distance L (p - c1)| < |wrap_distance L (p - c0)|
    · rw [if_neg h1, if_pos h2, neg_neg]
    · rw [if_neg h1, if_neg h2]
      have he : |wrap_distance L (p - c0)| = |wrap_distance L (p - c1)| :=
        le_antisymm (not_lt.1 h2) (not_lt.1 h1)
      rcases abs_eq_abs.1 he with e | e
      · exact absurd e hd
      · rw [e, neg_neg]

/-- The signed distance changes by at most the displacement inside one period, for two
different interfaces in either order. -/
theorem signed_distance_step [FloorRing α] {L c0 c1 p q : α} (hL : 0 < L) (hc0 : 0 ≤ c0)
    (hc0L : c0 < L) (hc1 : 0 ≤ c1) (hc1L : c1 < L) (hne : c0 ≠ c1) (hp0 : 0 ≤ p)
    (hpq : p ≤ q) (hqL : q ≤ L) :
    |signed_distance L c0 c1 q - signed_distance L c0 c1 p| ≤ q - p := by
  rcases lt_or_gt_of_ne hne with h | h
  · exact signed_distance_step_sorted hL hc0 h hc1L hp0 hpq hqL
  · rw [signed_distance_swap hL hc0 hc0L hc1 hc1L hne q,
      signed_distance_swap hL hc0 hc0L hc1 hc1L hne p, neg_sub_neg, abs_sub_comm]
    exact signed_distance_step_sorted hL hc1 h hc0L hp0 hpq hqL

/-- For an odd `erf`, the profile value is the midpoint plus half the contrast times `erf` of
the signed distance over the smoothing width. -/
theorem profile_value_eq_signed [FloorRing α] (erf : α → α) (hodd : ∀ x, erf (-x) = -erf x)
    (L c0 c1 p d_in d_out beta : α) :
    profile_value erf L c0 c1 p d_in d_out beta
      = ((d_out - d_in) * erf (signed_distance L c0 c1 p / beta) + (d_in + d_out)) / 2 := by
  unfold profile_value signed_distance
  simp only []
  split
  · rw [neg_div, hodd]
    ring
  · ring

/-- A Lipschitz constant is not negative. -/
theorem lipschitz_const_nonneg (erf : α → α) (lip : α)
    (hlip : ∀ x y, |erf x - erf y| ≤ lip * |x - y|) : 0 ≤ lip := by
  have h := hlip 1 0
  rw [sub_zero, abs_one, mul_one] at h
  exact (abs_nonneg _).trans h

theorem erf_model_lipschitz (x y : α) : |erf_model x - erf_model y| ≤ 1 * |x - y| := by
  unfold erf_model
  have hx : 0 < 1 + |x| := by positivity
  have hy : 0 < 1 + |y| := by positivity
  have e : x / (1 + |x|) - y / (1 + |y|)
      = (x * (1 + |y|) - y * (1 + |x|)) / ((1 + |x|) * (1 + |y|)) := by
    field_simp
    ring
  have hone : 1 ≤ (1 + |x|) * (1 + |y|) := by
    nlinarith [abs_nonneg x, abs_nonneg y, mul_nonneg (abs_nonneg x) (abs_nonneg y)]
  rw [e, abs_div, abs_of_pos (mul_pos hx hy), one_mul, div_le_iff₀ (mul_pos hx hy)]
  rcases le_total 0 x with h1 | h1 <;> rcases le_total 0 y with h2 | h2
  · rw [abs_of_nonneg h1, abs_of_nonneg h2] at hone ⊢
    have en : x * (1 + y) - y * (1 + x) = x - y := by ring
    rw [en]
    exact le_mul_of_one_le_right (abs_nonneg _) hone
  · rw [abs_of_nonneg h1, abs_of_nonpos h2]
    have hxy : 0 ≤ x * (-y) := mul_nonneg h1 (neg_nonneg.2 h2)
    rw [abs_of_nonneg (show 0 ≤ x * (1 + -y) - y * (1 + x) by nlinarith),
      abs_of_nonneg (show 0 ≤ x - y by linarith)]
    nlinarith [mul_nonneg (sq_nonneg x) (show 0 ≤ 1 - y by linarith),
      mul_nonneg (sq_nonneg y) (show 0 ≤ 1 + x by linarith)]
  · rw [abs_of_nonpos h1, abs_of_nonneg h2]
    have hxy : 0 ≤ (-x) * y := mul_nonneg (neg_nonneg.2 h1) h2
    rw [abs_of_nonpos (show x * (1 + y) - y * (1 + -x) ≤ 0 by nlinarith),
      abs_of_nonpos (show x - y ≤ 0 by linarith)]
    nlinarith [mul_nonneg (sq_nonneg x) (show 0 ≤ 1 + y by linarith),
      mul_nonneg (sq_nonneg y) (show 0 ≤ 1 - x by linarith)]
  · rw [abs_of_nonpos h1, abs_of_nonpos h2] at hone ⊢
    have en : x * (1 + -y) - y * (1 + -x) = x - y := by ring
    rw [en]
    exact le_mul_of_one_le_right (abs_nonneg _) hone
/-- C7 (amended). The profile is Lipschitz in the slice index. For every smoothing width
`beta > 0`, normal length `L > 0`, two different interfaces in `[0, 1)` (in either order),
every slice `k < N` (with `k + 1` taken periodically) and component `c`, and every odd `erf`
with Lipschitz constant `lip` (`2/√π` for the error function):
`|D[k, c] - D[k+1, c]| ≤ |diel_diff[c]| * (lip * L / (2 * beta)) / N`; so the step is at most
`|diel_diff[c]| / N` whenever `lip * L ≤ 2 * beta`. -/
theorem dielectric_profiles_step_bound [FloorRing α] (erf : α → α)
    (hodd : ∀ x, erf (-x) = -erf x) (lip : α) (hlip : ∀ x y, |erf x - erf y| ≤ lip * |x - y|)
    (cell : slabcc_cell_type α) (interfaces : rowvec2 α) (diel_in diel_out : rowvec3 α)
    (beta : α) (k : ℕ) (c : Fin 3) (hbeta : 0 < beta)
    (hL : 0 < cell.lengths cell.normal_direction)
    (hk : k < cell.grid cell.normal_direction)
    (hint : ∀ i, 0 ≤ interfaces i ∧ interfaces i < 1) (hne : interfaces 0 ≠ interfaces 1) :
    ∃ x y,
      mat_elem (dielectric_profiles erf cell interfaces diel_in diel_out beta) k c.val = some x ∧
      mat_elem (dielectric_profiles erf cell interfaces diel_in diel_out beta)
        ((k + 1) % cell.grid cell.normal_direction) c.val = some y ∧
      |x - y| ≤ |diel_out c - diel_in c|
          * (lip * cell.lengths cell.normal_direction / (2 * beta))
          / (cell.grid cell.normal_direction : α) ∧
      (lip * cell.lengths cell.normal_direction ≤ 2 * beta →
        |x - y| ≤ |diel_out c - diel_in c| / (cell.grid cell.normal_direction : α)) := by
  set L := cell.lengths cell.normal_direction with hLdef
  set N := cell.grid cell.normal_direction with hNdef
  have hk2 : (k + 1) % N < N := Nat.mod_lt _ (by omega)
  have hN : (0 : α) < (N : α) := by
    have : 0 < N := by omega
    exact_mod_cast this
  have hh : 0 < L / (N : α) := div_pos hL hN
  have hNh : (N : α) * (L / (N : α)) = L := by field_simp
  have hlip0 := lipschitz_const_nonneg erf lip hlip
  -- the Cartesian interfaces lie in one period and differ
  have hc0 : 0 ≤ interfaces 0 * L := mul_nonneg (hint 0).1 hL.le
  have hc0L : interfaces 0 * L < L := by nlinarith [(hint 0).2]
  have hc1 : 0 ≤ interfaces 1 * L := mul_nonneg (hint 1).1 hL.le
  have hc1L : interfaces 1 * L < L := by nlinarith [(hint 1).2]
  have hcne : interfaces 0 * L ≠ interfaces 1 * L := fun h =>
    hne (mul_right_cancel₀ (ne_of_gt hL) h)
  -- the slice after `k`, read periodically, has the signed distance of the point `(k+1) L/N`
  have hnext : signed_distance L (interfaces 0 * L) (interfaces 1 * L)
      ((((k + 1) % N : ℕ) : α) * (L / (N : α)))
      = signed_distance L (interfaces 0 * L) (interfaces 1 * L)
          (((k : α) + 1) * (L / (N : α))) := by
    rcases Nat.lt_or_ge (k + 1) N with h | h
    · rw [Nat.mod_eq_of_lt h]
      push_cast
      rfl
    · have e : k + 1 = N := by omega
      have e2 : ((k : α) + 1) = (N : α) := by exact_mod_cast e
      rw [e, Nat.mod_self, e2, hNh, Nat.cast_zero, zero_mul]
      have := signed_distance_period hL (interfaces 0 * L) (interfaces 1 * L) 0
      rw [zero_add] at this
      exact this.symm
  have hstep := signed_distance_step hL hc0 hc0L hc1 hc1L hcne
    (p := (k : α) * (L / (N : α))) (q := ((k : α) + 1) * (L / (N : α)))
    (mul_nonneg (Nat.cast_nonneg k) hh.le) (by nlinarith)
    (by
      have hkN : (k : α) + 1 ≤ (N : α) := by exact_mod_cast hk
      calc ((k : α) + 1) * (L / (N : α)) ≤ (N : α) * (L / (N : α)) :=
            mul_le_mul_of_nonneg_right hkN hh.le
        _ = L := hNh)
  have hq : ((k : α) + 1) * (L / (N : α)) - (k : α) * (L / (N : α)) = L / (N : α) := by ring
  rw [hq] at hstep
  have hbound : ∀ gp gq : α, |gq - gp| ≤ L / (N : α) →
      |((diel_out c - diel_in c) * erf (gp / beta) + (diel_in c + diel_out c)) / 2
        - ((diel_out c - diel_in c) * erf (gq / beta) + (diel_in c + diel_out c)) / 2|
        ≤ |diel_out c - diel_in c| * (lip * L / (2 * beta)) / (N : α) := by
    intro gp gq hg
    have e : ((diel_out c - diel_in c) * erf (gp / beta) + (diel_in c + diel_out c)) / 2
        - ((diel_out c - diel_in c) * erf (gq / beta) + (diel_in c + diel_out c)) / 2
        = (diel_out c - diel_in c) * ((erf (gp / beta) - erf (gq / beta)) / 2) := by ring
    have h1 : |erf (gp / beta) - erf (gq / beta)| ≤ lip * (L / (N : α) / beta) := by
      refine (hlip _ _).trans (mul_le_mul_of_nonneg_left ?_ hlip0)
      rw [← sub_div, abs_div, abs_of_pos hbeta, abs_sub_comm]
      exact div_le_div_of_nonneg_right hg hbeta.le
    have h2 : |(erf (gp / beta) - erf (gq / beta)) / 2| ≤ lip * L / (2 * beta) / (N : α) := by
      rw [abs_div, abs_two]
      have e2 : lip * L / (2 * beta) / (N : α) = lip * (L / (N : α) / beta) / 2 := by
        have hb := hbeta.ne'
        have hn := hN.ne'
        field_simp
        exact Or.inl (by ring)
      rw [e2]
      exact div_le_div_of_nonneg_right h1 (by norm_num)
    rw [e, abs_mul, mul_div_assoc]
    exact mul_le_mul_of_nonneg_left h2 (abs_nonneg _)
  have hmain := hbound _ _ hstep
  refine ⟨_, _, dielectric_profiles_elem erf cell interfaces diel_in diel_out beta k c hk,
    dielectric_profiles_elem erf cell interfaces diel_in diel_out beta _ c hk2, ?_, ?_⟩
  · rw [profile_value_eq_signed erf hodd, profile_value_eq_signed erf hodd, hnext]
    exact hmain
  · intro hsmall
    rw [profile_value_eq_signed erf hodd, profile_value_eq_signed erf hodd, hnext]
    refine hmain.trans (div_le_div_of_nonneg_right ?_ hN.le)
    have h1 : lip * L / (2 * beta) ≤ 1 := (div_le_one (by linarith)).2 hsmall
    calc |diel_out c - diel_in c| * (lip * L / (2 * beta))
        ≤ |diel_out c - diel_in c| * 1 := mul_le_mul_of_nonneg_left h1 (abs_nonneg _)
      _ = |diel_out c - diel_in c| := mul_one _
/-- C7 (amended), on the unit cell (`L = 1`, `N = 8`) with interfaces `(1/4, 3/4)`,
`diel_in = (1, 1, 1)`, `diel_out = (5, 5, 10)`, `beta = 1/2` and the stand-in `erf` of
Lipschitz constant `1`, at slice `k = 1`, component `z`: the hypotheses hold, `lip * L ≤
2 * beta`, and the step is at most `|diel_diff[z]| / N = 9/8`. -/
theorem dielectric_profiles_step_bound_witness :
    (∀ x : ℚ, erf_model (-x) = -erf_model x) ∧
    (∀ x y : ℚ, |erf_model x - erf_model y| ≤ 1 * |x - y|) ∧
    (0 : ℚ) < (unit_cell ℚ).lengths (unit_cell ℚ).normal_direction ∧
    1 < (unit_cell ℚ).grid (unit_cell ℚ).normal_direction ∧
    ∃ x y,
      mat_elem (dielectric_profiles erf_model (unit_cell ℚ) ![1 / 4, 3 / 4]
        ![1, 1, 1] ![5, 5, 10] (1 / 2)) 1 2 = some x ∧
      mat_elem (dielectric_profiles erf_model (unit_cell ℚ) ![1 / 4, 3 / 4]
        ![1, 1, 1] ![5, 5, 10] (1 / 2)) 2 2 = some y ∧
      |x - y| ≤ 9 / 8 :=
  ⟨erf_model_odd, erf_model_lipschitz, by norm_num [unit_cell], by norm_num [unit_cell],
    match dielectric_profiles_step_bound erf_model erf_model_odd 1 erf_model_lipschitz
      (unit_cell ℚ) ![1 / 4, 3 / 4] ![1, 1, 1] ![5, 5, 10] (1 / 2) 1 2 (by norm_num)
      (by norm_num [unit_cell]) (by norm_num [unit_cell])
      (by intro i; fin_cases i <;> norm_num) (by norm_num) with
    | ⟨x, y, hx, hy, _, hb⟩ =>
      ⟨x, y, hx, hy, (hb (by norm_num [unit_cell])).trans
        (by norm_num [unit_cell, abs_of_pos])⟩⟩

/-- The two interfaces have to differ: on the unit cell with both interfaces at `1/4`,
`diel_in = (1, 1, 1)`, `diel_out = (5, 5, 10)`, `beta = 1/2`, the `z` component is `52/7` at
slice `5` and `13/4` at slice `6` (the point opposite to the interface, where the periodic
distance jumps from `3/8` to `-1/2`), a step of `117/28`, more than `9/8`. -/
theorem dielectric_profiles_step_equal_interfaces :
    mat_elem (dielectric_profiles erf_model (unit_cell ℚ) ![1 / 4, 1 / 4]
      ![1, 1, 1] ![5, 5, 10] (1 / 2)) 5 2 = some (52 / 7) ∧
    mat_elem (dielectric_profiles erf_model (unit_cell ℚ) ![1 / 4, 1 / 4]
      ![1, 1, 1] ![5, 5, 10] (1 / 2)) 6 2 = some (13 / 4) ∧
    ¬ |(52 / 7 : ℚ) - 13 / 4| ≤ 9 / 8 := by
  refine ⟨?_, ?_, by norm_num [abs_of_pos]⟩
  · have h := dielectric_profiles_unit_elem ![1 / 4, 1 / 4] ![1, 1, 1] ![5, 5, 10] (1 / 2) 5 2
      (by norm_num)
    rw [profile_value_eq_of erf_model 1 _ _ _ _ _ _ (3 / 8) (3 / 8)
      (by rw [wrap_distance_mid (by norm_num) (by norm_num) (by norm_num)]; norm_num)
      (by rw [wrap_distance_mid (by norm_num) (by norm_num) (by norm_num)]; norm_num)] at h
    refine h.trans ?_
    norm_num [erf_model, abs_of_pos]
  · have h := dielectric_profiles_unit_elem ![1 / 4, 1 / 4] ![1, 1, 1] ![5, 5, 10] (1 / 2) 6 2
      (by norm_num)
    rw [profile_value_eq_of erf_model 1 _ _ _ _ _ _ (-(1 / 2)) (-(1 / 2))
      (by rw [wrap_distance_high (by norm_num) (by norm_num) (by norm_num)]; norm_num)
      (by rw [wrap_distance_high (by norm_num) (by norm_num) (by norm_num)]; norm_num)] at h
    refine h.trans ?_
    norm_num [erf_model, abs_of_pos]

/-- C7, as stated, fails on the unit cell (`N = 8`) with interfaces `(1/4, 3/4)`,
`diel_in = (1, 1, 1)`, `diel_out = (5, 5, 10)`, `beta = 1/100`: between the slices `k = 1`
(`D = 29/3`) and `k + 1 = 2` (`D = 11/2`, on the interface) the `z` component changes by
`25/6`, more than `max(diel_diff)/N = 9/8`. -/
theorem dielectric_profiles_step_bound_counterexample :
    ¬ (∀ (erf : ℚ → ℚ), (∀ x, erf (-x) = -erf x) → StrictMono erf → (∀ x, |erf x| ≤ 1) →
        ∀ (cell : slabcc_cell_type ℚ) (interfaces : rowvec2 ℚ) (diel_in diel_out : rowvec3 ℚ)
          (beta : ℚ) (k : ℕ) (c : Fin 3),
        0 < beta → 0 < cell.lengths cell.normal_direction →
        k < cell.grid cell.normal_direction →
        (∀ i, 0 ≤ interfaces i ∧ interfaces i < 1) →
        (∀ j, 0 ≤ diel_in j ∧ 0 ≤ diel_out j) →
        ∃ x y,
          mat_elem (dielectric_profiles erf cell interfaces diel_in diel_out beta) k c.val
            = some x ∧
          mat_elem (dielectric_profiles erf cell interfaces diel_in diel_out beta)
            ((k + 1) % cell.grid cell.normal_direction) c.val = some y ∧
          |x - y| ≤ max (max (diel_out 0 - diel_in 0) (diel_out 1 - diel_in 1))
              (diel_out 2 - diel_in 2) / (cell.grid cell.normal_direction : ℚ)) := by
  intro h
  have e1 : mat_elem (dielectric_profiles erf_model (unit_cell ℚ) ![1 / 4, 3 / 4]
      ![1, 1, 1] ![5, 5, 10] (1 / 100)) 1 (2 : Fin 3).val = some (29 / 3) := by
    have h := dielectric_profiles_unit_elem ![1 / 4, 3 / 4] ![1, 1, 1] ![5, 5, 10] (1 / 100) 1 2
      (by norm_num)
    rw [profile_value_eq_of erf_model 1 _ _ _ _ _ _ (-(1 / 8)) (3 / 8)
      (by rw [wrap_distance_mid (by norm_num) (by norm_num) (by norm_num)]; norm_num)
      (by rw [wrap_distance_low (by norm_num) (by norm_num) (by norm_num)]; norm_num)] at h
    refine h.trans ?_
    norm_num [erf_model, abs_of_pos]
  have e2 : mat_elem (dielectric_profiles erf_model (unit_cell ℚ) ![1 / 4, 3 / 4]
      ![1, 1, 1] ![5, 5, 10] (1 / 100)) 2 (2 : Fin 3).val = some (11 / 2) := by
    have h := dielectric_profiles_unit_elem ![1 / 4, 3 / 4] ![1, 1, 1] ![5, 5, 10] (1 / 100) 2 2
      (by norm_num)
    rw [profile_value_eq_of erf_model 1 _ _ _ _ _ _ 0 (-(1 / 2))
      (by rw [wrap_distance_mid (by norm_num) (by norm_num) (by norm_num)]; norm_num)
      (by rw [wrap_distance_mid (by norm_num) (by norm_num) (by norm_num)]; norm_num)] at h
    refine h.trans ?_
    norm_num [erf_model, abs_of_pos]
  obtain ⟨x, y, hx, hy, hxy⟩ := h erf_model erf_model_odd erf_model_strictMono
    erf_model_abs_le_one (unit_cell ℚ) ![1 / 4, 3 / 4] ![1, 1, 1] ![5, 5, 10] (1 / 100) 1 2
    (by norm_num) (by norm_num [unit_cell]) (by norm_num [unit_cell])
    (by intro i; fin_cases i <;> norm_num) (by intro j; fin_cases j <;> norm_num)
  have hN : (1 + 1) % (unit_cell ℚ).grid (unit_cell ℚ).normal_direction = 2 := by
    norm_num [unit_cell]
  rw [hN] at hy
  rw [e1] at hx
  rw [e2] at hy
  simp only [Option.some.injEq] at hx hy
  subst hx hy
  norm_num [unit_cell, abs_of_pos] at hxy

/-! ## Extrapolation (C8 - C10) -/

theorem extrapol_factor_pos {s : α} (hs : 0 < s) (n : ℕ) : 0 < extrapol_factor s n := by
  unfold extrapol_factor
  positivity

/-- The extrapolated interfaces keep their signed fractional separation. -/
theorem extrapolate_3D_interfaces_diff (interfaces : rowvec2 α) {f : α} (hf : 0 < f) :
    extrapolate_3D_interfaces interfaces f 1 - extrapolate_3D_interfaces interfaces f 0
      = interfaces 1 - interfaces 0 := by
  have hf0 : f ≠ 0 := ne_of_gt hf
  unfold extrapolate_3D_interfaces
  by_cases h : interfaces 1 < interfaces 0
  · have hs : sort_index interfaces 1 = 0 := by simp [sort_index, h]
    rw [hs, Function.update_noteq (by decide), Function.update_same,
      abs_of_pos (sub_pos.2 h)]
    field_simp
    ring
  · have hs : sort_index interfaces 1 = 1 := by simp [sort_index, h]
    rw [hs, Function.update_same, Function.update_noteq (by decide),
      abs_of_nonpos (sub_nonpos.2 (not_lt.1 h))]
    field_simp
    ring

/-- C8 (amended). `extrapolate_3D` keeps the fractional separation of the interfaces, so the
Cartesian thickness of the slab in the cell enlarged by `factor = 1 + step_size (n + 1)` is
`factor` times the original one:
`|interfaces_ext(1) - interfaces_ext(0)| * (L * factor) = factor * (|interfaces(1) -
interfaces(0)| * L)`. -/
theorem extrapolate_3D_thickness (interfaces : rowvec2 α) (extrapol_steps_size : α) (n : ℕ)
    (L_normal : α) (hs : 0 < extrapol_steps_size) :
    |extrapolate_3D_interfaces interfaces (extrapol_factor extrapol_steps_size n) 1
        - extrapolate_3D_interfaces interfaces (extrapol_factor extrapol_steps_size n) 0|
      = |interfaces 1 - interfaces 0| ∧
    |extrapolate_3D_interfaces interfaces (extrapol_factor extrapol_steps_size n) 1
        - extrapolate_3D_interfaces interfaces (extrapol_factor extrapol_steps_size n) 0|
        * (L_normal * extrapol_factor extrapol_steps_size n)
      = extrapol_factor extrapol_steps_size n * (|interfaces 1 - interfaces 0| * L_normal) := by
  rw [extrapolate_3D_interfaces_diff interfaces (extrapol_factor_pos hs n)]
  exact ⟨rfl, by ring⟩

/-- C8 (amended), at interfaces `(1/4, 3/4)`, step size `1/2`, step `0` (factor `3/2`), unit
length: the thickness goes from `1/2` to `3/4`. -/
theorem extrapolate_3D_thickness_witness :
    (0 : ℚ) < 1 / 2 ∧
    |extrapolate_3D_interfaces ![(1 / 4 : ℚ), 3 / 4] (extrapol_factor (1 / 2) 0) 1
        - extrapolate_3D_interfaces ![(1 / 4 : ℚ), 3 / 4] (extrapol_factor (1 / 2) 0) 0|
        * (1 * extrapol_factor (1 / 2) 0)
      = extrapol_factor (1 / 2) 0 * (|(![(1 / 4 : ℚ), 3 / 4] : rowvec2 ℚ) 1 - ![(1 / 4 : ℚ), 3 / 4] 0| * 1) :=
  ⟨by norm_num, (extrapolate_3D_thickness ![(1 / 4 : ℚ), 3 / 4] (1 / 2) 0 1 (by norm_num)).2⟩

/-- C8, as stated, fails at interfaces `(1/4, 3/4)`, step size `1/2`, step `n = 0`
(factor `3/2`), `L = 1`: the extrapolated interfaces are `(1/6, 2/3)`, so the thickness in the
enlarged cell is `1/2 * 3/2 = 3/4`, not the original `1/2`. -/
theorem extrapolate_3D_thickness_counterexample :
    ¬ (∀ (interfaces : rowvec2 ℚ) (extrapol_steps_size : ℚ) (n : ℕ) (L_normal : ℚ),
        0 < extrapol_steps_size →
        |extrapolate_3D_interfaces interfaces (extrapol_factor extrapol_steps_size n) 1
            - extrapolate_3D_interfaces interfaces (extrapol_factor extrapol_steps_size n) 0|
            * (L_normal * extrapol_factor extrapol_steps_size n)
          = |interfaces 1 - interfaces 0| * L_normal) := by
  intro h
  have h1 := h ![1 / 4, 3 / 4] (1 / 2) 0 1 (by norm_num)
  rw [extrapolate_3D_interfaces_diff _ (extrapol_factor_pos (by norm_num) 0)] at h1
  norm_num [extrapol_factor, abs_of_pos] at h1

theorem map_eq_map_range_getD {β γ : Type} (g : β → γ) (l : List β) (d : β) :
    l.map g = (List.range l.length).map (fun i => g (l.getD i d)) := by
  conv_lhs => rw [← map_range_getD l d]
  rw [List.map_map]
  rfl

theorem shape_row_length {β : Type} {M : mat β} {n c : ℕ} (hM : mat_shape M n c) {i : ℕ} (hi : i < n) :
    (M.getD i []).length = c :=
  hM.2 _ (getD_mem M i [] (by rw [hM.1]; exact hi))

theorem extrapolate_3D_charges_eq (nd : Fin 3) (interfaces ext : rowvec2 α) (f : α)
    (cp : mat α) {N : ℕ} (hM : mat_shape cp N 3) :
    extrapolate_3D_charges nd interfaces ext f cp
      = some (cp.map (extrapolate_3D_charge_row nd interfaces ext f)) := by
  have hlen : cp.length = N := hM.1
  have key : ∀ k, k ≤ N →
      (List.range k).foldlM
        (fun (shifted : mat α) (charge : ℕ) => do
          let z ← mat_elem cp charge nd.val
          let distance_to_interfaces : rowvec2 α := fun i => |z - interfaces i|
          let old ← mat_elem shifted charge nd.val
          if distance_to_interfaces 0 < distance_to_interfaces 1 then
            mat_set shifted charge nd.val (old + (ext 0 - interfaces 0 / f))
          else
            mat_set shifted charge nd.val (old + (ext 1 - interfaces 1 / f)))
        ((List.range N).map (fun i => (cp.getD i []).map (fun x => x / f)))
      = some ((List.range N).map (fun i =>
          if i < k then extrapolate_3D_charge_row nd interfaces ext f (cp.getD i [])
          else (cp.getD i []).map (fun x => x / f))) := by
    intro k
    induction k with
    | zero => intro _; simp
    | succ k ih =>
      intro hk
      have hkN : k < N := by omega
      have hr3 := shape_row_length hM hkN
      have hz := mat_elem_eq_some hM hkN nd.isLt
      have hold : mat_elem ((List.range N).map (fun i =>
          if i < k then extrapolate_3D_charge_row nd interfaces ext f (cp.getD i [])
          else (cp.getD i []).map (fun x => x / f))) k nd.val
          = some ((cp.getD k []).getD nd.val 0 / f) := by
        unfold mat_elem
        rw [List.getElem?_map, List.getElem?_range hkN]
        simp only [Option.map_some', Option.some_bind, lt_irrefl, if_false, List.getElem?_map]
        rw [getElem?_eq_some_getD _ _ 0 (by rw [hr3]; exact nd.isLt)]
        rfl
      have hcongr : ∀ v : α, v = (cp.getD k []).getD nd.val 0 / f +
            (if |(cp.getD k []).getD nd.val 0 - interfaces 0|
                < |(cp.getD k []).getD nd.val 0 - interfaces 1| then
              ext 0 - interfaces 0 / f else ext 1 - interfaces 1 / f) →
          mat_set ((List.range N).map (fun i =>
            if i < k then extrapolate_3D_charge_row nd interfaces ext f (cp.getD i [])
            else (cp.getD i []).map (fun x => x / f))) k nd.val v
          = some ((List.range N).map (fun i =>
            if i < k + 1 then extrapolate_3D_charge_row nd interfaces ext f (cp.getD i [])
            else (cp.getD i []).map (fun x => x / f))) := by
        intro v hv
        rw [mat_set_map_range _ N k nd.val hkN
          (by simp only [lt_irrefl, if_false, List.length_map, hr3]; exact nd.isLt)]
        congr 1
        apply List.map_congr_left
        intro i _
        by_cases hik : i = k
        · subst hik
          simp only [Function.update_same, lt_irrefl, if_false, Nat.lt_succ_self, if_true,
            extrapolate_3D_charge_row, hv]
        · have : (i < k + 1) = (i < k) := by apply propext; omega
          simp only [this, Function.update_noteq hik]
      rw [List.range_succ, List.foldlM_append, ih (by omega)]
      simp only [Option.bind_eq_bind, Option.some_bind, List.foldlM_cons, List.foldlM_nil, hz, hold]
      split
      · rename_i hlt
        rw [hcongr _ (by rw [if_pos hlt])]
        rfl
      · rename_i hlt
        rw [hcongr _ (by rw [if_neg hlt])]
        rfl
  unfold extrapolate_3D_charges
  simp only [mat_n_rows]
  rw [hlen, map_eq_map_range_getD _ cp [], hlen, key N le_rfl,
    map_eq_map_range_getD (extrapolate_3D_charge_row nd interfaces ext f) cp [], hlen]
  congr 1
  apply List.map_congr_left
  intro i hi
  rw [if_pos (List.mem_range.mp hi)]

theorem mat_elem_map {β : Type} (g : List β → List β) (M : mat β) {n c : ℕ}
    (hM : mat_shape M n c) {i : ℕ} (hi : i < n) (j : ℕ) :
    mat_elem (M.map g) i j = (g (M.getD i []))[j]? := by
  unfold mat_elem
  rw [List.getElem?_map, getElem?_eq_some_getD M i [] (by rw [hM.1]; exact hi)]
  rfl

/-- C9. `extrapolate_3D` keeps every charge at the same Cartesian offset from its original
nearest interface. For a charge `i` of an `N × 3` position matrix, step size `> 0` and step
`n`, with `factor = 1 + step_size (n + 1)` and `j` the interface with the smaller
`|charge_position(i, normal) - interfaces(j)|` (ties going to index `1`): the shifted normal
coordinate `z'` satisfies `(z' - interfaces_ext(j)) * L_normal * factor =
(z - interfaces(j)) * L_normal`, and each transverse coordinate is the original divided by
`factor`, so its Cartesian value `x' * (L * factor) = x * L` is unchanged. -/
theorem extrapolate_3D_charge_offsets (normal_direction : Fin 3) (interfaces : rowvec2 α)
    (extrapol_steps_size : α) (n : ℕ) (charge_position : mat α) (N i : ℕ) (L : rowvec3 α)
    (hs : 0 < extrapol_steps_size) (hM : mat_shape charge_position N 3) (hi : i < N) :
    ∃ shifted z z',
      extrapolate_3D_charges normal_direction interfaces
        (extrapolate_3D_interfaces interfaces (extrapol_factor extrapol_steps_size n))
        (extrapol_factor extrapol_steps_size n) charge_position = some shifted ∧
      mat_elem charge_position i normal_direction.val = some z ∧
      mat_elem shifted i normal_direction.val = some z' ∧
      (z' - extrapolate_3D_interfaces interfaces (extrapol_factor extrapol_steps_size n)
            (if |z - interfaces 0| < |z - interfaces 1| then 0 else 1))
          * L normal_direction * extrapol_factor extrapol_steps_size n
        = (z - interfaces (if |z - interfaces 0| < |z - interfaces 1| then 0 else 1))
          * L normal_direction ∧
      ∀ col : Fin 3, col ≠ normal_direction →
        ∃ x x', mat_elem charge_position i col.val = some x ∧
          mat_elem shifted i col.val = some x' ∧
          x' = x / extrapol_factor extrapol_steps_size n ∧
          x' * (L col * extrapol_factor extrapol_steps_size n) = x * L col := by
  have hf := extrapol_factor_pos hs n
  have hf0 : extrapol_factor extrapol_steps_size n ≠ 0 := ne_of_gt hf
  have hr3 := shape_row_length hM hi
  obtain ⟨z, hz⟩ : ∃ z, z = (charge_position.getD i []).getD normal_direction.val 0 := ⟨_, rfl⟩
  obtain ⟨f, hfe⟩ : ∃ f, f = extrapol_factor extrapol_steps_size n := ⟨_, rfl⟩
  rw [← hfe] at hf hf0 ⊢
  refine ⟨_, z, z / f + (if |z - interfaces 0| < |z - interfaces 1| then
      extrapolate_3D_interfaces interfaces f 0 - interfaces 0 / f
      else extrapolate_3D_interfaces interfaces f 1 - interfaces 1 / f),
    extrapolate_3D_charges_eq normal_direction interfaces _ _ charge_position hM,
    by rw [hz]; exact mat_elem_eq_some hM hi normal_direction.isLt, ?_, ?_, ?_⟩
  · rw [mat_elem_map _ _ hM hi, hz]
    unfold extrapolate_3D_charge_row
    exact List.getElem?_set_self (by rw [List.length_map, hr3]; exact normal_direction.isLt)
  · by_cases h : |z - interfaces 0| < |z - interfaces 1|
    · simp only [if_pos h]
      have e : (z / f + (extrapolate_3D_interfaces interfaces f 0 - interfaces 0 / f)
          - extrapolate_3D_interfaces interfaces f 0) * L normal_direction * f
          = (z - interfaces 0) * L normal_direction * (f / f) := by ring
      rw [e, div_self hf0, mul_one]
    · simp only [if_neg h]
      have e : (z / f + (extrapolate_3D_interfaces interfaces f 1 - interfaces 1 / f)
          - extrapolate_3D_interfaces interfaces f 1) * L normal_direction * f
          = (z - interfaces 1) * L normal_direction * (f / f) := by ring
      rw [e, div_self hf0, mul_one]
  · intro col hcol
    refine ⟨_, _, mat_elem_eq_some hM hi col.isLt, ?_, rfl, ?_⟩
    · rw [mat_elem_map _ _ hM hi]
      unfold extrapolate_3D_charge_row
      rw [List.getElem?_set_ne (fun h => hcol (Fin.ext h.symm)), List.getElem?_map,
        getElem?_eq_some_getD _ _ 0 (by rw [hr3]; exact col.isLt)]
      rfl
    · have e : (charge_position.getD i []).getD col.val 0 / f * (L col * f)
          = (charge_position.getD i []).getD col.val 0 * L col * (f / f) := by ring
      rw [e, div_self hf0, mul_one]

theorem centre_charge_shape : mat_shape centre_charge 1 3 := by
  refine ⟨rfl, ?_⟩
  intro r hr
  simp only [centre_charge, List.mem_singleton] at hr
  subst hr
  rfl

/-- C9, for one charge at the centre between the interfaces `(1/4, 3/4)`, step size `1/2`,
step `0`: the hypotheses hold and the shifted matrix exists with the offset to the nearest
interface (index `1`, by the tie) preserved. -/
theorem extrapolate_3D_charge_offsets_witness :
    (0 : ℚ) < 1 / 2 ∧ mat_shape centre_charge 1 3 ∧
    ∃ shifted z z',
      extrapolate_3D_charges 2 ![1 / 4, 3 / 4]
        (extrapolate_3D_interfaces ![1 / 4, 3 / 4] (extrapol_factor (1 / 2) 0))
        (extrapol_factor (1 / 2) 0) centre_charge = some shifted ∧
      mat_elem centre_charge 0 2 = some z ∧
      mat_elem shifted 0 2 = some z' :=
  ⟨by norm_num, centre_charge_shape,
    match extrapolate_3D_charge_offsets 2 ![1 / 4, 3 / 4] (1 / 2) 0 centre_charge 1 0
      (fun _ => 1) (by norm_num) centre_charge_shape (by norm_num) with
    | ⟨shifted, z, z', h1, h2, h3, _⟩ => ⟨shifted, z, z', h1, h2, h3⟩⟩

theorem UpdateCell_congr (c1 c2 : slabcc_cell_type α)
    (h : c1.normal_direction = c2.normal_direction) (lengths : rowvec3 α) (divi : urowvec3) :
    UpdateCell c1 lengths divi = UpdateCell c2 lengths divi := by
  unfold UpdateCell
  rw [h]

theorem extrapolate_3D_fold [FloorRing α] (energy : slabcc_cell_type α → rowvec2 α → mat α → α)
    (cell : slabcc_cell_type α) (s : α) (interfaces : rowvec2 α) (cp : mat α) (gm : α) {N : ℕ}
    (hM : mat_shape cp N 3) (m : ℕ) :
    ∃ st : slabcc_cell_type α × rowvec α × rowvec α,
      (List.range m).foldlM
        (fun (st : slabcc_cell_type α × rowvec α × rowvec α) (n : ℕ) => do
          let factor := extrapol_factor s n
          let cell' := UpdateCell st.1 (fun i => cell.lengths i * factor)
            (fun i => ⌊gm * (cell.grid i : α)⌋₊)
          let interfaces_ext := extrapolate_3D_interfaces interfaces factor
          let charge_position_shifted ←
            extrapolate_3D_charges cell.normal_direction interfaces interfaces_ext factor cp
          let EperModel := energy cell' interfaces_ext charge_position_shifted
          pure (cell', st.2.1 ++ [EperModel], st.2.2 ++ [1 / factor]))
        (cell, [], []) = some st ∧
      st.1.normal_direction = cell.normal_direction ∧
      (0 < m → st.1 = extrapolated_cell cell s gm (m - 1)) := by
  induction m with
  | zero => exact ⟨(cell, [], []), rfl, rfl, fun h => absurd h (lt_irrefl 0)⟩
  | succ m ih =>
    obtain ⟨st, hst, hnd, _⟩ := ih
    rw [List.range_succ, List.foldlM_append, hst]
    simp only [Option.bind_eq_bind, Option.some_bind, List.foldlM_cons, List.foldlM_nil,
      extrapolate_3D_charges_eq _ _ _ _ _ hM, Option.pure_def]
    refine ⟨_, rfl, hnd, fun _ => ?_⟩
    exact UpdateCell_congr _ _ hnd _ _

theorem extrapolate_3D_cell [FloorRing α] (energy : slabcc_cell_type α → rowvec2 α → mat α → α)
    (cell : slabcc_cell_type α) (steps_num : ℤ) (s : α) (interfaces : rowvec2 α) (cp : mat α)
    (gm : α) {N : ℕ} (hsteps : 2 ≤ steps_num) (hM : mat_shape cp N 3) :
    ∃ Es sizes, extrapolate_3D energy cell steps_num s interfaces cp gm
      = some (extrapolated_cell cell s gm (steps_num - 2).toNat, Es, sizes) := by
  obtain ⟨st, hst, _, hcell⟩ :=
    extrapolate_3D_fold energy cell s interfaces cp gm hM (steps_num - 1).toNat
  have hpos : 0 < (steps_num - 1).toNat := by omega
  have hidx : (steps_num - 1).toNat - 1 = (steps_num - 2).toNat := by omega
  refine ⟨st.2.1, st.2.2, ?_⟩
  unfold extrapolate_3D
  rw [← hidx, ← hcell hpos]
  exact hst

theorem extrapolate_2D_fold [FloorRing α] (energy : slabcc_cell_type α → rowvec2 α → mat α → α)
    (cell : slabcc_cell_type α) (s : α) (interfaces : rowvec2 α) (cp : mat α) (gm : α)
    (start : slabcc_cell_type α × rowvec α × rowvec α)
    (hstart : start.1.normal_direction = cell.normal_direction) (m : ℕ) :
    ((List.range m).foldl
        (fun (st : slabcc_cell_type α × rowvec α × rowvec α) (n : ℕ) =>
          let factor := extrapol_factor s n
          let cell' := UpdateCell st.1 (fun i => cell.lengths i * factor)
            (fun i => ⌊gm * (cell.grid i : α)⌋₊)
          let interfaces_ext : rowvec2 α := fun i => interfaces i / factor
          let charge_position_ext : mat α := cp.map (fun r => r.map (fun x => x / factor))
          let EperModel := energy cell' interfaces_ext charge_position_ext
          (cell', st.2.1 ++ [EperModel], st.2.2 ++ [1 / factor]))
        start).1.normal_direction = cell.normal_direction ∧
    (0 < m → ((List.range m).foldl
        (fun (st : slabcc_cell_type α × rowvec α × rowvec α) (n : ℕ) =>
          let factor := extrapol_factor s n
          let cell' := UpdateCell st.1 (fun i => cell.lengths i * factor)
            (fun i => ⌊gm * (cell.grid i : α)⌋₊)
          let interfaces_ext : rowvec2 α := fun i => interfaces i / factor
          let charge_position_ext : mat α := cp.map (fun r => r.map (fun x => x / factor))
          let EperModel := energy cell' interfaces_ext charge_position_ext
          (cell', st.2.1 ++ [EperModel], st.2.2 ++ [1 / factor]))
        start).1 = extrapolated_cell cell s gm (m - 1)) := by
  induction m with
  | zero => exact ⟨hstart, fun h => absurd h (lt_irrefl 0)⟩
  | succ m ih =>
    rw [List.range_succ, List.foldl_append]
    simp only [List.foldl_cons, List.foldl_nil]
    refine ⟨ih.1, fun _ => ?_⟩
    exact UpdateCell_congr _ _ ih.1 _ _

theorem extrapolate_2D_cell [FloorRing α] (energy : slabcc_cell_type α → rowvec2 α → mat α → α)
    (cell : slabcc_cell_type α) (steps_num : ℤ) (s : α) (interfaces : rowvec2 α) (cp : mat α)
    (gm : α) (hsteps : 2 ≤ steps_num) :
    (extrapolate_2D energy cell steps_num s interfaces cp gm).1
      = extrapolated_cell cell s gm (steps_num - 2).toNat := by
  have hpos : 0 < (steps_num - 1).toNat := by omega
  have hidx : (steps_num - 1).toNat - 1 = (steps_num - 2).toNat := by omega
  unfold extrapolate_2D
  rw [← hidx]
  exact (extrapolate_2D_fold energy cell s interfaces cp gm _ rfl (steps_num - 1).toNat).2 hpos

theorem extrapol_factor_last (s : α) (steps_num : ℤ) (hsteps : 2 ≤ steps_num) :
    extrapol_factor s (steps_num - 2).toNat = 1 + s * ((steps_num : α) - 1) := by
  have h : (((steps_num - 2).toNat : ℤ) : α) = ((steps_num - 2 : ℤ) : α) := by
    rw [Int.toNat_of_nonneg (by omega)]
  rw [Int.cast_natCast] at h
  unfold extrapol_factor
  rw [h]
  push_cast
  ring

/-- C10 (amended). Neither `extrapolate_3D` nor `extrapolate_2D` restores the cell: with
`extrapol_steps_num ≥ 2` (and, for `extrapolate_3D`, an `N × 3` position matrix, so that it
returns) the process-wide cell is left as the last step set it: `lengths = lengths0 * factor`
with `factor = 1 + step_size * (extrapol_steps_num - 1)`, `grid = (uword)(grid_multiplier *
grid0)`, `voxel_vol` the product of `lengths / grid` of that cell; only `normal_direction` is
unchanged. -/
theorem extrapolate_leaves_enlarged_cell [FloorRing α]
    (energy : slabcc_cell_type α → rowvec2 α → mat α → α) (cell : slabcc_cell_type α)
    (extrapol_steps_num : ℤ) (extrapol_steps_size : α) (interfaces : rowvec2 α)
    (charge_position : mat α) (grid_multiplier : α) (N : ℕ)
    (hsteps : 2 ≤ extrapol_steps_num) (hM : mat_shape charge_position N 3) :
    (∃ c Es sizes,
      extrapolate_3D energy cell extrapol_steps_num extrapol_steps_size interfaces
        charge_position grid_multiplier = some (c, Es, sizes) ∧
      c.lengths = (fun i => cell.lengths i *
        (1 + extrapol_steps_size * ((extrapol_steps_num : α) - 1))) ∧
      c.grid = (fun i => ⌊grid_multiplier * (cell.grid i : α)⌋₊) ∧
      c.voxel_vol = c.lengths 0 / (c.grid 0 : α) * (c.lengths 1 / (c.grid 1 : α))
        * (c.lengths 2 / (c.grid 2 : α)) ∧
      c.normal_direction = cell.normal_direction) ∧
    (∃ c, (extrapolate_2D energy cell extrapol_steps_num extrapol_steps_size interfaces
        charge_position grid_multiplier).1 = c ∧
      c.lengths = (fun i => cell.lengths i *
        (1 + extrapol_steps_size * ((extrapol_steps_num : α) - 1))) ∧
      c.grid = (fun i => ⌊grid_multiplier * (cell.grid i : α)⌋₊) ∧
      c.voxel_vol = c.lengths 0 / (c.grid 0 : α) * (c.lengths 1 / (c.grid 1 : α))
        * (c.lengths 2 / (c.grid 2 : α)) ∧
      c.normal_direction = cell.normal_direction) := by
  have hfac := extrapol_factor_last extrapol_steps_size extrapol_steps_num hsteps
  have hcell : ∀ c, c = extrapolated_cell cell extrapol_steps_size grid_multiplier
        (extrapol_steps_num - 2).toNat →
      c.lengths = (fun i => cell.lengths i *
        (1 + extrapol_steps_size * ((extrapol_steps_num : α) - 1))) ∧
      c.grid = (fun i => ⌊grid_multiplier * (cell.grid i : α)⌋₊) ∧
      c.voxel_vol = c.lengths 0 / (c.grid 0 : α) * (c.lengths 1 / (c.grid 1 : α))
        * (c.lengths 2 / (c.grid 2 : α)) ∧
      c.normal_direction = cell.normal_direction := by
    intro c hc
    subst hc
    refine ⟨?_, rfl, rfl, rfl⟩
    funext i
    simp only [extrapolated_cell, UpdateCell, hfac]
  constructor
  · obtain ⟨Es, sizes, h⟩ := extrapolate_3D_cell energy cell extrapol_steps_num
      extrapol_steps_size interfaces charge_position grid_multiplier hsteps hM
    exact ⟨_, Es, sizes, h, hcell _ rfl⟩
  · exact ⟨_, rfl, hcell _ (extrapolate_2D_cell energy cell extrapol_steps_num
      extrapol_steps_size interfaces charge_position grid_multiplier hsteps)⟩

/-- C10 (amended), on the unit cell with two steps of size `1/2` and one central charge: the
hypotheses hold and `extrapolate_3D` returns with the cell lengths multiplied by `3/2`. -/
theorem extrapolate_leaves_enlarged_cell_witness :
    (2 : ℤ) ≤ 2 ∧ mat_shape centre_charge 1 3 ∧
    ∃ c Es sizes,
      extrapolate_3D (fun _ _ _ => 0) (unit_cell ℚ) 2 (1 / 2) ![1 / 4, 3 / 4] centre_charge 1
        = some (c, Es, sizes) ∧
      c.lengths = (fun i => (unit_cell ℚ).lengths i * (1 + 1 / 2 * (((2 : ℤ) : ℚ) - 1))) :=
  ⟨le_refl 2, centre_charge_shape,
    match (extrapolate_leaves_enlarged_cell (fun _ _ _ => 0) (unit_cell ℚ) 2 (1 / 2)
      ![1 / 4, 3 / 4] centre_charge 1 1 (le_refl 2) centre_charge_shape).1 with
    | ⟨c, Es, sizes, h1, h2, _⟩ => ⟨c, Es, sizes, h1, h2⟩⟩

/-- C10, as stated, fails on the unit cell (`lengths0 = (1, 1, 1)`) with
`extrapol_steps_num = 2`, step size `1/2`, grid multiplier `1` and one central charge:
`extrapolate_3D` returns with `lengths = (3/2, 3/2, 3/2)`, not `lengths0`. -/
theorem extrapolate_restores_cell_counterexample :
    ¬ (∀ (energy : slabcc_cell_type ℚ → rowvec2 ℚ → mat ℚ → ℚ) (cell : slabcc_cell_type ℚ)
        (extrapol_steps_num : ℤ) (extrapol_steps_size : ℚ) (interfaces : rowvec2 ℚ)
        (charge_position : mat ℚ) (grid_multiplier : ℚ) (N : ℕ),
        2 ≤ extrapol_steps_num → mat_shape charge_position N 3 →
        (∃ c Es sizes,
          extrapolate_3D energy cell extrapol_steps_num extrapol_steps_size interfaces
            charge_position grid_multiplier = some (c, Es, sizes) ∧
          c.lengths = cell.lengths ∧ c.grid = cell.grid ∧ c.voxel_vol = cell.voxel_vol ∧
          c.normal_direction = cell.normal_direction) ∧
        (extrapolate_2D energy cell extrapol_steps_num extrapol_steps_size interfaces
            charge_position grid_multiplier).1 = cell) := by
  intro h
  obtain ⟨⟨c, Es, sizes, hc, hlen, _⟩, _⟩ :=
    h (fun _ _ _ => 0) (unit_cell ℚ) 2 (1 / 2) ![1 / 4, 3 / 4] centre_charge 1 1 (le_refl 2)
      centre_charge_shape
  obtain ⟨Es', sizes', hc'⟩ := extrapolate_3D_cell (fun _ _ _ => 0) (unit_cell ℚ) 2 (1 / 2)
    ![1 / 4, 3 / 4] centre_charge 1 (le_refl 2) centre_charge_shape
  rw [hc'] at hc
  simp only [Option.some.injEq, Prod.mk.injEq] at hc
  obtain ⟨rfl, _, _⟩ := hc
  have h0 := congrFun hlen 0
  norm_num [extrapolated_cell, UpdateCell, unit_cell, extrapol_factor] at h0

/-! ## Input validation (C11, C12) -/

theorem expand_diel_eq (d : rowvec α) :
    (if d.length = 1 then (d[0]?).bind (fun x => some [x, x, x]) else some d)
      = some (expand_diel d) := by
  unfold expand_diel
  split
  · rename_i h
    rw [getElem?_eq_some_getD d 0 0 (by omega)]
    rfl
  · rfl

theorem expand_diel_mem (d : rowvec α) (x : α) (hx : x ∈ expand_diel d) : x ∈ d := by
  unfold expand_diel at hx
  split at hx
  · rename_i h
    have hm := getD_mem d 0 0 (by omega)
    simp only [List.mem_cons, List.mem_singleton, List.not_mem_nil, or_false, or_self] at hx
    rw [hx]
    exact hm
  · exact hx

theorem expand_diel_ne_nil (d : rowvec α) (h : d ≠ []) : expand_diel d ≠ [] := by
  unfold expand_diel
  split
  · exact List.cons_ne_nil _ _
  · exact h

theorem max_lt_zero_nonneg (d : rowvec α) (h : d ≠ []) (hn : ∀ x ∈ d, 0 ≤ x) :
    max_lt_zero d = some false := by
  unfold max_lt_zero
  have he : d.isEmpty = false := by
    cases d with
    | nil => exact absurd rfl h
    | cons a t => rfl
  rw [he]
  simp only [Bool.false_eq_true, if_false, Option.some.injEq, List.any_eq_false,
    decide_eq_true_eq, not_lt]
  exact hn

theorem check_inputs_eq_some [FloorRing α] (file_exists : String → Bool) (inp : input_data α)
    (h : passes_fatal_checks file_exists inp) :
    ∃ out, check_inputs file_exists inp = some out ∧
      out.sigma = (if inp.sigma.length ≠ mat_n_rows inp.charge_position then
          List.replicate (mat_n_rows inp.charge_position) 1
        else inp.sigma.map (fun x => |x|)) ∧
      out.Qd = (if inp.Qd.length ≠ mat_n_rows inp.charge_position then
          List.replicate (mat_n_rows inp.charge_position) 1
        else inp.Qd) ∧
      out.charge_position = inp.charge_position ∧
      out.diel_in = expand_diel inp.diel_in ∧
      out.diel_out = expand_diel inp.diel_out ∧
      out.interfaces = (fun i => fmod_p (inp.interfaces i) 1) ∧
      out.opt_tol = (if 1 < |inp.opt_tol| then 1 / 1000 else |inp.opt_tol|) ∧
      out.opt_algo = (if inp.opt_algo = "COBYLA" ∨ inp.opt_algo = "BOBYQA" then inp.opt_algo
        else "COBYLA") ∧
      out.extrapol_steps_num = max inp.extrapol_steps_num 3 := by
  obtain ⟨hc, ⟨hi1, hi2⟩, ⟨ho1, ho2⟩, f1, f2, f3, f4⟩ := h
  have mi := max_lt_zero_nonneg (expand_diel inp.diel_in) (expand_diel_ne_nil _ hi1)
    (fun x hx => hi2 x (expand_diel_mem _ x hx))
  have mo := max_lt_zero_nonneg (expand_diel inp.diel_out) (expand_diel_ne_nil _ ho1)
    (fun x hx => ho2 x (expand_diel_mem _ x hx))
  have hlen : (if (List.map (fun x => |x|) inp.sigma).length ≠ mat_n_rows inp.charge_position
      then List.replicate (mat_n_rows inp.charge_position) (1 : α)
      else List.map (fun x => |x|) inp.sigma).length = mat_n_rows inp.charge_position := by
    split
    · exact List.length_replicate _ _
    · rename_i hh
      exact not_not.mp hh
  have halgo : (if inp.opt_algo ≠ "BOBYQA" ∧ inp.opt_algo ≠ "COBYLA" then "COBYLA"
      else inp.opt_algo)
      = (if inp.opt_algo = "COBYLA" ∨ inp.opt_algo = "BOBYQA" then inp.opt_algo
        else "COBYLA") := by
    by_cases hb : inp.opt_algo = "BOBYQA"
    · simp [hb]
    · by_cases hcb : inp.opt_algo = "COBYLA"
      · simp [hcb]
      · simp [hb, hcb]
  have hsteps : (if inp.extrapol_steps_num < 3 then 3 else inp.extrapol_steps_num)
      = max inp.extrapol_steps_num 3 := by
    rw [max_def]
    split <;> split <;> omega
  have hfe : (!file_exists inp.CHGCAR_NEU || !file_exists inp.CHGCAR_CHG ||
      !file_exists inp.LOCPOT_NEU || !file_exists inp.LOCPOT_CHG) = false := by
    simp [f1, f2, f3, f4]
  unfold check_inputs
  simp only [Option.bind_eq_bind, Option.pure_def]
  by_cases h1 : inp.diel_in.length = 1 <;> by_cases h2 : inp.diel_out.length = 1
  all_goals
    simp only [expand_diel, h1, h2, if_true, if_false] at mi mo ⊢
    try rw [getElem?_eq_some_getD inp.diel_in 0 0 (by omega)]
    try rw [getElem?_eq_some_getD inp.diel_out 0 0 (by omega)]
    simp only [Option.some_bind, mi, mo, hc, ne_eq, not_true_eq_false, if_false, Bool.or_self,
      Bool.false_eq_true, hfe]
    refine ⟨_, rfl, ?_, ?_, rfl, rfl, rfl, rfl, rfl, halgo, hsteps⟩
    · simp only [List.length_map, ne_eq]
    · simp only [hlen, ne_eq]

theorem max_lt_zero_eq_false (d : rowvec α) (h : max_lt_zero d = some false) :
    d ≠ [] ∧ ∀ x ∈ d, 0 ≤ x := by
  unfold max_lt_zero at h
  cases d with
  | nil => simp at h
  | cons a t =>
    refine ⟨List.cons_ne_nil _ _, ?_⟩
    simp only [List.isEmpty_cons, Bool.false_eq_true, if_false, Option.some.injEq,
      List.any_eq_false, decide_eq_true_eq, not_lt] at h
    exact h

theorem expand_diel_conditions (d : rowvec α)
    (h : expand_diel d ≠ [] ∧ ∀ x ∈ expand_diel d, 0 ≤ x) : d ≠ [] ∧ ∀ x ∈ d, 0 ≤ x := by
  unfold expand_diel at h
  split at h
  · rename_i h1
    match d, h1 with
    | [a], _ =>
      refine ⟨List.cons_ne_nil _ _, ?_⟩
      intro x hx
      simp only [List.mem_singleton] at hx
      subst hx
      exact h.2 _ (List.mem_cons_self _ _)
  · exact h

/-- The function `check_inputs` returns exactly on the bundles that pass the fatal checks. -/
theorem check_inputs_isSome_iff [FloorRing α] (file_exists : String → Bool)
    (inp : input_data α) :
    (check_inputs file_exists inp).isSome = true ↔ passes_fatal_checks file_exists inp := by
  constructor
  · intro h
    have hfact : check_inputs file_exists inp =
        (if mat_n_cols inp.charge_position ≠ 3 then none
         else (max_lt_zero (expand_diel inp.diel_in)).bind fun neg_in =>
           (max_lt_zero (expand_diel inp.diel_out)).bind fun neg_out =>
             if (neg_in || neg_out) = true then none
             else if (!file_exists inp.CHGCAR_NEU || !file_exists inp.CHGCAR_CHG ||
                 !file_exists inp.LOCPOT_NEU || !file_exists inp.LOCPOT_CHG) = true then none
             else (check_inputs file_exists inp)) := by
      by_cases hc : mat_n_cols inp.charge_position = 3
      · rw [if_neg (not_not.mpr hc)]
        cases hmi : max_lt_zero (expand_diel inp.diel_in) with
        | none =>
          unfold check_inputs
          simp only [Option.bind_eq_bind, Option.pure_def]
          by_cases h1 : inp.diel_in.length = 1 <;> by_cases h2 : inp.diel_out.length = 1
          all_goals
            simp only [expand_diel, h1, h2, if_true, if_false] at hmi ⊢
            try rw [getElem?_eq_some_getD inp.diel_in 0 0 (by omega)]
            try rw [getElem?_eq_some_getD inp.diel_out 0 0 (by omega)]
            simp only [Option.some_bind, Option.none_bind, hmi, hc, ne_eq, not_true_eq_false,
              if_false]
        | some bi =>
          cases hmo : max_lt_zero (expand_diel inp.diel_out) with
          | none =>
            unfold check_inputs
            simp only [Option.bind_eq_bind, Option.pure_def]
            by_cases h1 : inp.diel_in.length = 1 <;> by_cases h2 : inp.diel_out.length = 1
            all_goals
              simp only [expand_diel, h1, h2, if_true, if_false] at hmi hmo ⊢
              try rw [getElem?_eq_some_getD inp.diel_in 0 0 (by omega)]
              try rw [getElem?_eq_some_getD inp.diel_out 0 0 (by omega)]
              simp only [Option.some_bind, Option.none_bind, hmi, hmo, hc, ne_eq,
                not_true_eq_false, if_false]
          | some bo =>
            simp only [Option.some_bind]
            by_cases hb : (bi || bo) = true
            · rw [if_pos hb]
              unfold check_inputs
              simp only [Option.bind_eq_bind, Option.pure_def]
              by_cases h1 : inp.diel_in.length = 1 <;> by_cases h2 : inp.diel_out.length = 1
              all_goals
                simp only [expand_diel, h1, h2, if_true, if_false] at hmi hmo ⊢
                try rw [getElem?_eq_some_getD inp.diel_in 0 0 (by omega)]
                try rw [getElem?_eq_some_getD inp.diel_out 0 0 (by omega)]
                simp only [Option.some_bind, hmi, hmo, hc, ne_eq, not_true_eq_false, if_false,
                  hb, if_true]
            · rw [if_neg hb]
              by_cases hf : (!file_exists inp.CHGCAR_NEU || !file_exists inp.CHGCAR_CHG ||
                  !file_exists inp.LOCPOT_NEU || !file_exists inp.LOCPOT_CHG) = true
              · rw [if_pos hf]
                unfold check_inputs
                simp only [Option.bind_eq_bind, Option.pure_def]
                by_cases h1 : inp.diel_in.length = 1 <;> by_cases h2 : inp.diel_out.length = 1
                all_goals
                  simp only [expand_diel, h1, h2, if_true, if_false] at hmi hmo ⊢
                  try rw [getElem?_eq_some_getD inp.diel_in 0 0 (by omega)]
                  try rw [getElem?_eq_some_getD inp.diel_out 0 0 (by omega)]
                  simp only [Option.some_bind, hmi, hmo, hc, ne_eq, not_true_eq_false, if_false,
                    hb, hf, if_true, ite_self]
              · rw [if_neg hf]
      · rw [if_pos hc]
        unfold check_inputs
        simp only [Option.bind_eq_bind, Option.pure_def]
        by_cases h1 : inp.diel_in.length = 1 <;> by_cases h2 : inp.diel_out.length = 1
        all_goals
          simp only [h1, h2, if_true, if_false]
          try rw [getElem?_eq_some_getD inp.diel_in 0 0 (by omega)]
          try rw [getElem?_eq_some_getD inp.diel_out 0 0 (by omega)]
          simp only [Option.some_bind, hc, ne_eq, not_false_eq_true, if_true]
    rw [hfact] at h
    by_cases hc : mat_n_cols inp.charge_position = 3
    · rw [if_neg (not_not.mpr hc)] at h
      cases hmi : max_lt_zero (expand_diel inp.diel_in) with
      | none => rw [hmi] at h; simp at h
      | some bi =>
        cases hmo : max_lt_zero (expand_diel inp.diel_out) with
        | none => rw [hmi, hmo] at h; simp at h
        | some bo =>
          rw [hmi, hmo] at h
          simp only [Option.some_bind] at h
          by_cases hb : (bi || bo) = true
          · rw [if_pos hb] at h; simp at h
          · rw [if_neg hb] at h
            by_cases hf : (!file_exists inp.CHGCAR_NEU || !file_exists inp.CHGCAR_CHG ||
                !file_exists inp.LOCPOT_NEU || !file_exists inp.LOCPOT_CHG) = true
            · rw [if_pos hf] at h; simp at h
            · have hbb : bi = false ∧ bo = false := by
                cases bi <;> cases bo <;> first | exact ⟨rfl, rfl⟩ | exact absurd rfl hb
              obtain ⟨hbi, hbo⟩ := hbb
              subst hbi hbo
              refine ⟨hc, expand_diel_conditions _ (max_lt_zero_eq_false _ hmi),
                expand_diel_conditions _ (max_lt_zero_eq_false _ hmo), ?_⟩
              simp only [Bool.or_eq_true, Bool.not_eq_true', not_or, Bool.not_eq_false] at hf
              exact ⟨hf.1.1.1, hf.1.1.2, hf.1.2, hf.2⟩
    · rw [if_pos hc] at h; simp at h
  · intro h
    obtain ⟨out, ho, _⟩ := check_inputs_eq_some file_exists inp h
    rw [ho]
    rfl

/-- C11. `check_inputs` normalises the bundle as in Scenario 6. For every bundle that passes
the fatal checks and whose `sigma` has as many entries as `charge_position` has rows,
`check_inputs` returns and: each `sigma` entry is the absolute value of the input entry,
`opt_tol` is `0.001` if `|opt_tol| > 1` and `|opt_tol|` otherwise, `opt_algo` is the input name
if it is `COBYLA` or `BOBYQA` and `COBYLA` otherwise, `extrapol_steps_num` is `max(input, 3)`. -/
theorem check_inputs_normalizes [FloorRing α] (file_exists : String → Bool)
    (input_set : input_data α) (hpass : passes_fatal_checks file_exists input_set)
    (hsigma : input_set.sigma.length = mat_n_rows input_set.charge_position) :
    ∃ out, check_inputs file_exists input_set = some out ∧
      out.sigma = input_set.sigma.map (fun x => |x|) ∧
      out.opt_tol = (if 1 < |input_set.opt_tol| then 1 / 1000 else |input_set.opt_tol|) ∧
      out.opt_algo = (if input_set.opt_algo = "COBYLA" ∨ input_set.opt_algo = "BOBYQA" then
          input_set.opt_algo else "COBYLA") ∧
      out.extrapol_steps_num = max input_set.extrapol_steps_num 3 := by
  obtain ⟨out, h, hs, _, _, _, _, _, ht, ha, he⟩ :=
    check_inputs_eq_some file_exists input_set hpass
  refine ⟨out, h, ?_, ht, ha, he⟩
  rw [hs, if_neg (not_not.mpr hsigma)]

theorem scenario6_passes : passes_fatal_checks (fun _ => true) scenario6 := by
  refine ⟨rfl, ⟨by simp [scenario6], ?_⟩, ⟨by simp [scenario6], ?_⟩, rfl, rfl, rfl, rfl⟩
  · intro x hx
    simp only [scenario6, List.mem_singleton] at hx
    subst hx
    norm_num
  · intro x hx
    simp only [scenario6, List.mem_singleton] at hx
    subst hx
    norm_num

/-- C11, at the bundle of Scenario 6 (`sigma = [-2]`, `opt_tol = 5`, `opt_algo = FOO`): the
hypotheses hold and validation gives `sigma = [2]`, `opt_tol = 0.001`, `opt_algo = COBYLA`. -/
theorem check_inputs_normalizes_witness :
    passes_fatal_checks (fun _ => true) scenario6 ∧
    scenario6.sigma.length = mat_n_rows scenario6.charge_position ∧
    ∃ out, check_inputs (fun _ => true) scenario6 = some out ∧
      out.sigma = [2] ∧ out.opt_tol = 1 / 1000 ∧ out.opt_algo = "COBYLA" :=
  ⟨scenario6_passes, rfl,
    match check_inputs_normalizes (fun _ => true) scenario6 scenario6_passes rfl with
    | ⟨out, h, hs, ht, ha, _⟩ =>
      ⟨out, h, by rw [hs]; norm_num [scenario6], by rw [ht]; norm_num [scenario6],
        by rw [ha]; simp [scenario6]⟩⟩

theorem two_entry_diel_passes : passes_fatal_checks (fun _ => true) two_entry_diel := by
  refine ⟨rfl, ⟨by simp [two_entry_diel], ?_⟩, ⟨by simp [two_entry_diel, scenario6], ?_⟩,
    rfl, rfl, rfl, rfl⟩
  · intro x hx
    simp only [two_entry_diel, List.mem_cons, List.mem_singleton, List.not_mem_nil,
      or_false] at hx
    rcases hx with rfl | rfl <;> norm_num
  · intro x hx
    simp only [two_entry_diel, scenario6, List.mem_singleton] at hx
    subst hx
    norm_num

/-- C12 fails on the code: the bundle of Scenario 6 with `diel_in = [1, 2]` passes every fatal
check, and `check_inputs` returns it with `diel_in` still of two entries (only a tensor of one
entry is expanded, no other length is repaired or refused). -/
theorem check_inputs_accepts_two_entry_diel :
    ∃ out, check_inputs (fun _ => true) two_entry_diel = some out ∧
      out.diel_in = [1, 2] ∧ out.diel_in.length ≠ 3 := by
  obtain ⟨out, h, _, _, _, hd, _⟩ :=
    check_inputs_eq_some (fun _ => true) two_entry_diel two_entry_diel_passes
  have hd2 : out.diel_in = [1, 2] := by
    rw [hd]
    simp [expand_diel, two_entry_diel]
  exact ⟨out, h, hd2, by rw [hd2]; decide⟩

theorem fmod_p_one_range [FloorRing α] (x : α) : 0 ≤ fmod_p x 1 ∧ fmod_p x 1 < 1 := by
  unfold fmod_p
  rw [div_one, mul_one]
  exact ⟨sub_nonneg.2 (Int.floor_le x), by linarith [Int.lt_floor_add_one x]⟩

/-- What every bundle `check_inputs` returns does satisfy: `sigma` and `Qd` have as many
entries as `charge_position` has rows, `charge_position` has three columns, the dielectric
tensors have no negative entry and at least one entry, and the interfaces lie in `[0, 1)`. -/
theorem check_inputs_accepted_shape [FloorRing α] (file_exists : String → Bool)
    (input_set out : input_data α) (h : check_inputs file_exists input_set = some out) :
    out.sigma.length = mat_n_rows out.charge_position ∧
    out.Qd.length = mat_n_rows out.charge_position ∧
    mat_n_cols out.charge_position = 3 ∧
    (out.diel_in ≠ [] ∧ ∀ x ∈ out.diel_in, 0 ≤ x) ∧
    (out.diel_out ≠ [] ∧ ∀ x ∈ out.diel_out, 0 ≤ x) ∧
    ∀ i, 0 ≤ out.interfaces i ∧ out.interfaces i < 1 := by
  have hp : passes_fatal_checks file_exists input_set :=
    (check_inputs_isSome_iff file_exists input_set).1 (by rw [h]; rfl)
  obtain ⟨out2, h2, hs, hq, hcp, hdi, hdo, hint, _⟩ :=
    check_inputs_eq_some file_exists input_set hp
  rw [h] at h2
  obtain rfl := Option.some.inj h2
  obtain ⟨hc, ⟨hi1, hi2⟩, ⟨ho1, ho2⟩, _⟩ := hp
  refine ⟨?_, ?_, ?_, ⟨?_, ?_⟩, ⟨?_, ?_⟩, ?_⟩
  · rw [hs, hcp]
    split
    · exact List.length_replicate _ _
    · rename_i hh
      rw [List.length_map]
      exact not_not.mp hh
  · rw [hq, hcp]
    split
    · exact List.length_replicate _ _
    · rename_i hh
      exact not_not.mp hh
  · rw [hcp]; exact hc
  · rw [hdi]; exact expand_diel_ne_nil _ hi1
  · rw [hdi]; exact fun x hx => hi2 x (expand_diel_mem _ x hx)
  · rw [hdo]; exact expand_diel_ne_nil _ ho1
  · rw [hdo]; exact fun x hx => ho2 x (expand_diel_mem _ x hx)
  · intro i
    rw [hint]
    exact fmod_p_one_range _

/-! ## Reciprocal-space index vectors (C15) -/

theorem half_cases (N : ℕ) :
    (N : α) = 2 * ((N / 2 : ℕ) : α) ∨ (N : α) = 2 * ((N / 2 : ℕ) : α) + 1 := by
  have h := Nat.div_add_mod N 2
  rcases Nat.mod_two_eq_zero_or_one N with h0 | h1
  · left
    rw [h0, add_zero] at h
    have : ((2 * (N / 2) : ℕ) : α) = (N : α) := by rw [h]
    rw [← this]; push_cast; ring
  · right
    rw [h1] at h
    have : ((2 * (N / 2) + 1 : ℕ) : α) = (N : α) := by rw [h]
    rw [← this]; push_cast; ring

theorem ceil_neg_half [FloorRing α] (N : ℕ) :
    ⌈-(1 / 2) * (N : α)⌉ = -((N / 2 : ℕ) : ℤ) := by
  rw [Int.ceil_eq_iff]
  simp only [Int.cast_neg, Int.cast_natCast]
  rcases half_cases (α := α) N with h | h <;> constructor <;> linarith

theorem ceil_half_sub_one [FloorRing α] (N : ℕ) (hN : 1 ≤ N) :
    ((⌈1 / 2 * (N : α) - 1⌉ : ℤ) : α) = -((N / 2 : ℕ) : α) + ((N - 1 : ℕ) : α) := by
  have hc : ⌈1 / 2 * (N : α) - 1⌉ = -((N / 2 : ℕ) : ℤ) + ((N - 1 : ℕ) : ℤ) := by
    rw [Int.ceil_eq_iff]
    simp only [Int.cast_neg, Int.cast_natCast, Int.cast_add, Int.cast_sub, Int.cast_one,
      Nat.cast_sub hN, Nat.cast_one]
    rcases half_cases (α := α) N with h | h <;> constructor <;> linarith
  rw [hc]
  simp only [Int.cast_neg, Int.cast_natCast, Int.cast_add]

theorem poisson_solver_3D_index_eq [FloorRing α] (N : ℕ) (hN : 1 ≤ N) :
    poisson_solver_3D_index (α := α) N = centred_index α N := by
  have h1 : (1 : α) ≤ (N : α) := by exact_mod_cast hN
  have hle : -(1 / 2) * (N : α) ≤ 1 / 2 * (N : α) - 1 := by linarith
  have hd : 1 / 2 * (N : α) - 1 - -(1 / 2) * (N : α) = ((N - 1 : ℕ) : α) := by
    rw [Nat.cast_sub hN]; push_cast; ring
  unfold poisson_solver_3D_index vec_ceil regspace centred_index
  rw [if_pos hle, hd, Nat.floor_natCast, Nat.sub_add_cancel hN, List.map_map]
  apply List.map_congr_left
  intro i _
  simp only [Function.comp]
  rw [Int.ceil_add_nat, ceil_neg_half]
  simp only [Int.cast_neg, Int.cast_natCast, Int.cast_add]

theorem gaussian_charge_index_eq [FloorRing α] (N : ℕ) (hN : 1 ≤ N) :
    gaussian_charge_index (α := α) N = centred_index α N := by
  have h1 : (1 : α) ≤ (N : α) := by exact_mod_cast hN
  have hs : ((⌈-(1 / 2) * (N : α)⌉ : ℤ) : α) = -((N / 2 : ℕ) : α) := by
    rw [ceil_neg_half]; simp only [Int.cast_neg, Int.cast_natCast]
  have he := ceil_half_sub_one (α := α) N hN
  have hn1 : (0 : α) ≤ ((N - 1 : ℕ) : α) := Nat.cast_nonneg _
  unfold gaussian_charge_index regspace centred_index
  rw [hs, he, if_pos (by linarith)]
  have hd : -((N / 2 : ℕ) : α) + ((N - 1 : ℕ) : α) - -((N / 2 : ℕ) : α) = ((N - 1 : ℕ) : α) := by
    ring
  rw [hd, Nat.floor_natCast, Nat.sub_add_cancel hN]

/-- C15. The Poisson solver and the Gaussian builder use the same reciprocal-index
convention. For every grid count `N ≥ 1`, the vector `ceil(regspace(-N/2, N/2 - 1))` of
`poisson_solver_3D` equals the vector `regspace(ceil(-N/2), ceil(N/2 - 1))` of
`gaussian_charge`; it has exactly `N` entries, holds `0` at position `floor(N/2)`, and after
`ifftshift` holds `0` at index `0`. -/
theorem reciprocal_index_convention [FloorRing α] (N : ℕ) (hN : 1 ≤ N) :
    poisson_solver_3D_index (α := α) N = gaussian_charge_index N ∧
    (poisson_solver_3D_index (α := α) N).length = N ∧
    (poisson_solver_3D_index (α := α) N)[N / 2]? = some 0 ∧
    (ifftshift_vec (poisson_solver_3D_index (α := α) N))[0]? = some 0 := by
  have hm : N / 2 < N := Nat.div_lt_self (by omega) (by norm_num)
  have hlen : (centred_index α N).length = N := by simp [centred_index]
  have hz : (centred_index α N)[N / 2]? = some 0 := by
    unfold centred_index
    rw [List.getElem?_map, List.getElem?_range hm]
    simp
  rw [poisson_solver_3D_index_eq N hN, gaussian_charge_index_eq N hN]
  refine ⟨rfl, hlen, hz, ?_⟩
  unfold ifftshift_vec
  rw [List.getElem?_rotate (by rw [hlen]; omega), hlen, zero_add, Nat.mod_eq_of_lt hm]
  exact hz

/-- C15, at `N = 5` over `ℚ`: the hypothesis holds and both vectors are `-2, -1, 0, 1, 2`,
with `0` at position `2`. -/
theorem reciprocal_index_convention_witness :
    (1 : ℕ) ≤ 5 ∧
    poisson_solver_3D_index (α := ℚ) 5 = gaussian_charge_index 5 ∧
    (poisson_solver_3D_index (α := ℚ) 5)[5 / 2]? = some 0 :=
  ⟨by norm_num,
    (reciprocal_index_convention (α := ℚ) 5 (by norm_num)).1,
    (reciprocal_index_convention (α := ℚ) 5 (by norm_num)).2.2.1⟩

/-! ## Fourier transforms -/

theorem sum_pow_mul_root {K : Type} [Field K] {w : K} {n : ℕ} (hw : IsPrimitiveRoot w n)
    {k : ℕ} (hk : k < n) :
    ∑ r in Finset.range n, w ^ (k * r) = if k = 0 then (n : K) else 0 := by
  by_cases h0 : k = 0
  · subst h0
    simp
  · rw [if_neg h0]
    have hne : w ^ k ≠ 1 := hw.pow_ne_one_of_pos_of_lt (Nat.pos_of_ne_zero h0) hk
    have hone : (w ^ k) ^ n = 1 := by rw [← pow_mul, mul_comm, pow_mul, hw.pow_eq_one, one_pow]
    have hg := geom_sum_mul (w ^ k) n
    rw [hone, sub_self] at hg
    have hs : ∑ r in Finset.range n, (w ^ k) ^ r = 0 := by
      rcases mul_eq_zero.mp hg with h | h
      · exact h
      · exact absurd (sub_eq_zero.mp h) hne
    rw [← hs]
    exact Finset.sum_congr rfl (fun r _ => pow_mul w k r)

/-- Summing the normalised Fourier sum over a full period gives the zero-frequency
coefficient. -/
theorem sum_dft_sum_div {K : Type} [Field K] {w : K} {n : ℕ} (hw : IsPrimitiveRoot w n)
    (hn : 1 ≤ n) (f : ℕ → K) :
    ∑ r in Finset.range n, dft_sum w n f r / (n : K) = f 0 := by
  haveI : NeZero n := ⟨by omega⟩
  have hnK : (n : K) ≠ 0 := (hw.neZero' (R := K)).ne
  unfold dft_sum
  rw [← Finset.sum_div, Finset.sum_comm]
  have h1 : ∀ k ∈ Finset.range n, ∑ r in Finset.range n, f k * w ^ (k * r)
      = if k = 0 then f 0 * (n : K) else 0 := by
    intro k hk
    rw [← Finset.mul_sum, sum_pow_mul_root hw (Finset.mem_range.mp hk)]
    split
    · rename_i h0; rw [h0]
    · exact mul_zero _
  rw [Finset.sum_congr rfl h1, Finset.sum_ite_eq' (Finset.range n) 0 (fun _ => f 0 * (n : K)),
    if_pos (Finset.mem_range.mpr (by omega)), mul_div_assoc, div_self hnK, mul_one]

/-- The sum of `ifft X` over the grid is the coefficient `X(0, 0, 0)`. -/
theorem cube_accu_ifft {K : Type} [Field K] (root : ℕ → K) (n : urowvec3)
    (hroot : ∀ a, IsPrimitiveRoot (root (n a)) (n a)) (hn : ∀ a, 1 ≤ n a) (X : cube K) :
    cube_accu n (ifft root n X) = X 0 0 0 := by
  unfold cube_accu ifft
  have e1 : ∀ j k, ∑ i in Finset.range (n 0),
      dft_sum (root (n 0)) (n 0) (fun k0 =>
        dft_sum (root (n 1)) (n 1) (fun k1 =>
          dft_sum (root (n 2)) (n 2) (fun k2 => X k0 k1 k2) k / (n 2 : K)) j / (n 1 : K)) i
        / (n 0 : K)
      = dft_sum (root (n 1)) (n 1) (fun k1 =>
          dft_sum (root (n 2)) (n 2) (fun k2 => X 0 k1 k2) k / (n 2 : K)) j / (n 1 : K) :=
    fun j k => sum_dft_sum_div (hroot 0) (hn 0) _
  have e2 : ∀ k, ∑ j in Finset.range (n 1),
      dft_sum (root (n 1)) (n 1) (fun k1 =>
          dft_sum (root (n 2)) (n 2) (fun k2 => X 0 k1 k2) k / (n 2 : K)) j / (n 1 : K)
      = dft_sum (root (n 2)) (n 2) (fun k2 => X 0 0 k2) k / (n 2 : K) :=
    fun k => sum_dft_sum_div (hroot 1) (hn 1) _
  rw [Finset.sum_comm]
  simp only [Finset.sum_comm (s := Finset.range (n 0)) (t := Finset.range (n 2)), e1]
  rw [Finset.sum_comm]
  simp only [e2]
  exact sum_dft_sum_div (hroot 2) (hn 2) _

/-- The zero-frequency coefficient of `fft V` is the sum of `V` over the grid. -/
theorem fft_zero {K : Type} [Field K] (root : ℕ → K) (n : urowvec3) (V : cube K) :
    fft root n V 0 0 0 = cube_accu n V := by
  simp [fft, dft_sum, cube_accu]

/-! ## Gaussian charge (C14) -/

/-- The cell of `gaussian_charge` as `UpdateCell` leaves it has a positive voxel volume when
the lengths are positive and every axis has at least one point. -/
theorem UpdateCell_voxel_vol_pos (cell : slabcc_cell_type α) (lengths : rowvec3 α)
    (divi : urowvec3) (hl : ∀ a, 0 < lengths a) (hd : ∀ a, 1 ≤ divi a) :
    0 < (UpdateCell cell lengths divi).voxel_vol := by
  have h : ∀ a, (0 : α) < lengths a / (divi a : α) := fun a =>
    div_pos (hl a) (by exact_mod_cast hd a)
  exact mul_pos (mul_pos (h 0) (h 1)) (h 2)

/-- The scaled index vector of `gaussian_charge` is `0` at position `floor(N / 2)`. -/
theorem gaussian_charge_index_centre [FloorRing α] (N : ℕ) (hN : 1 ≤ N) (g : α) :
    ((gaussian_charge_index (α := α) N).map (fun x => x * g)).getD (N / 2) 0 = 0 := by
  rw [gaussian_charge_index_eq N hN]
  unfold centred_index
  have hlt : N / 2 < N := Nat.div_lt_self hN (by norm_num)
  rw [List.getD_eq_getElem?_getD, List.getElem?_map, List.getElem?_map,
    List.getElem?_range hlt]
  simp

theorem cube_accu_div {K : Type} [Field K] (n : urowvec3) (X : cube K) (c : K) :
    cube_accu n (fun i j k => X i j k / c) = cube_accu n X / c := by
  unfold cube_accu
  simp only [Finset.sum_div]

theorem cube_accu_map {K : Type} [Field K] [Algebra α K] (re : K →ₗ[α] α) (n : urowvec3)
    (X : cube K) : cube_accu n (fun i j k => re (X i j k)) = re (cube_accu n X) := by
  unfold cube_accu
  simp only [map_sum]

/-- The zero-frequency entry of the shifted array `rhok` of `gaussian_charge` is `Q`. -/
theorem gaussian_charge_rhok_zero [FloorRing α] {K : Type} [Field K] [Algebra α K] (pi : α)
    (exp : α → α) (cexp : K → K) (I : K) (cell : slabcc_cell_type α) (Q : α)
    (pos : rowvec3 α) (sigma : α) (hgrid : ∀ a, 1 ≤ cell.grid a)
    (hexp : exp 0 = 1) (hcexp : cexp 0 = 1) :
    ifftshift_cube cell.grid (gaussian_charge_rhok pi exp cexp I cell Q pos sigma) 0 0 0
      = algebraMap α K Q := by
  have hmod : ∀ a, (0 + cell.grid a / 2) % cell.grid a = cell.grid a / 2 := fun a => by
    rw [Nat.zero_add]
    exact Nat.mod_eq_of_lt (Nat.div_lt_self (hgrid a) (by norm_num))
  unfold ifftshift_cube gaussian_charge_rhok ndgrid
  simp only [hmod, gaussian_charge_index_centre _ (hgrid _)]
  simp [cx, hexp, hcexp]

/-- The sum of `gaussian_charge` over the grid is `Q / voxel_vol`. -/
theorem gaussian_charge_accu [FloorRing α] {K : Type} [Field K] [Algebra α K] (pi : α)
    (exp : α → α) (cexp : K → K) (I : K) (root : ℕ → K) (cell : slabcc_cell_type α) (Q : α)
    (pos : rowvec3 α) (sigma : α) (hgrid : ∀ a, 1 ≤ cell.grid a)
    (hroot : ∀ a, IsPrimitiveRoot (root (cell.grid a)) (cell.grid a))
    (hexp : exp 0 = 1) (hcexp : cexp 0 = 1) :
    cube_accu cell.grid (gaussian_charge pi exp cexp I root cell Q pos sigma)
      = algebraMap α K (Q / cell.voxel_vol) := by
  unfold gaussian_charge
  simp only []
  rw [cube_accu_div, cube_accu_ifft root cell.grid hroot hgrid,
    gaussian_charge_rhok_zero pi exp cexp I cell Q pos sigma hgrid hexp hcexp, map_div₀]

/-- C14. `gaussian_charge` carries the total charge `Q`. For every cell with at least one grid
point per axis and a non-zero voxel volume (as `UpdateCell` gives for positive lengths), every
`Q`, `pos` and `sigma`: the zero-frequency coefficient of the reciprocal-space array is `Q`
and sits at index `(0, 0, 0)` after the inverse shift, and the sum over all voxels of the
real part of the returned density, times `voxel_vol`, equals `Q`. The exponentials enter
through `exp 0 = 1` only; `re` is the real part and `root` gives the roots of unity of the
inverse transform. -/
theorem gaussian_charge_total_charge [FloorRing α] {K : Type} [Field K] [Algebra α K]
    (pi : α) (exp : α → α) (cexp : K → K) (I : K) (root : ℕ → K) (re : K →ₗ[α] α)
    (cell : slabcc_cell_type α) (Q : α) (pos : rowvec3 α) (sigma : α)
    (hgrid : ∀ a, 1 ≤ cell.grid a) (hvol : cell.voxel_vol ≠ 0)
    (hroot : ∀ a, IsPrimitiveRoot (root (cell.grid a)) (cell.grid a))
    (hexp : exp 0 = 1) (hcexp : cexp 0 = 1) (hre : ∀ a, re (algebraMap α K a) = a) :
    ifftshift_cube cell.grid (gaussian_charge_rhok pi exp cexp I cell Q pos sigma) 0 0 0
      = algebraMap α K Q ∧
    cube_accu cell.grid
      (fun i j k => re (gaussian_charge pi exp cexp I root cell Q pos sigma i j k))
      * cell.voxel_vol = Q := by
  refine ⟨gaussian_charge_rhok_zero pi exp cexp I cell Q pos sigma hgrid hexp hcexp, ?_⟩
  rw [cube_accu_map re, gaussian_charge_accu pi exp cexp I root cell Q pos sigma hgrid hroot
    hexp hcexp, hre, div_mul_cancel₀ _ hvol]

/-- C14, over the real and complex numbers on the `8 × 8 × 8` unit cell, for a unit charge of
width `1` at the centre: the hypotheses hold and the density sums to the charge `1`. -/
theorem gaussian_charge_total_charge_witness :
    (∀ a, 1 ≤ (unit_cell ℝ).grid a) ∧ (unit_cell ℝ).voxel_vol ≠ 0 ∧
    (∀ a, IsPrimitiveRoot (Complex.exp (2 * Real.pi * Complex.I / ((unit_cell ℝ).grid a : ℂ)))
      ((unit_cell ℝ).grid a)) ∧
    cube_accu (unit_cell ℝ).grid
      (fun i j k => Complex.reLm (gaussian_charge Real.pi Real.exp Complex.exp Complex.I
        (fun n => Complex.exp (2 * Real.pi * Complex.I / (n : ℂ))) (unit_cell ℝ) 1
        (fun _ => 1 / 2) 1 i j k))
      * (unit_cell ℝ).voxel_vol = 1 :=
  ⟨fun _ => by norm_num [unit_cell], by norm_num [unit_cell],
    fun _ => Complex.isPrimitiveRoot_exp _ (by norm_num [unit_cell]),
    (gaussian_charge_total_charge Real.pi Real.exp Complex.exp Complex.I
      (fun n => Complex.exp (2 * Real.pi * Complex.I / (n : ℂ))) Complex.reLm (unit_cell ℝ) 1
      (fun _ => 1 / 2) 1 (fun _ => by norm_num [unit_cell]) (by norm_num [unit_cell])
      (fun _ => Complex.isPrimitiveRoot_exp _ (by norm_num [unit_cell]))
      Real.exp_zero Complex.exp_zero (fun a => by simp)).2⟩

/-! ## Poisson solver (C13) -/

theorem foldlM_isSome {β γ : Type} (f : β → γ → Option β) (l : List γ)
    (h : ∀ i ∈ l, ∀ b, (f b i).isSome = true) (b : β) : (l.foldlM f b).isSome = true := by
  induction l generalizing b with
  | nil => rfl
  | cons a t ih =>
    rw [List.foldlM_cons]
    obtain ⟨b1, hb1⟩ := Option.isSome_iff_exists.mp (h a (List.mem_cons_self a t) b)
    rw [hb1]
    exact ih (fun i hi => h i (List.mem_cons_of_mem a hi)) b1

theorem poisson_solver_3D_index_length [FloorRing α] (N : ℕ) (hN : 1 ≤ N) :
    (poisson_solver_3D_index (α := α) N).length = N := by
  rw [poisson_solver_3D_index_eq N hN]
  simp [centred_index]

theorem mat_n_cols_of_shape {β : Type} {M : mat β} {n c : ℕ} (hM : mat_shape M n c)
    (hn : 1 ≤ n) : mat_n_cols M = c := by
  obtain ⟨hlen, hrow⟩ := hM
  cases M with
  | nil => simp at hlen; omega
  | cons r t => exact hrow r (List.mem_cons_self r t)

theorem mat_swap_cols_shape {β : Type} {M : mat β} {n c : ℕ} (hM : mat_shape M n c)
    (hn : 1 ≤ n) {a b : ℕ} (ha : a < c) (hb : b < c) :
    ∃ M1, mat_swap_cols M a b = some M1 ∧ mat_shape M1 n c := by
  have hc := mat_n_cols_of_shape hM hn
  refine ⟨_, by rw [mat_swap_cols, hc, if_pos ⟨ha, hb⟩], by simpa using hM.1, ?_⟩
  intro r hr
  obtain ⟨r0, hr0, rfl⟩ := List.mem_map.mp hr
  have hl := hM.2 r0 hr0
  split <;> simp [hl]

/-- The set-up of `poisson_solver_3D` succeeds on a dielectric matrix of the shape of the
grid along the normal direction. -/
theorem poisson_solver_3D_setup_isSome [FloorRing α] {K : Type} [Field K] [Algebra α K]
    (pi : α) (root : ℕ → K) (cell : slabcc_cell_type α) (rho : cube K) (diel : mat α)
    (hgrid : ∀ a, 1 ≤ cell.grid a)
    (hdiel : mat_shape diel (cell.grid cell.normal_direction) 3) :
    ∃ s, poisson_solver_3D_setup pi root cell rho diel = some s := by
  have hn := hgrid cell.normal_direction
  obtain ⟨d1, hd1, hs1⟩ : ∃ d1,
      (if cell.normal_direction ≠ 2 then mat_swap_cols diel cell.normal_direction 2
        else some diel) = some d1 ∧ mat_shape d1 (cell.grid cell.normal_direction) 3 := by
    by_cases h2 : cell.normal_direction = 2
    · exact ⟨diel, by simp [h2], hdiel⟩
    · obtain ⟨M1, h1, h3⟩ := mat_swap_cols_shape hdiel hn
        (a := (cell.normal_direction : ℕ)) (b := 2) (by omega) (by norm_num)
      exact ⟨M1, by rw [if_pos h2]; exact h1, h3⟩
  have hc := mat_n_cols_of_shape hs1 hn
  have hnp : (if cell.normal_direction ≠ 2 then swap_cols3 cell.grid cell.normal_direction
      else cell.grid) 2 = cell.grid cell.normal_direction := by
    by_cases h2 : cell.normal_direction = 2
    · simp [h2]
    · rw [if_pos h2]
      simp [swap_cols3, Ne.symm h2]
  have hlen : (ifftshift_vec ((poisson_solver_3D_index (α := α)
      ((if cell.normal_direction ≠ 2 then swap_cols3 cell.grid cell.normal_direction
        else cell.grid) 2)).map (fun g => g * (2 * pi /
          (if cell.normal_direction ≠ 2 then swap_cols3 cell.lengths cell.normal_direction
            else cell.lengths) 2)))).length = cell.grid cell.normal_direction := by
    rw [hnp]
    simp [ifftshift_vec, poisson_solver_3D_index_length _ hn]
  unfold poisson_solver_3D_setup
  simp only [hd1, hc, lt_irrefl, if_false]
  rw [if_neg (by rw [hlen]; simp [mat_n_rows, hs1.1])]
  exact ⟨_, rfl⟩

/-- The loop over the modes returns when every solve does. -/
theorem poisson_solver_3D_loop_isSome {K : Type} [Field K] [Algebra α K]
    (solve : ℕ → cx_mat K → (ℕ → K) → Option (ℕ → K)) (nd : Fin 3) (s : poisson_modes α K)
    (hsolve : ∀ k < s.Gx0.length, ∀ m < s.Gy0.length,
      (solve s.size (poisson_solver_3D_AG s k m) (poisson_solver_3D_rhs nd s k m)).isSome
        = true) :
    ∃ Vk, poisson_solver_3D_loop solve nd s = some Vk := by
  apply Option.isSome_iff_exists.mp
  unfold poisson_solver_3D_loop
  apply foldlM_isSome
  intro k hk Vk
  apply foldlM_isSome
  intro m hm Vk1
  obtain ⟨x, hx⟩ := Option.isSome_iff_exists.mp
    (hsolve k (List.mem_range.mp hk) m (List.mem_range.mp hm))
  rw [hx]
  rfl

/-- What `poisson_solver_3D` returns is the inverse transform of an array whose entry
`(0, 0, 0)` is zero, on a grid with at least one point per axis. -/
theorem poisson_solver_3D_eq_some [FloorRing α] {K : Type} [Field K] [Algebra α K] (pi : α)
    (root : ℕ → K) (solve : ℕ → cx_mat K → (ℕ → K) → Option (ℕ → K))
    (cell : slabcc_cell_type α) (rho : cube K) (diel : mat α) (V : cube K)
    (h : poisson_solver_3D pi root solve cell rho diel = some V) :
    (∀ a, 1 ≤ cell.grid a) ∧ ∃ Vk : cube K, Vk 0 0 0 = 0 ∧ V = ifft root cell.grid Vk := by
  unfold poisson_solver_3D at h
  simp only [Option.bind_eq_bind, Option.bind_eq_some, Option.pure_def, Option.some.injEq]
    at h
  obtain ⟨s, -, Vk, -, Vk1, hset, hV⟩ := h
  unfold cube_set at hset
  split at hset
  · rename_i hpos
    refine ⟨fun a => ?_, Vk1, ?_, hV.symm⟩
    · fin_cases a
      · exact hpos.1
      · exact hpos.2.1
      · exact hpos.2.2
    · rw [← Option.some.inj hset]
      simp
  · exact absurd hset (by simp)

/-- C13. `poisson_solver_3D` returns a potential in the zero-average gauge. For every charge
grid `rho`, dielectric matrix `diel`, grid and normal direction: when the grid has at least
one point per axis, `diel` has one row of three entries per point along the normal direction
and every per-mode linear solve succeeds, the function returns; and whatever it returns has
its `(0, 0, 0)` reciprocal-space coefficient equal to `0`, so the sum and the mean of `V`
over all grid points are `0`. `root` gives the roots of unity of the transforms. -/
theorem poisson_solver_3D_gauge [FloorRing α] {K : Type} [Field K] [Algebra α K] (pi : α)
    (root : ℕ → K) (solve : ℕ → cx_mat K → (ℕ → K) → Option (ℕ → K))
    (cell : slabcc_cell_type α) (rho : cube K) (diel : mat α)
    (hroot : ∀ a, IsPrimitiveRoot (root (cell.grid a)) (cell.grid a)) :
    ((∀ a, 1 ≤ cell.grid a) → mat_shape diel (cell.grid cell.normal_direction) 3 →
      (∀ s, poisson_solver_3D_setup pi root cell rho diel = some s →
        ∀ k < s.Gx0.length, ∀ m < s.Gy0.length,
          (solve s.size (poisson_solver_3D_AG s k m)
            (poisson_solver_3D_rhs cell.normal_direction s k m)).isSome = true) →
      ∃ V, poisson_solver_3D pi root solve cell rho diel = some V) ∧
    (∀ V, poisson_solver_3D pi root solve cell rho diel = some V →
      fft root cell.grid V 0 0 0 = 0 ∧ cube_accu cell.grid V = 0 ∧
      cube_accu cell.grid V / ((cell.grid 0 * cell.grid 1 * cell.grid 2 : ℕ) : K) = 0) := by
  constructor
  · intro hgrid hdiel hsolve
    obtain ⟨s, hs⟩ := poisson_solver_3D_setup_isSome pi root cell rho diel hgrid hdiel
    obtain ⟨Vk, hVk⟩ := poisson_solver_3D_loop_isSome solve cell.normal_direction s
      (hsolve s hs)
    have h0 : 0 < cell.grid 0 ∧ 0 < cell.grid 1 ∧ 0 < cell.grid 2 :=
      ⟨hgrid 0, hgrid 1, hgrid 2⟩
    unfold poisson_solver_3D
    simp only [hs, hVk, cube_set, if_pos h0, Option.bind_eq_bind, Option.some_bind,
      Option.pure_def]
    exact ⟨_, rfl⟩
  · intro V hV
    obtain ⟨hgrid, Vk, h0, rfl⟩ := poisson_solver_3D_eq_some pi root solve cell rho diel V hV
    have hsum : cube_accu cell.grid (ifft root cell.grid Vk) = 0 := by
      rw [cube_accu_ifft root cell.grid hroot hgrid, h0]
    exact ⟨by rw [fft_zero, hsum], hsum, by rw [hsum, zero_div]⟩

theorem poisson_solver_3D_index_two : poisson_solver_3D_index (α := ℚ) 2 = [-1, 0] := by
  rw [poisson_solver_3D_index_eq 2 (by norm_num)]
  simp [centred_index, List.range_succ]

theorem two_point_cell_root (a : Fin 3) :
    IsPrimitiveRoot ((fun _ => -1 : ℕ → ℚ) (two_point_cell.grid a)) (two_point_cell.grid a) :=
  IsPrimitiveRoot.neg_one 0 (by norm_num)

theorem two_slice_diel_shape :
    mat_shape two_slice_diel (two_point_cell.grid two_point_cell.normal_direction) 3 := by
  refine ⟨rfl, ?_⟩
  intro r hr
  simp only [two_slice_diel, List.mem_cons, List.mem_singleton, List.not_mem_nil,
    or_false] at hr
  rcases hr with rfl | rfl <;> rfl

theorem rotate_pair {β : Type} (a b : β) : [a, b].rotate 1 = [b, a] := rfl

set_option maxHeartbeats 2000000 in
theorem two_point_solves (s : poisson_modes ℚ ℚ)
    (hs : poisson_solver_3D_setup (22 / 7) (fun _ => -1) two_point_cell point_charge
      two_slice_diel = some s) (k : ℕ) (hk : k < s.Gx0.length) (m : ℕ)
    (hm : m < s.Gy0.length) :
    (solve_cramer s.size (poisson_solver_3D_AG s k m)
      (poisson_solver_3D_rhs two_point_cell.normal_direction s k m)).isSome = true := by
  unfold poisson_solver_3D_setup at hs
  simp [two_point_cell, mat_swap_cols, mat_n_cols, two_slice_diel, swap_cols3,
    poisson_solver_3D_index_two, ifftshift_vec, mat_n_rows, rotate_pair] at hs
  subst hs
  have hk2 : k < 2 := by simpa using hk
  have hm2 : m < 2 := by simpa using hm
  interval_cases k <;> interval_cases m <;>
    norm_num [solve_cramer, poisson_solver_3D_AG, circ_toeplitz, fft_mat, dft_sum,
      Finset.sum_range_succ, mat_elem, mat_n_rows]

/-- C13, on the `2 × 2 × 2` cell over `ℚ` (the transforms of length `2` use the root of unity
`-1`), with a point charge, a two-slice dielectric profile and Cramer's rule as the solver:
the hypotheses hold, the solver returns, and the potential sums to `0`. -/
theorem poisson_solver_3D_gauge_witness :
    (∀ a, IsPrimitiveRoot ((fun _ => -1 : ℕ → ℚ) (two_point_cell.grid a))
      (two_point_cell.grid a)) ∧
    (∀ a, 1 ≤ two_point_cell.grid a) ∧
    mat_shape two_slice_diel (two_point_cell.grid two_point_cell.normal_direction) 3 ∧
    ∃ V, poisson_solver_3D (22 / 7) (fun _ => -1) solve_cramer two_point_cell point_charge
        two_slice_diel = some V ∧
      cube_accu two_point_cell.grid V = 0 :=
  ⟨two_point_cell_root, fun _ => by simp [two_point_cell], two_slice_diel_shape,
    match (poisson_solver_3D_gauge (22 / 7) (fun _ => -1) solve_cramer two_point_cell
        point_charge two_slice_diel two_point_cell_root).1
      (fun _ => by simp [two_point_cell]) two_slice_diel_shape two_point_solves with
    | ⟨V, hV⟩ =>
      ⟨V, hV, ((poisson_solver_3D_gauge (22 / 7) (fun _ => -1) solve_cramer two_point_cell
        point_charge two_slice_diel two_point_cell_root).2 V hV).2.1⟩⟩

end Slabcc
